import Mathlib

/-!
# petrel/gen: the fixture generators `words` and `blobs`

A shallow embedding of `src/gen/algos.h`, `src/gen/words.c` and
`src/gen/blobs.c`.

Conventions of the embedding.

* A byte (`unsigned char`, or a value returned by `getchar`) is a `Nat`;
  a conversion to `unsigned char` is written `% 256`.  A stream of bytes
  received from outside (standard input, a digest) is a `List Nat`, and the
  predicate `Bytes` says that its members are below 256.
* A C string is the list of its bytes before the terminating NUL, so
  `strlen` is `List.length`.
* `size_t` counters are `Nat`: the only arithmetic on them is `i + 1`,
  `len + 1` and `2 * cap + 16`, bounded by the size of an allocated object.
* The `int` result of `snprintf` is the length of the formatted string, a
  `Nat`: the strings a process receives as arguments are far shorter than
  `INT_MAX`.
* What the programs take from libc and OpenSSL is a parameter, `Env`.
* A failed `assert` aborts the process: fallible code returns `Res`, whose
  `abort` carries the state reached.
-/

/-! ## The environment -/

/-- The seven `EVP_MD` objects named by the registry (`EVP_sha1`, ...). -/
inductive EVP_MD where
  | sha1 | sha256 | sha224 | sha512 | sha384 | sha512_224 | sha512_256
  deriving DecidableEq

/-- What the programs take from outside the repository. -/
structure Env where
  /-- OpenSSL: the bytes `EVP_DigestFinal_ex` writes for a message digested
  under an `EVP_MD`; `none` when `EVP_MD_CTX_new`, `EVP_DigestInit_ex`,
  `EVP_DigestUpdate` or `EVP_DigestFinal_ex` fails. -/
  evp : EVP_MD → List Nat → Option (List Nat)
  /-- libc: whether `realloc` to the given size succeeds. -/
  alloc : Nat → Bool
  /-- libc: `rand_seq seed k` is the value of the `k`-th call of `rand()`
  (counting from 0) after `srand(seed)`. -/
  rand_seq : Nat → Nat → Nat
  /-- libc: whether `fopen(path, "wb")` succeeds. -/
  fopen : List Nat → Bool
  /-- libc: whether `fwrite` of these bytes to the file at the path writes
  them all. -/
  fwrite : List Nat → List Nat → Bool
  /-- libc: whether `fclose` of the file at the path returns 0. -/
  fclose : List Nat → Bool
  /-- The indeterminate content of storage that was never written: cell `k`
  of the fresh object `o` holds `junk o k % 256`. -/
  junk : Nat → Nat → Nat

/-- Every member is a byte value. -/
def Bytes (l : List Nat) : Prop := ∀ b ∈ l, b < 256

instance (l : List Nat) : Decidable (Bytes l) := by
  unfold Bytes; infer_instance

/-- The bytes of an ASCII string literal. -/
def cstr (s : String) : List Nat := s.toList.map Char.toNat

/-- The fresh object `o`, of `n` bytes of indeterminate content. -/
def fresh (env : Env) (o n : Nat) : List Nat :=
  (List.range n).map (fun k => env.junk o k % 256)

/-! ## The outside world of a process -/

/-- The state a process shares with its environment. -/
structure World where
  /-- The bytes not yet read from standard input. -/
  stdin : List Nat
  /-- The bytes written to standard output so far. -/
  stdout : List Nat
  /-- The files written so far, oldest first: path and content. -/
  files : List (List Nat × List Nat)
  /-- The seed of the last `srand` (1 before any). -/
  seed : Nat
  /-- The number of `rand()` calls since the last `srand`. -/
  draws : Nat
  deriving DecidableEq

/-- The world at process start, with the given standard input. -/
def World.init (stdin : List Nat) : World :=
  ⟨stdin, [], [], 1, 0⟩

/-- The value of the macro `EOF`. -/
def EOF : Int := -1

/-- The libc call `getchar()`: the next byte of standard input as an `int`,
or `EOF`. -/
def getchar (w : World) : Int × World :=
  match w.stdin with
  | [] => (EOF, w)
  | b :: rest => ((b : Int), { w with stdin := rest })

/-- The libc call `isspace(c)` in the "C" locale (the programs never call
`setlocale`): space, `\t`, `\n`, `\v`, `\f`, `\r`. -/
def isspace (c : Int) : Bool :=
  c == 32 || (9 ≤ c && c ≤ 13)

/-- The libc call `putchar(c)`. -/
def putchar (c : Nat) (w : World) : World :=
  { w with stdout := w.stdout ++ [c] }

/-- The libc call `fputs(s, stdout)`. -/
def fputs (s : List Nat) (w : World) : World :=
  { w with stdout := w.stdout ++ s }

/-- What `printf("%02x", v)` writes: `v` in lowercase hexadecimal, padded
on the left with `0` to at least two characters. -/
def fmt_02x (v : Nat) : List Nat :=
  let ds := (Nat.toDigits 16 v).map Char.toNat
  List.replicate (2 - ds.length) 48 ++ ds

/-- What `%zu` writes: `i` in decimal. -/
def fmt_zu (i : Nat) : List Nat :=
  (Nat.toDigits 10 i).map Char.toNat

/-- The libc call `srand(seed)`. -/
def srand (seed : Nat) (w : World) : World :=
  { w with seed := seed, draws := 0 }

/-- The libc call `rand()`. -/
def rand (env : Env) (w : World) : Nat × World :=
  (env.rand_seq w.seed w.draws, { w with draws := w.draws + 1 })

/-- The conversion of an `int` to `unsigned char`. -/
def toUChar (c : Int) : Nat := (c % 256).toNat

/-! ## Control flow -/

/-- The result of running fallible code from a state. -/
inductive Res (σ : Type) where
  /-- The code ran to its end. -/
  | ok (s : σ)
  /-- An `assert` failed in state `s`. -/
  | abort (s : σ)
  /-- The fuel of a loop of the embedding ran out. -/
  | fuel
  deriving DecidableEq

/-- The loop `for (size_t i = lo; i < lo + n; i++) s = body i s`, for a body
that cannot fail. -/
def forLoop {σ : Type} (body : Nat → σ → σ) : Nat → Nat → σ → σ
  | 0, _, s => s
  | n + 1, i, s => forLoop body n (i + 1) (body i s)

/-- The loop `for (size_t i = lo; i < lo + n; i++) body`, for a body that
can fail. -/
def forLoopR {σ : Type} (body : Nat → σ → Res σ) : Nat → Nat → σ → Res σ
  | 0, _, s => .ok s
  | n + 1, i, s =>
    match body i s with
    | .ok s1 => forLoopR body n (i + 1) s1
    | .abort s1 => .abort s1
    | .fuel => .fuel

/-! ## algos.h -/

/-- The macro `N_ALGOS`. -/
def N_ALGOS : Nat := 7

/-- The type `struct algo`. -/
structure algo where
  name : String
  md : EVP_MD
  digest_len : Nat
  deriving DecidableEq

instance : Inhabited algo := ⟨⟨"", .sha1, 0⟩⟩

/-- The registry `algos[N_ALGOS]`. -/
def algos : List algo :=
  [⟨"SHA1", .sha1, 20⟩,
   ⟨"SHA256", .sha256, 32⟩,
   ⟨"SHA224", .sha224, 28⟩,
   ⟨"SHA512", .sha512, 64⟩,
   ⟨"SHA384", .sha384, 48⟩,
   ⟨"SHA512/224", .sha512_224, 28⟩,
   ⟨"SHA512/256", .sha512_256, 32⟩]

namespace Algos

/-- The function `hash`: digests the first `len` bytes of `str` under
`a->md()` and stores the digest at the start of `digest`; `none` when one
of its assertions fails.  The bytes of `digest` past the stored digest keep
their content. -/
def hash (env : Env) (a : algo) (digest : List Nat) (str : List Nat) (len : Nat) :
    Option (List Nat) :=
  match env.evp a.md (str.take len) with
  | none => none
  | some d => some (d ++ digest.drop d.length)

end Algos

/-- The state of the algorithm loop: the world and the array
`unsigned char digest[64]`. -/
structure DState where
  w : World
  digest : List Nat
  deriving DecidableEq

/-- The hex loop, the same in both programs:
`for (k = 0; k < n; k++) printf("%02x", digest[k])`. -/
def printDigest (digest : List Nat) (n : Nat) (w : World) : World :=
  forLoop (fun k w => fputs (fmt_02x (digest.getD k 0)) w) n 0 w

/-- The body of the algorithm loop, the same in both programs:
`hash(&algos[i], digest, str, len)`, then the hex loop up to
`algos[i].digest_len`, then
`putchar((i == N_ALGOS - 1) ? '\n' : '\t')`. -/
def digestBody (env : Env) (str : List Nat) (len : Nat) (i : Nat) (s : DState) :
    Res DState :=
  match Algos.hash env (algos.getD i default) s.digest str len with
  | none => .abort s
  | some digest =>
    let w := printDigest digest (algos.getD i default).digest_len s.w
    .ok ⟨putchar (if i = N_ALGOS - 1 then 10 else 9) w, digest⟩

/-- The algorithm loop `for (size_t i = 0; i < N_ALGOS; i++)` of a data
row. -/
def digestLoop (env : Env) (str : List Nat) (len : Nat) (s : DState) : Res DState :=
  forLoopR (digestBody env str len) N_ALGOS 0 s

/-- The header loop, the same in both programs:
`for (i = 0; i < N_ALGOS; i++) { fputs(algos[i].name, stdout);
putchar((i == N_ALGOS - 1) ? '\n' : '\t'); }`. -/
def headerLoop (w : World) : World :=
  forLoop (fun i w =>
    putchar (if i = N_ALGOS - 1 then 10 else 9)
      (fputs (cstr (algos.getD i default).name) w)) N_ALGOS 0 w

/-! ## words.c -/

namespace Words

/-- The type `struct buffer`; `data` is the allocated object, of `cap`
bytes. -/
structure buffer where
  data : List Nat
  len : Nat
  cap : Nat
  deriving DecidableEq

/-- The constant `empty_buffer`. -/
def empty_buffer : buffer := ⟨[], 0, 0⟩

/-- The libc call `realloc(data, size)`: the old content, cut or extended
with indeterminate bytes to `size` bytes; `none` when it returns `NULL`. -/
def realloc (env : Env) (data : List Nat) (size : Nat) : Option (List Nat) :=
  if env.alloc size then
    some ((data ++ (fresh env size size).drop data.length).take size)
  else none

/-- The function `buffer_push`; `none` when one of its assertions fails. -/
def buffer_push (env : Env) (buf : buffer) (byte : Nat) : Option buffer :=
  if ¬ buf.len ≤ buf.cap then none
  else if buf.len = buf.cap then
    let cap := 2 * buf.cap + 16
    match realloc env buf.data cap with
    | none => none
    | some data => some ⟨data.set buf.len byte, buf.len + 1, cap⟩
  else some ⟨buf.data.set buf.len byte, buf.len + 1, buf.cap⟩

/-- The state of `main`: the world and the locals `buf`, `c` and
`digest`. -/
structure WState where
  w : World
  buf : buffer
  c : Int
  digest : List Nat
  deriving DecidableEq

/-- The loop `do { buffer_push(&buf, c); c = getchar(); }
while (c != EOF && !isspace(c))`. -/
def wordLoop (env : Env) : Nat → WState → Res WState
  | 0, _ => .fuel
  | n + 1, s =>
    match buffer_push env s.buf (toUChar s.c) with
    | none => .abort s
    | some buf =>
      let r := getchar s.w
      let s1 : WState := { s with buf := buf, c := r.1, w := r.2 }
      if r.1 != EOF && !isspace r.1 then wordLoop env n s1 else .ok s1

/-- The data row of the word in `buf` (lines 46 to 60):
`for (i = 0; i < buf.len; i++) putchar(buf.data[i])`, `putchar('\t')`,
then the algorithm loop over `buf.data`, `buf.len`. -/
def emitRow (env : Env) (s : WState) : Res WState :=
  let w := forLoop (fun i w => putchar (s.buf.data.getD i 0) w) s.buf.len 0 s.w
  match digestLoop env s.buf.data s.buf.len ⟨putchar 9 w, s.digest⟩ with
  | .ok d => .ok { s with w := d.w, digest := d.digest }
  | .abort d => .abort { s with w := d.w, digest := d.digest }
  | .fuel => .fuel

/-- The loop `for (;;)` of `main`; `ok` is its `break`. -/
def mainLoop (env : Env) : Nat → WState → Res WState
  | 0, _ => .fuel
  | n + 1, s =>
    let r := getchar s.w
    let s0 : WState := { s with buf := { s.buf with len := 0 }, c := r.1, w := r.2 }
    if r.1 = EOF then .ok s0
    else if isspace r.1 then mainLoop env n s0
    else
      match wordLoop env (s0.w.stdin.length + 1) s0 with
      | .ok s1 =>
        match emitRow env s1 with
        | .ok s2 => mainLoop env n s2
        | .abort s2 => .abort s2
        | .fuel => .fuel
      | .abort s1 => .abort s1
      | .fuel => .fuel

/-- The function `main` of words.c, run on a standard input; `ok` is
`return 0`. -/
def main (env : Env) (stdin : List Nat) : Res WState :=
  let w := headerLoop (fputs (cstr "word\t") (World.init stdin))
  mainLoop env (stdin.length + 1) ⟨w, empty_buffer, 0, fresh env 0 64⟩

end Words

/-! ## blobs.c -/

namespace Blobs

/-- The macro `N_BLOBS`. -/
def N_BLOBS : Nat := 2048

/-- The macro `MAX_BLOB_LENGTH`. -/
def MAX_BLOB_LENGTH : Nat := 8192

/-- The state of `main`: the world and the arrays `buffer` and `digest`. -/
structure BState where
  w : World
  buffer : List Nat
  digest : List Nat
  deriving DecidableEq

/-- The state of the fill loop: the array `buffer` and the world. -/
structure FState where
  buffer : List Nat
  w : World
  deriving DecidableEq

/-- The body of the fill loop: `buffer[j] = rand() % 256`. -/
def fillBody (env : Env) (j : Nat) (f : FState) : FState :=
  let r := rand env f.w
  ⟨f.buffer.set j (r.1 % 256), r.2⟩

/-- The string `snprintf` formats from `"%s/blob%zu.bin"`. -/
def pathOf (pfx : List Nat) (i : Nat) : List Nat :=
  pfx ++ cstr "/blob" ++ fmt_zu i ++ cstr ".bin"

/-- The body of the blob loop (lines 26 to 52). -/
def blobBody (env : Env) (pfx : List Nat) (i : Nat) (s : BState) : Res BState :=
  let r := rand env s.w
  let len := r.1 % MAX_BLOB_LENGTH
  let f := forLoop (fillBody env) len 0 ⟨s.buffer, r.2⟩
  let s1 : BState := { s with w := f.w, buffer := f.buffer }
  -- snprintf returns the length of the whole string and stores at most
  -- sizeof(filename) - 1 = 99 bytes of it
  let filename := (pathOf pfx i).take 99
  if ¬ (pathOf pfx i).length < 100 then .abort s1
  else if ¬ env.fopen filename then .abort s1
  else if ¬ env.fwrite filename (f.buffer.take len) then .abort s1
  else
    let w1 : World := { f.w with files := f.w.files ++ [(filename, f.buffer.take len)] }
    if ¬ env.fclose filename then .abort { s1 with w := w1 }
    else
      let w2 := fputs (filename.drop (pfx.length + 1) ++ cstr "\t") w1
      match digestLoop env f.buffer len ⟨w2, s.digest⟩ with
      | .ok d => .ok ⟨d.w, f.buffer, d.digest⟩
      | .abort d => .abort ⟨d.w, f.buffer, d.digest⟩
      | .fuel => .fuel

/-- The function `main` of blobs.c, run with the argument vector `argv`
(`argc` is its length); `ok` is `return 0`. -/
def main (env : Env) (argv : List (List Nat)) : Res BState :=
  let w0 := srand 1337 (World.init [])
  let pfx := if argv.length ≤ 1 then cstr "." else argv.getD 1 []
  let w := headerLoop (fputs (cstr "filename\t") w0)
  forLoopR (blobBody env pfx) N_BLOBS 0 ⟨w, fresh env 1 MAX_BLOB_LENGTH, fresh env 0 64⟩

end Blobs

/-! ## The manifest format, in the words of the specification -/

/-- The lowercase hexadecimal digit of a value below 16. -/
def hexDigit (n : Nat) : Nat := if n < 10 then 48 + n else 87 + n

/-- The characters `0-9a-f`. -/
def isLowerHex (c : Nat) : Bool := (48 ≤ c && c ≤ 57) || (97 ≤ c && c ≤ 102)

/-- Canonical hex encoding: two characters per byte, high nibble first. -/
def hexEncode (d : List Nat) : List Nat :=
  d.flatMap (fun b => [hexDigit (b / 16), hexDigit (b % 16)])

/-- The first `digest_len` bytes of the digest of `B` under `a` (nothing
when the digest capability fails). -/
def digestOf (env : Env) (a : algo) (B : List Nat) : List Nat :=
  ((env.evp a.md B).getD []).take a.digest_len

/-- The row of an item: identifier, tab, the hex digests in registry order
with a tab between consecutive ones, newline. -/
def manifestRow (env : Env) (I B : List Nat) : List Nat :=
  I ++ [9] ++ List.intercalate [9] (algos.map (fun a => hexEncode (digestOf env a B)))
    ++ [10]

/-- The header line of the word manifest, without its newline. -/
def Words.headerLine : List Nat :=
  cstr "word\tSHA1\tSHA256\tSHA224\tSHA512\tSHA384\tSHA512/224\tSHA512/256"

/-- The header line of the blob manifest, without its newline. -/
def Blobs.headerLine : List Nat :=
  cstr "filename\tSHA1\tSHA256\tSHA224\tSHA512\tSHA384\tSHA512/224\tSHA512/256"

/-- The identifier of blob `i`: `blob<i>.bin`. -/
def Blobs.blobName (i : Nat) : List Nat :=
  cstr "blob" ++ fmt_zu i ++ cstr ".bin"

/-- The whitespace bytes: space, tab, newline, vertical tab, form feed,
carriage return. -/
def isWhitespace (b : Nat) : Bool :=
  b == 32 || b == 9 || b == 10 || b == 11 || b == 12 || b == 13

/-- The maximal non-empty runs of consecutive non-whitespace bytes, in
input order. -/
def maximalRuns (input : List Nat) : List (List Nat) :=
  (input.splitOnP isWhitespace).filter (fun run => run ≠ [])

/-- The complete lines of an output, each without its newline. -/
def linesOf (out : List Nat) : List (List Nat) :=
  (out.splitOn 10).dropLast

/-- The tab-separated columns of a line. -/
def columns (line : List Nat) : List (List Nat) :=
  line.splitOn 9

/-- The identifier of a row: its first column. -/
def identifier (line : List Nat) : List Nat :=
  (columns line).headD []

/-- What the hex loop writes: the formatted values of `digest[0..n)`. -/
def hexOut (digest : List Nat) (n : Nat) : List Nat :=
  (List.range' 0 n).flatMap (fun k => fmt_02x (digest.getD k 0))

/-- The field `f` is what the algorithm loop can write at index `i` for the
message `B`: the hex loop run on the digest array after `hash` stored the
digest of `B` in it. -/
def FieldOf (env : Env) (B : List Nat) (i : Nat) (f : List Nat) : Prop :=
  ∃ d rest, env.evp (algos.getD i default).md B = some d ∧
    f = hexOut (d ++ rest) (algos.getD i default).digest_len

/-- The separator the algorithm loop writes after field `i`. -/
def sepOf (i : Nat) : Nat := if i = N_ALGOS - 1 then 10 else 9

/-- The code ended or aborted, in a state of which the property holds (so
it did not run out of fuel). -/
def Res.Sat {σ : Type} (P : σ → Prop) (r : Res σ) : Prop :=
  ∃ s, (r = .ok s ∨ r = .abort s) ∧ P s

/-- A row the programs can write for the identifier `I` and the content
`B`: `I`, a tab, the seven fields with a tab between consecutive ones, a
newline. -/
def RowOf (env : Env) (I B row : List Nat) : Prop :=
  ∃ fs : List (List Nat), fs.length = 7 ∧
    (∀ i, i < 7 → FieldOf env B i (fs.getD i [])) ∧
    row = I ++ [9] ++ List.intercalate [9] fs ++ [10]

/-- A well-formed line of a manifest, newline included: no other newline,
seven tabs, eight columns. -/
def IsManifestLine (row : List Nat) : Prop :=
  ∃ line, row = line ++ [10] ∧ 10 ∉ line ∧ line.count 9 = 7 ∧ (columns line).length = 8

/-- The output `out1` is the output `out` followed by well-formed lines
only. -/
def LinesOnly (out out1 : List Nat) : Prop :=
  ∃ rows : List (List Nat), out1 = out ++ rows.flatten ∧ ∀ row ∈ rows, IsManifestLine row

/-- The invariant of `struct buffer`: `len <= cap`, and `data` is an
object of `cap` bytes. -/
def Words.BufOk (buf : Words.buffer) : Prop :=
  buf.len ≤ buf.cap ∧ buf.cap = buf.data.length

/-- The digest capability produces, for the registry algorithms, at least
`digest_len` bytes, each a byte value. -/
def Env.DigestsOk (env : Env) : Prop :=
  ∀ a ∈ algos, ∀ B d, env.evp a.md B = some d → a.digest_len ≤ d.length ∧ Bytes d

/-- The environment never fails the word processor: every digest call and
every allocation succeeds. -/
def Env.Reliable (env : Env) : Prop :=
  (∀ a ∈ algos, ∀ B, (env.evp a.md B).isSome) ∧ ∀ n, env.alloc n = true

/-- The file system never fails the blob generator: every `fopen`,
`fwrite` and `fclose` succeeds. -/
def Env.FilesOk (env : Env) : Prop :=
  (∀ p, env.fopen p = true) ∧ (∀ p B, env.fwrite p B = true) ∧ ∀ p, env.fclose p = true

/-- The output directory of the blob generator: `argv[1]`, or `"."` when
`argc <= 1`. -/
def Blobs.dirOf (argv : List (List Nat)) : List Nat :=
  if argv.length ≤ 1 then cstr "." else argv.getD 1 []

/-- The bytes pushed on the buffer one after the other with `buffer_push`,
as the word loop does; `none` when an assertion fails. -/
def Words.pushAll (env : Env) : Words.buffer → List Nat → Option Words.buffer
  | buf, [] => some buf
  | buf, b :: bs =>
    match Words.buffer_push env buf b with
    | none => none
    | some buf1 => Words.pushAll env buf1 bs

/-- Runs the steps in order, from left to right, and stops at the first
one that does not run to its end. -/
def seqR {σ : Type} : List (σ → Res σ) → σ → Res σ
  | [], s => .ok s
  | step :: steps, s =>
    match step s with
    | .ok s1 => seqR steps s1
    | .abort s1 => .abort s1
    | .fuel => .fuel

/-- The state in which the code ran to its end, or `d` when it did not. -/
def Res.stateD {σ : Type} (r : Res σ) (d : σ) : σ :=
  match r with
  | .ok s => s
  | .abort _ => d
  | .fuel => d

/-- The digest size of each `EVP_MD`, in bytes. -/
def mdSize : EVP_MD → Nat
  | .sha1 => 20
  | .sha256 => 32
  | .sha224 => 28
  | .sha512 => 64
  | .sha384 => 48
  | .sha512_224 => 28
  | .sha512_256 => 32

/-- An environment that never fails, for the examples: the digest of a
message is its length (mod 256) repeated, `rand()` counts up from the seed,
fresh storage holds zeros. -/
def demoEnv : Env where
  evp := fun md B => some (List.replicate (mdSize md) (B.length % 256))
  alloc := fun _ => true
  rand_seq := fun seed k => seed + k
  fopen := fun _ => true
  fwrite := fun _ _ => true
  fclose := fun _ => true
  junk := fun _ _ => 0

/-- The state in which the blob generator returns in the demo environment
when run with the argument vector `argv`. -/
def Blobs.demoState (argv : List (List Nat)) : Blobs.BState :=
  (Blobs.main demoEnv argv).stateD ⟨World.init [], [], []⟩

/-- The state of the blob generator when it enters its loop in the demo
environment. -/
def Blobs.demoStart : Blobs.BState :=
  ⟨⟨[], Blobs.headerLine ++ [10], [], 1337, 0⟩, fresh demoEnv 1 Blobs.MAX_BLOB_LENGTH,
    fresh demoEnv 0 64⟩

/-- The state after the first iteration of the blob loop in the demo
environment, run without argument. -/
def Blobs.demoStep : Blobs.BState :=
  (Blobs.blobBody demoEnv (cstr ".") 0 Blobs.demoStart).stateD Blobs.demoStart

/-- The position, in the output sequence `r` of the generator, of the first
draw made for blob `i`: each blob before it took one draw for its length and
one per byte. -/
def Blobs.drawStart (r : Nat → Nat) : Nat → Nat
  | 0 => 0
  | i + 1 => Blobs.drawStart r i + 1 + r (Blobs.drawStart r i) % Blobs.MAX_BLOB_LENGTH

/-- The length of blob `i`: its first draw mod 8192. -/
def Blobs.lenOf (r : Nat → Nat) (i : Nat) : Nat :=
  r (Blobs.drawStart r i) % Blobs.MAX_BLOB_LENGTH

/-- The content of blob `i`: byte `j` is the `j`-th draw after the length
draw, mod 256. -/
def Blobs.contentOf (r : Nat → Nat) (i : Nat) : List Nat :=
  (List.range (Blobs.lenOf r i)).map (fun j => r (Blobs.drawStart r i + 1 + j) % 256)

/-- A second environment for the examples: as `demoEnv` after `srand(1337)`,
but with other sequences after other seeds, other indeterminate bytes, and
an allocator that always fails. -/
def demoEnv2 : Env :=
  { demoEnv with
    rand_seq := fun seed k => if seed = 1337 then 1337 + k else 0
    junk := fun _ _ => 255
    alloc := fun _ => false }

/-- A third environment for the examples: as `demoEnv`, but `rand()` always
returns 0, so every blob is empty. -/
def zeroEnv : Env :=
  { demoEnv with rand_seq := fun _ _ => 0 }

/-- The state in which the blob generator enters its loop. -/
def Blobs.startOf (env : Env) : Blobs.BState :=
  ⟨⟨[], Blobs.headerLine ++ [10], [], 1337, 0⟩, fresh env 1 Blobs.MAX_BLOB_LENGTH,
    fresh env 0 64⟩

/-- The state in which the blob generator returns, when it does. -/
def Blobs.runOf (env : Env) (argv : List (List Nat)) : Blobs.BState :=
  (Blobs.main env argv).stateD ⟨World.init [], [], []⟩

/-- The state after iteration `i` of the blob loop run from `t`, when it
runs to its end. -/
def Blobs.stepOf (env : Env) (pfx : List Nat) (i : Nat) (t : Blobs.BState) : Blobs.BState :=
  (Blobs.blobBody env pfx i t).stateD t

/-- The run of the blob generator stops at the assertion on `snprintf` in
iteration `m` and not before: the assertion holds below `m` and fails at
`m`, and `main` aborts having written the header line, `m` data rows (those
of the blobs below `m`) and `m` files. -/
def Blobs.FirstFailure (env : Env) (argv : List (List Nat)) (m : Nat) : Prop :=
  (∀ i, i < m → (Blobs.pathOf (Blobs.dirOf argv) i).length < 100) ∧
  ¬ (Blobs.pathOf (Blobs.dirOf argv) m).length < 100 ∧
  ∃ s, Blobs.main env argv = .abort s ∧ s.w.files.length = m ∧
    ∃ lines, s.w.stdout = (Blobs.headerLine :: lines).flatMap (fun l => l ++ [10]) ∧
      linesOf s.w.stdout = Blobs.headerLine :: lines ∧ lines.length = m ∧
      lines.map identifier = (List.range m).map Blobs.blobName

/-- The buffers the word processor can hold: `empty_buffer`, the result of
a `buffer_push` that ran to its end, the result of `buf.len = 0`. -/
inductive Words.Reachable (env : Env) : Words.buffer → Prop
  | empty : Words.Reachable env Words.empty_buffer
  | push (buf buf1 : Words.buffer) (byte : Nat) :
      Words.Reachable env buf → Words.buffer_push env buf byte = some buf1 →
      Words.Reachable env buf1
  | reset (buf : Words.buffer) :
      Words.Reachable env buf → Words.Reachable env { buf with len := 0 }

/-! ## Basic facts -/

theorem Res.Sat_ok {σ : Type} (P : σ → Prop) (s : σ) : (Res.ok s).Sat P ↔ P s := by
  constructor
  · rintro ⟨t, h | h, hp⟩
    · cases h; exact hp
    · cases h
  · intro h; exact ⟨s, Or.inl rfl, h⟩

theorem Res.Sat_abort {σ : Type} (P : σ → Prop) (s : σ) : (Res.abort s).Sat P ↔ P s := by
  constructor
  · rintro ⟨t, h | h, hp⟩
    · cases h
    · cases h; exact hp
  · intro h; exact ⟨s, Or.inr rfl, h⟩

theorem Res.Sat_fuel {σ : Type} (P : σ → Prop) : (Res.fuel : Res σ).Sat P ↔ False := by
  constructor
  · rintro ⟨t, h | h, _⟩ <;> cases h
  · intro h; exact h.elim

theorem fputs_nil (w : World) : fputs [] w = w := by
  simp [fputs]

theorem fputs_fputs (a b : List Nat) (w : World) : fputs b (fputs a w) = fputs (a ++ b) w := by
  simp [fputs]

theorem putchar_eq_fputs (c : Nat) (w : World) : putchar c w = fputs [c] w := rfl

theorem forLoop_fputs (g : Nat → List Nat) :
    ∀ n i w, forLoop (fun k w => fputs (g k) w) n i w
      = fputs ((List.range' i n).flatMap g) w := by
  intro n
  induction n with
  | zero => intro i w; simp [forLoop, fputs_nil]
  | succ n ih =>
    intro i w
    simp [forLoop, ih, fputs_fputs, List.range'_succ]

theorem forLoop_putchar (g : Nat → Nat) (n i : Nat) (w : World) :
    forLoop (fun k w => putchar (g k) w) n i w = fputs ((List.range' i n).map g) w := by
  have h := forLoop_fputs (fun k => [g k]) n i w
  simp only [putchar_eq_fputs]
  rw [h]
  congr 1
  induction (List.range' i n) with
  | nil => rfl
  | cons x xs ih => simp [List.flatMap_cons, ih]

theorem range_map_getD (l : List Nat) (d : Nat) :
    ∀ n, n ≤ l.length → (List.range' 0 n).map (fun k => l.getD k d) = l.take n := by
  intro n hn
  apply List.ext_getElem
  · simp [hn]
  · intro k h1 h2
    simp at h1 h2
    simp [List.getD_eq_getElem?_getD, List.getElem?_eq_getElem (by omega : k < l.length)]

/-- The header loop writes the registry names, tab-separated and
newline-terminated. -/
theorem headerLoop_eq (w : World) :
    headerLoop w
      = fputs (cstr "SHA1\tSHA256\tSHA224\tSHA512\tSHA384\tSHA512/224\tSHA512/256\n") w := by
  simp only [headerLoop, forLoop, N_ALGOS, putchar_eq_fputs, fputs_fputs]
  rfl
theorem toDigitsCore_all (base : Nat) (P : Char → Prop) (hP : ∀ n, P (Nat.digitChar (n % base))) :
    ∀ fuel n ds, (∀ c ∈ ds, P c) → ∀ c ∈ Nat.toDigitsCore base fuel n ds, P c := by
  intro fuel
  induction fuel with
  | zero => intro n ds h; simpa [Nat.toDigitsCore] using h
  | succ fuel ih =>
    intro n ds h
    simp only [Nat.toDigitsCore]
    have h2 : ∀ c ∈ Nat.digitChar (n % base) :: ds, P c := by
      intro c hc
      rcases List.mem_cons.1 hc with rfl | hc
      · exact hP n
      · exact h c hc
    split
    · exact h2
    · exact ih _ _ h2

theorem digitChar_hex : ∀ n, n < 16 → isLowerHex (Nat.digitChar n).toNat = true := by
  decide

theorem digitChar_dec : ∀ n, n < 10 → 48 ≤ (Nat.digitChar n).toNat ∧ (Nat.digitChar n).toNat ≤ 57 := by
  decide

theorem fmt_02x_hex (v c : Nat) (h : c ∈ fmt_02x v) : isLowerHex c = true := by
  simp only [fmt_02x, List.mem_append, List.mem_replicate, List.mem_map] at h
  rcases h with ⟨_, rfl⟩ | ⟨ch, hch, rfl⟩
  · decide
  · exact toDigitsCore_all 16 (fun ch => isLowerHex ch.toNat = true)
      (fun n => digitChar_hex _ (Nat.mod_lt _ (by decide))) _ _ [] (by simp) ch hch

theorem fmt_zu_digit (i c : Nat) (h : c ∈ fmt_zu i) : 48 ≤ c ∧ c ≤ 57 := by
  simp only [fmt_zu, List.mem_map] at h
  rcases h with ⟨ch, hch, rfl⟩
  exact toDigitsCore_all 10 (fun ch => 48 ≤ ch.toNat ∧ ch.toNat ≤ 57)
      (fun n => digitChar_dec _ (Nat.mod_lt _ (by decide))) _ _ [] (by simp) ch hch

set_option maxRecDepth 100000 in
theorem fmt_02x_byte : ∀ v, v < 256 → fmt_02x v = [hexDigit (v / 16), hexDigit (v % 16)] := by
  decide

theorem printDigest_eq (digest : List Nat) (n : Nat) (w : World) :
    printDigest digest n w = fputs (hexOut digest n) w := by
  simp [printDigest, hexOut, forLoop_fputs]

theorem hexOut_hex (digest : List Nat) (n c : Nat) (h : c ∈ hexOut digest n) :
    isLowerHex c = true := by
  simp only [hexOut, List.mem_flatMap] at h
  rcases h with ⟨k, _, hc⟩
  exact fmt_02x_hex _ _ hc

theorem hexOut_eq_encode (digest : List Nat) (n : Nat) (hb : Bytes digest)
    (hn : n ≤ digest.length) : hexOut digest n = hexEncode (digest.take n) := by
  rw [← range_map_getD digest 0 n hn]
  simp only [hexOut, hexEncode, List.flatMap_map]
  apply List.flatMap_congr
  intro k hk
  simp at hk
  apply fmt_02x_byte
  rw [List.getD_eq_getElem _ _ (by omega)]
  exact hb _ (List.getElem_mem _)

theorem hexEncode_length (d : List Nat) : (hexEncode d).length = 2 * d.length := by
  induction d with
  | nil => rfl
  | cons b d ih => simp [hexEncode, List.flatMap_cons] at ih ⊢; omega

theorem forLoopR_succ_ok {σ : Type} (body : Nat → σ → Res σ) (n i : Nat) (s s2 : σ)
    (h : forLoopR body (n + 1) i s = .ok s2) :
    ∃ s1, body i s = .ok s1 ∧ forLoopR body n (i + 1) s1 = .ok s2 := by
  simp only [forLoopR] at h
  cases hb : body i s with
  | ok s1 => rw [hb] at h; exact ⟨s1, rfl, h⟩
  | abort s1 => rw [hb] at h; cases h
  | fuel => rw [hb] at h; cases h

theorem forLoopR_sat {σ : Type} (body : Nat → σ → Res σ) (R : σ → σ → Prop)
    (hrefl : ∀ s, R s s) (htrans : ∀ a b c, R a b → R b c → R a c)
    (hbody : ∀ i s, (body i s).Sat (R s)) :
    ∀ n i s, (forLoopR body n i s).Sat (R s) := by
  intro n
  induction n with
  | zero => intro i s; exact (Res.Sat_ok _ _).2 (hrefl s)
  | succ n ih =>
    intro i s
    simp only [forLoopR]
    have hb := hbody i s
    cases hbs : body i s with
    | ok s1 =>
      rw [hbs, Res.Sat_ok] at hb
      have h2 := ih (i + 1) s1
      dsimp only
      cases hl : forLoopR body n (i + 1) s1 with
      | ok s2 => rw [hl, Res.Sat_ok] at h2; exact (Res.Sat_ok _ _).2 (htrans _ _ _ hb h2)
      | abort s2 =>
        rw [hl, Res.Sat_abort] at h2; exact (Res.Sat_abort _ _).2 (htrans _ _ _ hb h2)
      | fuel => rw [hl, Res.Sat_fuel] at h2; exact h2.elim
    | abort s1 => rw [hbs] at hb; exact hb
    | fuel => rw [hbs] at hb; exact hb

theorem digestBody_ok (env : Env) (str : List Nat) (len i : Nat) (s s1 : DState)
    (h : digestBody env str len i s = .ok s1) :
    ∃ f, FieldOf env (str.take len) i f ∧ s1.w = fputs (f ++ [sepOf i]) s.w := by
  simp only [digestBody, Algos.hash] at h
  cases hd : env.evp (algos.getD i default).md (str.take len) with
  | none => rw [hd] at h; cases h
  | some d =>
    rw [hd] at h
    simp only [Res.ok.injEq] at h
    subst h
    refine ⟨_, ⟨d, s.digest.drop d.length, hd, rfl⟩, ?_⟩
    simp only [printDigest_eq, putchar_eq_fputs, fputs_fputs, sepOf]

theorem digestBody_of_some (env : Env) (str : List Nat) (len i : Nat) (s : DState)
    (d : List Nat) (hd : env.evp (algos.getD i default).md (str.take len) = some d) :
    digestBody env str len i s
      = .ok ⟨fputs (hexOut (d ++ s.digest.drop d.length) (algos.getD i default).digest_len
              ++ [sepOf i]) s.w, d ++ s.digest.drop d.length⟩ := by
  simp only [digestBody, Algos.hash, hd, printDigest_eq, putchar_eq_fputs, fputs_fputs, sepOf]

/-- The world only gains output: standard output is extended, everything
else is as before. -/
theorem digestBody_sat (env : Env) (str : List Nat) (len i : Nat) (s : DState) :
    (digestBody env str len i s).Sat (fun s1 => ∃ t, s1.w = fputs t s.w) := by
  cases hd : env.evp (algos.getD i default).md (str.take len) with
  | none =>
    simp only [digestBody, Algos.hash, hd, Res.Sat_ok, Res.Sat_abort, Res.Sat_fuel]
    exact ⟨[], (fputs_nil _).symm⟩
  | some d =>
    rw [digestBody_of_some env str len i s d hd]
    exact (Res.Sat_ok _ _).2 ⟨_, rfl⟩

theorem digestLoop_sat (env : Env) (str : List Nat) (len : Nat) (s : DState) :
    (digestLoop env str len s).Sat (fun s1 => ∃ t, s1.w = fputs t s.w) := by
  apply forLoopR_sat (digestBody env str len) (fun s s1 => ∃ t, s1.w = fputs t s.w)
  · intro s; exact ⟨[], (fputs_nil _).symm⟩
  · rintro a b c ⟨t, ht⟩ ⟨u, hu⟩
    exact ⟨t ++ u, by rw [hu, ht, fputs_fputs]⟩
  · intro i s; exact digestBody_sat env str len i s

theorem digestLoop_ok (env : Env) (str : List Nat) (len : Nat) (s s2 : DState)
    (h : digestLoop env str len s = .ok s2) :
    ∃ fs : List (List Nat), fs.length = 7 ∧
      (∀ i, i < 7 → FieldOf env (str.take len) i (fs.getD i [])) ∧
      s2.w = fputs (List.intercalate [9] fs ++ [10]) s.w := by
  unfold digestLoop N_ALGOS at h
  obtain ⟨s1, h1, h⟩ := forLoopR_succ_ok _ _ _ _ _ h
  obtain ⟨f0, hf0, e0⟩ := digestBody_ok _ _ _ _ _ _ h1
  obtain ⟨s1, h1, h⟩ := forLoopR_succ_ok _ _ _ _ _ h
  obtain ⟨f1, hf1, e1⟩ := digestBody_ok _ _ _ _ _ _ h1
  obtain ⟨s1, h1, h⟩ := forLoopR_succ_ok _ _ _ _ _ h
  obtain ⟨f2, hf2, e2⟩ := digestBody_ok _ _ _ _ _ _ h1
  obtain ⟨s1, h1, h⟩ := forLoopR_succ_ok _ _ _ _ _ h
  obtain ⟨f3, hf3, e3⟩ := digestBody_ok _ _ _ _ _ _ h1
  obtain ⟨s1, h1, h⟩ := forLoopR_succ_ok _ _ _ _ _ h
  obtain ⟨f4, hf4, e4⟩ := digestBody_ok _ _ _ _ _ _ h1
  obtain ⟨s1, h1, h⟩ := forLoopR_succ_ok _ _ _ _ _ h
  obtain ⟨f5, hf5, e5⟩ := digestBody_ok _ _ _ _ _ _ h1
  obtain ⟨s1, h1, h⟩ := forLoopR_succ_ok _ _ _ _ _ h
  obtain ⟨f6, hf6, e6⟩ := digestBody_ok _ _ _ _ _ _ h1
  simp only [forLoopR, Res.ok.injEq] at h
  subst h
  refine ⟨[f0, f1, f2, f3, f4, f5, f6], rfl, ?_, ?_⟩
  · intro i hi
    interval_cases i <;> assumption
  · rw [e6, e5, e4, e3, e2, e1, e0]
    simp [fputs_fputs, sepOf, N_ALGOS, List.intercalate]

theorem toUChar_byte (b : Nat) (h : b < 256) : toUChar (b : Int) = b := by
  unfold toUChar
  omega

theorem isspace_eq (b : Nat) : isspace (b : Int) = isWhitespace b := by
  rw [Bool.eq_iff_iff]
  simp only [isspace, isWhitespace, Bool.or_eq_true, Bool.and_eq_true, beq_iff_eq,
    decide_eq_true_eq]
  omega

theorem cast_ne_EOF (b : Nat) : ((b : Int) != EOF) = true := by
  simp only [EOF, bne_iff_ne, ne_eq]
  omega

theorem take_set_self (l : List Nat) (n a : Nat) : (l.set n a).take n = l.take n := by
  induction l generalizing n with
  | nil => simp
  | cons x xs ih =>
    cases n with
    | zero => simp
    | succ n => simp [ih]

namespace Words

theorem buffer_push_ok (env : Env) (ha : ∀ n, env.alloc n = true) (buf : buffer)
    (byte : Nat) (h : BufOk buf) :
    ∃ buf1, buffer_push env buf byte = some buf1 ∧ BufOk buf1 ∧
      buf1.len = buf.len + 1 ∧
      buf1.data.take buf1.len = buf.data.take buf.len ++ [byte] := by
  obtain ⟨h1, h2⟩ := h
  unfold buffer_push
  rw [if_neg (by omega)]
  by_cases hc : buf.len = buf.cap
  · rw [if_pos hc]
    simp only [realloc, ha, if_true]
    refine ⟨_, rfl, ⟨?_, ?_⟩, rfl, ?_⟩
    · simp only; omega
    · simp [fresh]; omega
    · simp only
      have hlen : buf.len = buf.data.length := by omega
      rw [List.take_succ, take_set_self]
      have e1 : ∀ l : List Nat, List.take buf.len (List.take (2 * buf.cap + 16) (buf.data ++ l))
          = List.take buf.len buf.data := by
        intro l
        rw [List.take_take, Nat.min_eq_left (by omega), List.take_append_of_le_length (by omega)]
      rw [e1]
      congr 1
      rw [List.getElem?_set_self (by simp [fresh]; omega)]
      rfl
  · rw [if_neg hc]
    refine ⟨_, rfl, ⟨?_, ?_⟩, rfl, ?_⟩
    · simp only; omega
    · simp [h2]
    · simp only
      rw [List.take_succ, take_set_self,
        List.getElem?_set_self (by omega)]
      rfl

end Words

/-! ### Runs -/

theorem maximalRuns_nil : maximalRuns [] = [] := by
  simp [maximalRuns, List.splitOnP_nil]

theorem maximalRuns_cons_ws (x : Nat) (xs : List Nat) (h : isWhitespace x = true) :
    maximalRuns (x :: xs) = maximalRuns xs := by
  simp [maximalRuns, List.splitOnP_cons, h]

theorem maximalRuns_cons_word (x : Nat) (xs : List Nat) (h : isWhitespace x = false) :
    maximalRuns (x :: xs)
      = (x :: xs.takeWhile (fun y => !isWhitespace y))
          :: maximalRuns ((xs.dropWhile (fun y => !isWhitespace y)).drop 1) := by
  have hsplit : x :: xs = (x :: xs.takeWhile (fun y => !isWhitespace y))
      ++ xs.dropWhile (fun y => !isWhitespace y) := by
    simp [List.takeWhile_append_dropWhile]
  have hno : ∀ y ∈ x :: xs.takeWhile (fun y => !isWhitespace y), ¬ isWhitespace y = true := by
    intro y hy
    rcases List.mem_cons.1 hy with rfl | hy
    · simp [h]
    · have := List.mem_takeWhile_imp hy
      simpa using this
  cases hd : xs.dropWhile (fun y => !isWhitespace y) with
  | nil =>
    rw [hd, List.append_nil] at hsplit
    rw [← hsplit] at hno
    simp only [maximalRuns, List.drop_nil, List.splitOnP_nil]
    rw [List.splitOnP_eq_single _ _ hno, ← hsplit]
    simp
  | cons sep as =>
    rw [hd] at hsplit
    have hsep : isWhitespace sep = true := by
      have := List.head_dropWhile_not (fun y => !isWhitespace y) xs (by rw [hd]; simp)
      simpa [hd] using this
    rw [hsplit]
    simp only [maximalRuns, List.drop_succ_cons, List.drop_zero]
    rw [List.splitOnP_first _ _ hno sep hsep]
    simp

namespace Words

theorem wordLoop_run (env : Env) (ha : ∀ n, env.alloc n = true) :
    ∀ (rest : List Nat) (fuel : Nat) (s : WState) (b : Nat),
      rest.length < fuel → s.w.stdin = rest → s.c = (b : Int) → b < 256 → Bytes rest →
      BufOk s.buf →
      ∃ s1, wordLoop env fuel s = .ok s1 ∧
        s1.w = { s.w with stdin := (rest.dropWhile (fun y => !isWhitespace y)).drop 1 } ∧
        s1.digest = s.digest ∧ BufOk s1.buf ∧
        s1.buf.data.take s1.buf.len
          = s.buf.data.take s.buf.len ++ b :: rest.takeWhile (fun y => !isWhitespace y) := by
  intro rest
  induction rest with
  | nil =>
    intro fuel s b hf hin hc hb _ hbuf
    obtain ⟨n, rfl⟩ : ∃ n, fuel = n + 1 := ⟨fuel - 1, by omega⟩
    obtain ⟨buf1, hp, hok, _, htake⟩ := buffer_push_ok env ha s.buf b hbuf
    simp only [wordLoop, hc, toUChar_byte b hb, hp, getchar, hin]
    refine ⟨_, rfl, ?_, rfl, hok, ?_⟩
    · cases hw : s.w
      rw [hw] at hin
      simp only at hin
      subst hin
      rfl
    · simpa using htake
  | cons x xs ih =>
    intro fuel s b hf hin hc hb hbytes hbuf
    obtain ⟨n, rfl⟩ : ∃ n, fuel = n + 1 := ⟨fuel - 1, by omega⟩
    obtain ⟨buf1, hp, hok, _, htake⟩ := buffer_push_ok env ha s.buf b hbuf
    simp only [wordLoop, hc, toUChar_byte b hb, hp, getchar, hin, cast_ne_EOF, isspace_eq,
      Bool.true_and]
    cases hx : isWhitespace x with
    | true =>
      simp only [Bool.not_true, Bool.false_eq_true, if_false]
      refine ⟨_, rfl, ?_, rfl, hok, ?_⟩
      · simp [hx]
      · simpa [hx] using htake
    | false =>
      simp only [Bool.not_false, if_true]
      have hx256 : x < 256 := hbytes x (List.mem_cons_self _ _)
      have hxs : Bytes xs := fun y hy => hbytes y (List.mem_cons_of_mem _ hy)
      obtain ⟨s1, h1, hw, hd, hok1, ht1⟩ := ih n
        { s with buf := buf1, c := (x : Int), w := { s.w with stdin := xs } } x
        (by simp at hf; omega) rfl rfl hx256 hxs hok
      refine ⟨s1, h1, ?_, hd, hok1, ?_⟩
      · rw [hw]; simp [hx]
      · rw [ht1]; simp only at htake ⊢; rw [htake]; simp [hx]

theorem wordLoop_sat (env : Env) :
    ∀ (fuel : Nat) (s : WState), s.w.stdin.length < fuel →
      (wordLoop env fuel s).Sat
        (fun s1 => s1.w.stdout = s.w.stdout ∧ s1.w.stdin.length ≤ s.w.stdin.length) := by
  intro fuel
  induction fuel with
  | zero => intro s h; omega
  | succ n ih =>
    intro s h
    simp only [wordLoop]
    cases hp : buffer_push env s.buf (toUChar s.c) with
    | none => exact (Res.Sat_abort _ _).2 ⟨rfl, le_refl _⟩
    | some buf1 =>
      dsimp only
      cases hin : s.w.stdin with
      | nil =>
        simp only [getchar, hin]
        simp [Res.Sat_ok, Res.Sat_abort, Res.Sat_fuel, hin]
      | cons x xs =>
        simp only [getchar, hin]
        split
        · have := ih { s with buf := buf1, c := (x : Int), w := { s.w with stdin := xs } }
            (by simp [hin] at h ⊢; omega)
          revert this
          cases wordLoop env n
              { s with buf := buf1, c := (x : Int), w := { s.w with stdin := xs } } with
          | ok s1 => simp only [Res.Sat_ok, Res.Sat_abort, Res.Sat_fuel]; rintro ⟨h1, h2⟩; exact ⟨h1, by simp at h2 ⊢; omega⟩
          | abort s1 => simp only [Res.Sat_ok, Res.Sat_abort, Res.Sat_fuel]; rintro ⟨h1, h2⟩; exact ⟨h1, by simp at h2 ⊢; omega⟩
          | fuel => simp [Res.Sat_ok, Res.Sat_abort, Res.Sat_fuel]
        · simp [Res.Sat_ok, Res.Sat_abort, Res.Sat_fuel]

end Words

theorem forLoopR_total {σ : Type} (body : Nat → σ → Res σ) :
    ∀ (n i0 : Nat), (∀ j s, i0 ≤ j → j < i0 + n → ∃ s1, body j s = .ok s1) →
      ∀ s, ∃ s2, forLoopR body n i0 s = .ok s2 := by
  intro n
  induction n with
  | zero => intro i0 _ s; exact ⟨s, rfl⟩
  | succ n ih =>
    intro i0 h s
    obtain ⟨s1, h1⟩ := h i0 s (le_refl _) (by omega)
    obtain ⟨s2, h2⟩ := ih (i0 + 1) (fun j s hj1 hj2 => h j s (by omega) (by omega)) s1
    exact ⟨s2, by simp only [forLoopR, h1, h2]⟩

theorem algos_getD_mem (i : Nat) (h : i < 7) : algos.getD i default ∈ algos := by
  interval_cases i <;> simp [algos]

theorem digestLoop_total (env : Env) (he : ∀ a ∈ algos, ∀ B, (env.evp a.md B).isSome)
    (str : List Nat) (len : Nat) (s : DState) :
    ∃ s2, digestLoop env str len s = .ok s2 := by
  apply forLoopR_total
  intro j s hj1 hj2
  have := he _ (algos_getD_mem j (by simpa [N_ALGOS] using hj2)) (str.take len)
  obtain ⟨d, hd⟩ := Option.isSome_iff_exists.1 this
  exact ⟨_, digestBody_of_some env str len j s d hd⟩

namespace Words

theorem emitRow_ok (env : Env) (s s2 : WState) (hb : s.buf.len ≤ s.buf.data.length)
    (h : emitRow env s = .ok s2) :
    ∃ row, RowOf env (s.buf.data.take s.buf.len) (s.buf.data.take s.buf.len) row ∧
      s2.w = fputs row s.w ∧ s2.buf = s.buf := by
  simp only [emitRow] at h
  rw [forLoop_putchar, range_map_getD _ _ _ hb] at h
  simp only [putchar_eq_fputs, fputs_fputs] at h
  cases hd : digestLoop env s.buf.data s.buf.len
      ⟨fputs (List.take s.buf.len s.buf.data ++ [9]) s.w, s.digest⟩ with
  | ok d =>
    rw [hd] at h
    simp only [Res.ok.injEq] at h
    subst h
    obtain ⟨fs, hlen, hfs, hw⟩ := digestLoop_ok _ _ _ _ _ hd
    refine ⟨_, ⟨fs, hlen, hfs, rfl⟩, ?_, rfl⟩
    simp only [hw, fputs_fputs, List.append_assoc]
  | abort d => rw [hd] at h; cases h
  | fuel => rw [hd] at h; cases h

theorem emitRow_sat (env : Env) (s : WState) :
    (emitRow env s).Sat (fun s1 => ∃ t, s1.w = fputs t s.w) := by
  simp only [emitRow]
  rw [forLoop_putchar]
  simp only [putchar_eq_fputs, fputs_fputs]
  have := digestLoop_sat env s.buf.data s.buf.len
    ⟨fputs (List.map (fun i => s.buf.data.getD i 0) (List.range' 0 s.buf.len) ++ [9]) s.w,
      s.digest⟩
  revert this
  cases digestLoop env s.buf.data s.buf.len
    ⟨fputs (List.map (fun i => s.buf.data.getD i 0) (List.range' 0 s.buf.len) ++ [9]) s.w,
      s.digest⟩ with
  | ok d => simp only [Res.Sat_ok, Res.Sat_abort, Res.Sat_fuel]; rintro ⟨t, ht⟩; exact ⟨_, by rw [ht, fputs_fputs]⟩
  | abort d => simp only [Res.Sat_ok, Res.Sat_abort, Res.Sat_fuel]; rintro ⟨t, ht⟩; exact ⟨_, by rw [ht, fputs_fputs]⟩
  | fuel => simp [Res.Sat_ok, Res.Sat_abort, Res.Sat_fuel]

theorem emitRow_total (env : Env) (he : ∀ a ∈ algos, ∀ B, (env.evp a.md B).isSome)
    (s : WState) : ∃ s2, emitRow env s = .ok s2 := by
  simp only [emitRow]
  obtain ⟨d, hd⟩ := digestLoop_total env he s.buf.data s.buf.len
    ⟨putchar 9 (forLoop (fun i w => putchar (s.buf.data.getD i 0) w) s.buf.len 0 s.w),
      s.digest⟩
  rw [hd]
  exact ⟨_, rfl⟩

theorem mainLoop_run (env : Env) (hr : env.Reliable) :
    ∀ (fuel : Nat) (input : List Nat) (s : WState),
      input.length < fuel → s.w.stdin = input → Bytes input → BufOk s.buf →
      ∃ s1 rows, mainLoop env fuel s = .ok s1 ∧
        List.Forall₂ (fun t row => RowOf env t t row) (maximalRuns input) rows ∧
        s1.w = { s.w with stdin := [], stdout := s.w.stdout ++ rows.flatten } := by
  intro fuel
  induction fuel with
  | zero => intro input s h; omega
  | succ n ih =>
    intro input s hf hin hbytes hbuf
    cases input with
    | nil =>
      refine ⟨{ s with buf := { s.buf with len := 0 }, c := EOF, w := s.w }, [], ?_, ?_, ?_⟩
      · simp only [mainLoop, getchar, hin, if_true]
      · rw [maximalRuns_nil]; exact List.Forall₂.nil
      · cases hw : s.w
        rw [hw] at hin
        simp only at hin
        subst hin
        simp
    | cons x xs =>
      have hx256 : x < 256 := hbytes x (List.mem_cons_self _ _)
      have hxs : Bytes xs := fun y hy => hbytes y (List.mem_cons_of_mem _ hy)
      have hne : ¬ ((x : Int) = EOF) := by simp only [EOF]; omega
      simp only [mainLoop, getchar, hin, hne, if_false, isspace_eq]
      cases hx : isWhitespace x with
      | true =>
        simp only [if_true]
        obtain ⟨s1, rows, h1, h2, h3⟩ := ih xs
          { s with buf := { s.buf with len := 0 }, c := (x : Int), w := { s.w with stdin := xs } }
          (by simp at hf; omega) rfl hxs ⟨Nat.zero_le _, hbuf.2⟩
        exact ⟨s1, rows, h1, by rw [maximalRuns_cons_ws x xs hx]; exact h2, by rw [h3]⟩
      | false =>
        simp only [Bool.false_eq_true, if_false]
        obtain ⟨s1, h1, hw1, hd1, hok1, ht1⟩ := wordLoop_run env hr.2 xs (xs.length + 1)
          { s with buf := { s.buf with len := 0 }, c := (x : Int), w := { s.w with stdin := xs } }
          x (by omega) rfl rfl hx256 hxs ⟨Nat.zero_le _, hbuf.2⟩
        rw [h1]
        dsimp only
        obtain ⟨s2, h2⟩ := emitRow_total env hr.1 s1
        rw [h2]
        dsimp only
        obtain ⟨row, hrow, hw2, hb2⟩ := emitRow_ok env s1 s2 (by have := hok1; unfold BufOk at this; omega) h2
        have hlen : ((xs.dropWhile (fun y => !isWhitespace y)).drop 1).length < n := by
          have := (List.dropWhile_sublist (fun y => !isWhitespace y) (l := xs)).length_le
          simp at hf ⊢; omega
        obtain ⟨s3, rows, h3, hrows, hw3⟩ := ih ((xs.dropWhile (fun y => !isWhitespace y)).drop 1)
          s2 hlen (by rw [hw2, hw1]; rfl)
          (fun y hy => hxs y (List.dropWhile_sublist _ |>.subset (List.drop_sublist _ _ |>.subset hy)))
          (by rw [hb2]; exact hok1)
        refine ⟨s3, row :: rows, h3, ?_, ?_⟩
        · rw [maximalRuns_cons_word x xs hx]
          refine List.Forall₂.cons ?_ hrows
          simp only [List.take_zero, List.nil_append] at ht1
          rw [ht1] at hrow
          exact hrow
        · rw [hw3, hw2, hw1]
          simp [fputs]

theorem mainLoop_sat (env : Env) :
    ∀ (fuel : Nat) (s : WState), s.w.stdin.length < fuel →
      (mainLoop env fuel s).Sat (fun s1 => ∃ t, s1.w.stdout = s.w.stdout ++ t) := by
  intro fuel
  induction fuel with
  | zero => intro s h; omega
  | succ n ih =>
    intro s hf
    simp only [mainLoop]
    cases hin : s.w.stdin with
    | nil =>
      simp only [getchar, hin, if_true, Res.Sat_ok, Res.Sat_abort, Res.Sat_fuel]
      exact ⟨[], by simp⟩
    | cons x xs =>
      have hne : ¬ ((x : Int) = EOF) := by simp only [EOF]; omega
      rw [hin] at hf
      simp only [getchar, hin, hne, if_false]
      split
      · have := ih { s with buf := { s.buf with len := 0 }, c := (x : Int),
                            w := { s.w with stdin := xs } } (by simp at hf ⊢; omega)
        exact this
      · have hw := wordLoop_sat env (xs.length + 1)
          { s with buf := { s.buf with len := 0 }, c := (x : Int), w := { s.w with stdin := xs } }
          (by simp)
        revert hw
        cases wordLoop env (xs.length + 1)
          { s with buf := { s.buf with len := 0 }, c := (x : Int),
                   w := { s.w with stdin := xs } } with
        | ok s1 =>
          simp only [Res.Sat_ok, Res.Sat_abort, Res.Sat_fuel]
          rintro ⟨e1, l1⟩
          have he := emitRow_sat env s1
          revert he
          cases emitRow env s1 with
          | ok s2 =>
            simp only [Res.Sat_ok, Res.Sat_abort, Res.Sat_fuel]
            rintro ⟨t, ht⟩
            have h3 := ih s2 (by rw [ht]; simp [fputs] at l1 hf ⊢; omega)
            revert h3
            cases mainLoop env n s2 with
            | ok s3 =>
              simp only [Res.Sat_ok, Res.Sat_abort, Res.Sat_fuel]; rintro ⟨u, hu⟩
              exact ⟨t ++ u, by rw [hu, ht]; simp [fputs, e1]⟩
            | abort s3 =>
              simp only [Res.Sat_ok, Res.Sat_abort, Res.Sat_fuel]; rintro ⟨u, hu⟩
              exact ⟨t ++ u, by rw [hu, ht]; simp [fputs, e1]⟩
            | fuel => simp [Res.Sat_ok, Res.Sat_abort, Res.Sat_fuel]
          | abort s2 =>
            simp only [Res.Sat_ok, Res.Sat_abort, Res.Sat_fuel]
            rintro ⟨t, ht⟩
            exact ⟨t, by rw [ht]; simp [fputs, e1]⟩
          | fuel => simp [Res.Sat_ok, Res.Sat_abort, Res.Sat_fuel]
        | abort s1 => simp only [Res.Sat_ok, Res.Sat_abort, Res.Sat_fuel]; rintro ⟨e1, _⟩; exact ⟨[], by simp [e1]⟩
        | fuel => simp [Res.Sat_ok, Res.Sat_abort, Res.Sat_fuel]

end Words

/-! ### Lines and columns -/

theorem intercalate_snoc_nil (x : Nat) (ls : List (List Nat)) :
    List.intercalate [x] (ls ++ [[]]) = ls.flatMap (fun l => l ++ [x]) := by
  induction ls with
  | nil => rfl
  | cons l ls ih =>
    cases ls with
    | nil => simp [List.intercalate]
    | cons m ms =>
      simp only [List.intercalate, List.cons_append, List.intersperse_cons₂, List.flatten_cons,
        List.flatMap_cons] at ih ⊢
      rw [ih]
      simp

theorem splitOn_lines (x : Nat) (ls : List (List Nat)) (h : ∀ l ∈ ls, x ∉ l) :
    (ls.flatMap (fun l => l ++ [x])).splitOn x = ls ++ [[]] := by
  rw [← intercalate_snoc_nil]
  apply List.splitOn_intercalate
  · intro l hl
    rcases List.mem_append.1 hl with hl | hl
    · exact h l hl
    · simp at hl; subst hl; simp
  · simp

theorem linesOf_lines (ls : List (List Nat)) (h : ∀ l ∈ ls, 10 ∉ l) :
    linesOf (ls.flatMap (fun l => l ++ [10])) = ls := by
  simp [linesOf, splitOn_lines 10 ls h]

theorem intercalate_cons_cons (x : Nat) (a b : List Nat) (ls : List (List Nat)) :
    List.intercalate [x] (a :: b :: ls) = a ++ [x] ++ List.intercalate [x] (b :: ls) := by
  simp [List.intercalate]

theorem columns_intercalate (ls : List (List Nat)) (h : ∀ l ∈ ls, 9 ∉ l) (hne : ls ≠ []) :
    columns (List.intercalate [9] ls) = ls := by
  exact List.splitOn_intercalate ls 9 h hne

theorem count_intercalate (x : Nat) (ls : List (List Nat)) (h : ∀ l ∈ ls, x ∉ l) :
    (List.intercalate [x] ls).count x = ls.length - 1 := by
  induction ls with
  | nil => rfl
  | cons l ls ih =>
    cases ls with
    | nil =>
      simp only [List.intercalate, List.intersperse_single, List.flatten_cons, List.flatten_nil,
        List.append_nil, List.length_singleton, Nat.sub_self]
      exact List.count_eq_zero.2 (h l (List.mem_cons_self _ _))
    | cons m ms =>
      rw [intercalate_cons_cons, List.count_append, List.count_append,
        ih (fun l hl => h l (List.mem_cons_of_mem _ hl)),
        List.count_eq_zero.2 (h l (List.mem_cons_self _ _))]
      simp
      omega

theorem not_mem_intercalate (x y : Nat) (hxy : x ≠ y) (ls : List (List Nat))
    (h : ∀ l ∈ ls, x ∉ l) : x ∉ List.intercalate [y] ls := by
  induction ls with
  | nil => simp [List.intercalate]
  | cons l ls ih =>
    cases ls with
    | nil => simpa [List.intercalate] using h l (List.mem_cons_self _ _)
    | cons m ms =>
      rw [intercalate_cons_cons]
      simp only [List.mem_append, List.mem_singleton, not_or]
      exact ⟨⟨h l (List.mem_cons_self _ _), hxy⟩, ih (fun l hl => h l (List.mem_cons_of_mem _ hl))⟩

theorem hex_ne_tab (c : Nat) (h : isLowerHex c = true) : c ≠ 9 ∧ c ≠ 10 := by
  simp only [isLowerHex, Bool.or_eq_true, Bool.and_eq_true, decide_eq_true_eq] at h
  omega

theorem FieldOf_hex (env : Env) (B : List Nat) (i : Nat) (f : List Nat)
    (h : FieldOf env B i f) : ∀ c ∈ f, isLowerHex c = true := by
  obtain ⟨d, rest, _, rfl⟩ := h
  intro c hc
  exact hexOut_hex _ _ _ hc

/-- The shape of a row whose identifier has neither tab nor newline: one
line of eight columns, the identifier first. -/
theorem RowOf_line (env : Env) (I B row : List Nat) (h : RowOf env I B row)
    (h9 : 9 ∉ I) (h10 : 10 ∉ I) :
    ∃ line, row = line ++ [10] ∧ 10 ∉ line ∧ line.count 9 = 7 ∧
      (columns line).length = 8 ∧ identifier line = I := by
  obtain ⟨fs, hlen, hfs, rfl⟩ := h
  have hmem : ∀ f ∈ fs, ∀ c ∈ f, isLowerHex c = true := by
    intro f hf
    obtain ⟨i, hi, rfl⟩ := List.getElem_of_mem hf
    have := FieldOf_hex env B i _ (hfs i (by omega))
    rwa [List.getD_eq_getElem _ _ hi] at this
  have hne : fs ≠ [] := by intro h0; rw [h0] at hlen; cases hlen
  obtain ⟨f, fs1, rfl⟩ := List.exists_cons_of_ne_nil hne
  have hall9 : ∀ l ∈ I :: f :: fs1, 9 ∉ l := by
    intro l hl
    rcases List.mem_cons.1 hl with rfl | hl
    · exact h9
    · intro hc; exact (hex_ne_tab 9 (hmem l hl 9 hc)).1 rfl
  have hall10 : ∀ l ∈ I :: f :: fs1, 10 ∉ l := by
    intro l hl
    rcases List.mem_cons.1 hl with rfl | hl
    · exact h10
    · intro hc; exact (hex_ne_tab 10 (hmem l hl 10 hc)).2 rfl
  refine ⟨List.intercalate [9] (I :: f :: fs1), ?_, ?_, ?_, ?_, ?_⟩
  · rw [intercalate_cons_cons]
  · exact not_mem_intercalate 10 9 (by decide) _ hall10
  · rw [count_intercalate 9 _ hall9]; simp at hlen ⊢; omega
  · rw [columns_intercalate _ hall9 (by simp)]; simp at hlen ⊢; omega
  · simp only [identifier]; rw [columns_intercalate _ hall9 (by simp)]; rfl

theorem hexOut_append (d rest : List Nat) (n : Nat) (h : n ≤ d.length) :
    hexOut (d ++ rest) n = hexOut d n := by
  simp only [hexOut]
  apply List.flatMap_congr
  intro k hk
  simp at hk
  simp [List.getD_eq_getElem?_getD, List.getElem?_append_left (by omega : k < d.length)]

/-- Under the contract of the digest capability a row is the manifest row
of the specification. -/
theorem RowOf_manifestRow (env : Env) (hd : env.DigestsOk) (I B row : List Nat)
    (h : RowOf env I B row) : row = manifestRow env I B := by
  obtain ⟨fs, hlen, hfs, rfl⟩ := h
  have hfield : ∀ i, i < 7 →
      fs.getD i [] = hexEncode (digestOf env (algos.getD i default) B) := by
    intro i hi
    obtain ⟨d, rest, he, hf⟩ := hfs i hi
    obtain ⟨hl, hb⟩ := hd _ (algos_getD_mem i hi) B d he
    rw [hf, hexOut_append _ _ _ hl, hexOut_eq_encode _ _ hb hl]
    simp only [digestOf, he, Option.getD_some]
  have : fs = algos.map (fun a => hexEncode (digestOf env a B)) := by
    apply List.ext_getElem
    · simp [hlen, algos]
    · intro i h1 h2
      have hi : i < 7 := by omega
      have := hfield i hi
      rw [List.getD_eq_getElem _ _ h1] at this
      rw [this, List.getElem_map]
      congr 2
      rw [List.getD_eq_getElem]
  rw [this, manifestRow]

theorem maximalRuns_mem :
    ∀ (n : Nat) (input : List Nat), input.length ≤ n →
      ∀ t ∈ maximalRuns input, t ≠ [] ∧ ∀ b ∈ t, isWhitespace b = false := by
  intro n
  induction n with
  | zero =>
    intro input h t ht
    have : input = [] := List.length_eq_zero.1 (by omega)
    subst this
    rw [maximalRuns_nil] at ht
    cases ht
  | succ n ih =>
    intro input h t ht
    cases input with
    | nil => rw [maximalRuns_nil] at ht; cases ht
    | cons x xs =>
      cases hx : isWhitespace x with
      | true =>
        rw [maximalRuns_cons_ws x xs hx] at ht
        exact ih xs (by simp at h; omega) t ht
      | false =>
        rw [maximalRuns_cons_word x xs hx] at ht
        rcases List.mem_cons.1 ht with rfl | ht
        · refine ⟨by simp, ?_⟩
          intro b hb
          rcases List.mem_cons.1 hb with rfl | hb
          · exact hx
          · have := List.mem_takeWhile_imp hb
            simpa using this
        · refine ih _ ?_ t ht
          have := (List.dropWhile_sublist (fun y => !isWhitespace y) (l := xs)).length_le
          simp at h ⊢; omega

theorem run_no_sep (t : List Nat) (h : ∀ b ∈ t, isWhitespace b = false) : 9 ∉ t ∧ 10 ∉ t := by
  constructor
  · intro hc; have := h 9 hc; revert this; decide
  · intro hc; have := h 10 hc; revert this; decide

theorem forall₂_right_mem {α β : Type} (R : α → β → Prop) (l : List α) (m : List β)
    (h : List.Forall₂ R l m) : ∀ y ∈ m, ∃ x ∈ l, R x y := by
  induction h with
  | nil => intro y hy; cases hy
  | @cons x y l m hxy _ ih =>
    intro z hz
    rcases List.mem_cons.1 hz with rfl | hz
    · exact ⟨x, List.mem_cons_self _ _, hxy⟩
    · obtain ⟨x1, hx1, hr⟩ := ih z hz
      exact ⟨x1, List.mem_cons_of_mem _ hx1, hr⟩

theorem forall₂_map_eq {α β γ : Type} (f : α → γ) (g : β → γ) (l : List α) (m : List β)
    (h : List.Forall₂ (fun x y => g y = f x) l m) : m.map g = l.map f := by
  induction h with
  | nil => rfl
  | @cons x y l m hxy _ ih => simp [hxy, ih]

/-- The lines of a manifest: a header line followed by rows whose
identifiers have neither tab nor newline. -/
theorem manifest_lines (env : Env) (hdr : List Nat) (h10 : 10 ∉ hdr)
    (items : List (List Nat × List Nat)) (rows : List (List Nat))
    (hF : List.Forall₂ (fun p row => RowOf env p.1 p.2 row) items rows)
    (hI : ∀ p ∈ items, 9 ∉ p.1 ∧ 10 ∉ p.1) :
    ∃ lines : List (List Nat),
      hdr ++ [10] ++ rows.flatten = (hdr :: lines).flatMap (fun l => l ++ [10]) ∧
      linesOf (hdr ++ [10] ++ rows.flatten) = hdr :: lines ∧
      List.Forall₂ (fun p line => 10 ∉ line ∧ line.count 9 = 7 ∧ (columns line).length = 8 ∧
        identifier line = p.1 ∧ RowOf env p.1 p.2 (line ++ [10])) items lines := by
  have key : ∃ lines : List (List Nat), rows.flatten = lines.flatMap (fun l => l ++ [10]) ∧
      List.Forall₂ (fun p line => 10 ∉ line ∧ line.count 9 = 7 ∧ (columns line).length = 8 ∧
        identifier line = p.1 ∧ RowOf env p.1 p.2 (line ++ [10])) items lines := by
    clear h10
    induction hF with
    | nil => exact ⟨[], rfl, List.Forall₂.nil⟩
    | @cons p row items rows hrow _ ih =>
      obtain ⟨lines, e1, e2⟩ := ih (fun q hq => hI q (List.mem_cons_of_mem _ hq))
      obtain ⟨line, l1, l2, l3, l4, l5⟩ := RowOf_line env p.1 p.2 row hrow
        (hI p (List.mem_cons_self _ _)).1 (hI p (List.mem_cons_self _ _)).2
      refine ⟨line :: lines, ?_, List.Forall₂.cons ⟨l2, l3, l4, l5, ?_⟩ e2⟩
      · simp [e1, l1]
      · rw [← l1]; exact hrow
  obtain ⟨lines, e1, e2⟩ := key
  have hfl : hdr ++ [10] ++ rows.flatten = (hdr :: lines).flatMap (fun l => l ++ [10]) := by
    simp [e1]
  refine ⟨lines, hfl, ?_, e2⟩
  rw [hfl]
  apply linesOf_lines
  intro l hl
  rcases List.mem_cons.1 hl with rfl | hl
  · exact h10
  · obtain ⟨p, _, hp⟩ := forall₂_right_mem _ _ _ e2 l hl
    exact hp.1

namespace Words

theorem header_eq : cstr "word\t"
    ++ cstr "SHA1\tSHA256\tSHA224\tSHA512\tSHA384\tSHA512/224\tSHA512/256\n"
      = headerLine ++ [10] := by
  decide

theorem main_run (env : Env) (hr : env.Reliable) (stdin : List Nat) (hb : Bytes stdin) :
    ∃ s rows, main env stdin = .ok s ∧
      List.Forall₂ (fun t row => RowOf env t t row) (maximalRuns stdin) rows ∧
      s.w.stdout = headerLine ++ [10] ++ rows.flatten := by
  obtain ⟨s, rows, h1, h2, h3⟩ := mainLoop_run env hr (stdin.length + 1) stdin
    ⟨headerLoop (fputs (cstr "word\t") (World.init stdin)), empty_buffer, 0, fresh env 0 64⟩
    (by omega) (by simp [headerLoop_eq, fputs, World.init]) hb
    ⟨le_refl _, rfl⟩
  refine ⟨s, rows, h1, h2, ?_⟩
  rw [h3, ← header_eq]
  simp [headerLoop_eq, fputs, World.init]

theorem main_sat (env : Env) (stdin : List Nat) :
    (main env stdin).Sat (fun s => ∃ t, s.w.stdout = headerLine ++ [10] ++ t) := by
  have h := mainLoop_sat env (stdin.length + 1)
    ⟨headerLoop (fputs (cstr "word\t") (World.init stdin)), empty_buffer, 0, fresh env 0 64⟩
    (by simp [headerLoop_eq, fputs, World.init])
  have e : (headerLoop (fputs (cstr "word\t") (World.init stdin))).stdout
      = headerLine ++ [10] := by
    rw [← header_eq]
    simp [headerLoop_eq, fputs, World.init]
  simp only [e] at h
  exact h

end Words

namespace Blobs

theorem fill_w (env : Env) :
    ∀ (n j : Nat) (f : FState),
      (forLoop (fillBody env) n j f).w = { f.w with draws := f.w.draws + n } ∧
      (forLoop (fillBody env) n j f).buffer.length = f.buffer.length := by
  intro n
  induction n with
  | zero => intro j f; exact ⟨rfl, rfl⟩
  | succ n ih =>
    intro j f
    simp only [forLoop]
    obtain ⟨h1, h2⟩ := ih (j + 1) (fillBody env j f)
    rw [h1, h2]
    simp only [fillBody, rand, List.length_set]
    refine ⟨?_, trivial⟩
    congr 1
    omega

theorem blobName_no_sep (i : Nat) : 9 ∉ blobName i ∧ 10 ∉ blobName i := by
  have h : ∀ c ∈ blobName i, c ≠ 9 ∧ c ≠ 10 := by
    intro c hc
    simp only [blobName, List.mem_append] at hc
    rcases hc with (hc | hc) | hc
    · revert c; decide
    · have := fmt_zu_digit i c hc; omega
    · revert c; decide
  exact ⟨fun hc => (h 9 hc).1 rfl, fun hc => (h 10 hc).2 rfl⟩

theorem pathOf_eq (pfx : List Nat) (i : Nat) : pathOf pfx i = pfx ++ 47 :: blobName i := by
  simp only [pathOf, blobName, List.append_assoc]
  rfl

theorem filename_drop (pfx : List Nat) (i : Nat) (h : (pathOf pfx i).length < 100) :
    (pathOf pfx i).take 99 = pathOf pfx i ∧
    ((pathOf pfx i).take 99).drop (pfx.length + 1) = blobName i := by
  have e : (pathOf pfx i).take 99 = pathOf pfx i := List.take_of_length_le (by omega)
  refine ⟨e, ?_⟩
  rw [e, pathOf_eq]
  simp

theorem blobBody_ok (env : Env) (pfx : List Nat) (i : Nat) (s s2 : BState)
    (hbuf : s.buffer.length = MAX_BLOB_LENGTH) (h : blobBody env pfx i s = .ok s2) :
    ∃ row, (pathOf pfx i).length < 100 ∧
      RowOf env (blobName i)
        (s2.buffer.take (env.rand_seq s.w.seed s.w.draws % MAX_BLOB_LENGTH)) row ∧
      s2.w.stdout = s.w.stdout ++ row ∧
      s2.w.files = s.w.files ++
        [(pathOf pfx i, s2.buffer.take (env.rand_seq s.w.seed s.w.draws % MAX_BLOB_LENGTH))] ∧
      s2.buffer.length = MAX_BLOB_LENGTH ∧
      (s2.buffer.take (env.rand_seq s.w.seed s.w.draws % MAX_BLOB_LENGTH)).length
        = env.rand_seq s.w.seed s.w.draws % MAX_BLOB_LENGTH ∧
      s2.w.seed = s.w.seed ∧
      s2.w.draws = s.w.draws + 1 + env.rand_seq s.w.seed s.w.draws % MAX_BLOB_LENGTH := by
  unfold blobBody at h
  simp only [] at h
  obtain ⟨hfw, hfl⟩ := fill_w env ((rand env s.w).1 % MAX_BLOB_LENGTH) 0 ⟨s.buffer, (rand env s.w).2⟩
  generalize hf : forLoop (fillBody env) ((rand env s.w).1 % MAX_BLOB_LENGTH) 0
    ⟨s.buffer, (rand env s.w).2⟩ = f at h hfw hfl
  split at h
  · cases h
  rename_i hlen
  simp only [not_not] at hlen
  obtain ⟨e1, e2⟩ := filename_drop pfx i hlen
  rw [e2, e1] at h
  split at h
  · cases h
  split at h
  · cases h
  split at h
  · cases h
  cases hd : digestLoop env f.buffer ((rand env s.w).1 % MAX_BLOB_LENGTH)
      ⟨fputs (blobName i ++ cstr "\t")
        { f.w with files := f.w.files
          ++ [(pathOf pfx i, List.take ((rand env s.w).1 % MAX_BLOB_LENGTH) f.buffer)] },
        s.digest⟩ with
  | ok d =>
    rw [hd] at h
    simp only [Res.ok.injEq] at h
    subst h
    obtain ⟨fs, hfs1, hfs2, hw⟩ := digestLoop_ok _ _ _ _ _ hd
    have hlt : (rand env s.w).1 % MAX_BLOB_LENGTH < MAX_BLOB_LENGTH :=
      Nat.mod_lt _ (by decide)
    simp only [rand] at hfw hfl hw hfs2 hlt ⊢
    refine ⟨_, hlen, ⟨fs, hfs1, hfs2, rfl⟩, ?_, ?_, ?_, ?_, ?_, ?_⟩
    · rw [hw, hfw]; simp [fputs]; rfl
    · rw [hw, hfw]; simp [fputs]
    · rw [hfl]; exact hbuf
    · rw [List.length_take, hfl, hbuf]; omega
    · rw [hw, hfw]; simp [fputs]
    · rw [hw, hfw]; simp [fputs]
  | abort d => rw [hd] at h; cases h
  | fuel => rw [hd] at h; cases h

end Blobs

namespace Blobs

theorem blobLoop_ok (env : Env) (pfx : List Nat) :
    ∀ (n i0 : Nat) (s s2 : BState), s.buffer.length = MAX_BLOB_LENGTH →
      forLoopR (blobBody env pfx) n i0 s = .ok s2 →
      ∃ (items : List (List Nat × List Nat)) (rows : List (List Nat)),
        items.map Prod.fst = (List.range' i0 n).map blobName ∧
        List.Forall₂ (fun p row => RowOf env p.1 p.2 row) items rows ∧
        (∀ p ∈ items, p.2.length < MAX_BLOB_LENGTH) ∧
        s2.w.files = s.w.files
          ++ List.zipWith (fun i p => (pathOf pfx i, p.2)) (List.range' i0 n) items ∧
        s2.w.stdout = s.w.stdout ++ rows.flatten ∧
        (∀ i, i0 ≤ i → i < i0 + n → (pathOf pfx i).length < 100) := by
  intro n
  induction n with
  | zero =>
    intro i0 s s2 _ h
    simp only [forLoopR, Res.ok.injEq] at h
    subst h
    exact ⟨[], [], rfl, List.Forall₂.nil, by simp, by simp, by simp, by intro i h1 h2; omega⟩
  | succ n ih =>
    intro i0 s s2 hbuf h
    obtain ⟨s1, hb, hl⟩ := forLoopR_succ_ok _ _ _ _ _ h
    obtain ⟨row, hp, hrow, hout, hfiles, hbuf1, hBlen, _, _⟩ := blobBody_ok env pfx i0 s s1 hbuf hb
    obtain ⟨items, rows, e1, e2, e3, e4, e5, e6⟩ := ih (i0 + 1) s1 s2 hbuf1 hl
    refine ⟨(blobName i0,
        s1.buffer.take (env.rand_seq s.w.seed s.w.draws % MAX_BLOB_LENGTH)) :: items,
      row :: rows, ?_, ?_, ?_, ?_, ?_, ?_⟩
    · simp [List.range'_succ, e1]
    · exact List.Forall₂.cons hrow e2
    · intro p hp
      rcases List.mem_cons.1 hp with rfl | hp
      · simp only; rw [hBlen]; exact Nat.mod_lt _ (by decide)
      · exact e3 p hp
    · rw [e4, hfiles]; simp [List.range'_succ]
    · rw [e5, hout]; simp
    · intro i h1 h2
      by_cases hi : i = i0
      · subst hi; exact hp
      · exact e6 i (by omega) (by omega)

theorem blobs_header_eq : cstr "filename\t"
    ++ cstr "SHA1\tSHA256\tSHA224\tSHA512\tSHA384\tSHA512/224\tSHA512/256\n"
      = headerLine ++ [10] := by
  decide

theorem main_eq (env : Env) (argv : List (List Nat)) :
    main env argv = forLoopR (blobBody env (dirOf argv)) N_BLOBS 0
      ⟨⟨[], headerLine ++ [10], [], 1337, 0⟩, fresh env 1 MAX_BLOB_LENGTH, fresh env 0 64⟩ := by
  simp only [main, dirOf, headerLoop_eq, fputs_fputs, blobs_header_eq]
  rfl

theorem main_ok (env : Env) (argv : List (List Nat)) (s : BState)
    (h : main env argv = .ok s) :
    ∃ (items : List (List Nat × List Nat)) (rows : List (List Nat)),
      items.map Prod.fst = (List.range N_BLOBS).map blobName ∧
      List.Forall₂ (fun p row => RowOf env p.1 p.2 row) items rows ∧
      (∀ p ∈ items, p.2.length < MAX_BLOB_LENGTH) ∧
      s.w.files
        = List.zipWith (fun i p => (pathOf (dirOf argv) i, p.2)) (List.range N_BLOBS) items ∧
      s.w.stdout = headerLine ++ [10] ++ rows.flatten ∧
      (∀ i, i < N_BLOBS → (pathOf (dirOf argv) i).length < 100) := by
  rw [main_eq] at h
  obtain ⟨items, rows, e1, e2, e3, e4, e5, e6⟩ := blobLoop_ok env (dirOf argv) N_BLOBS 0 _ s
    (by simp [fresh]) h
  refine ⟨items, rows, ?_, e2, e3, ?_, ?_, ?_⟩
  · rw [e1, List.range_eq_range']
  · rw [e4, List.range_eq_range']; rfl
  · rw [e5]
  · intro i hi; exact e6 i (Nat.zero_le _) (by omega)

theorem blobs_main_sat (env : Env) (argv : List (List Nat)) :
    (main env argv).Sat (fun s => ∃ t, s.w.stdout = headerLine ++ [10] ++ t) := by
  rw [main_eq]
  have := forLoopR_sat (blobBody env (dirOf argv))
    (fun s s1 => ∃ t, s1.w.stdout = s.w.stdout ++ t)
    (fun s => ⟨[], by simp⟩)
    (fun a b c ⟨t, ht⟩ ⟨u, hu⟩ => ⟨t ++ u, by rw [hu, ht]; simp⟩)
    ?_ N_BLOBS 0
    ⟨⟨[], headerLine ++ [10], [], 1337, 0⟩, fresh env 1 MAX_BLOB_LENGTH, fresh env 0 64⟩
  · exact this
  · intro i s
    unfold blobBody
    simp only []
    obtain ⟨hfw, _⟩ := fill_w env ((rand env s.w).1 % MAX_BLOB_LENGTH) 0
      ⟨s.buffer, (rand env s.w).2⟩
    generalize forLoop (fillBody env) ((rand env s.w).1 % MAX_BLOB_LENGTH) 0
      ⟨s.buffer, (rand env s.w).2⟩ = f at hfw
    have hst : f.w.stdout = s.w.stdout := by rw [hfw]; rfl
    split
    · exact (Res.Sat_abort _ _).2 ⟨[], by simp [hst]⟩
    split
    · exact (Res.Sat_abort _ _).2 ⟨[], by simp [hst]⟩
    split
    · exact (Res.Sat_abort _ _).2 ⟨[], by simp [hst]⟩
    split
    · exact (Res.Sat_abort _ _).2 ⟨[], by simp [hst]⟩
    generalize hw2 : fputs _ _ = w2
    have hw2s : ∃ t, w2.stdout = s.w.stdout ++ t :=
      ⟨List.drop ((dirOf argv).length + 1) (List.take 99 (pathOf (dirOf argv) i)) ++ cstr "\t",
        by rw [← hw2]; simp only [fputs, hst]⟩
    have hd := digestLoop_sat env f.buffer ((rand env s.w).1 % MAX_BLOB_LENGTH) ⟨w2, s.digest⟩
    revert hd
    obtain ⟨t, ht⟩ := hw2s
    cases digestLoop env f.buffer ((rand env s.w).1 % MAX_BLOB_LENGTH) ⟨w2, s.digest⟩ with
    | ok d => simp only [Res.Sat_ok, Res.Sat_abort, Res.Sat_fuel]; rintro ⟨u, hu⟩; exact ⟨t ++ u, by rw [hu]; simp [fputs, ht]⟩
    | abort d => simp only [Res.Sat_ok, Res.Sat_abort, Res.Sat_fuel]; rintro ⟨u, hu⟩; exact ⟨t ++ u, by rw [hu]; simp [fputs, ht]⟩
    | fuel => simp [Res.Sat_ok, Res.Sat_abort, Res.Sat_fuel]

end Blobs

theorem fmt_zu_length_le (i : Nat) (h : i < 10000) : (fmt_zu i).length ≤ 4 := by
  simp only [fmt_zu, List.length_map, Nat.toDigits]
  exact Nat.toDigitsCore_length 10 (by decide) (i + 1) i 4 (by simpa using h) (by decide)

namespace Blobs

theorem pathOf_length (pfx : List Nat) (i : Nat) :
    (pathOf pfx i).length = pfx.length + 9 + (fmt_zu i).length := by
  simp only [pathOf, List.length_append]
  have h1 : (cstr "/blob").length = 5 := by decide
  have h2 : (cstr ".bin").length = 4 := by decide
  omega

theorem blobBody_total (env : Env) (he : ∀ a ∈ algos, ∀ B, (env.evp a.md B).isSome)
    (hio : env.FilesOk) (pfx : List Nat) (i : Nat) (s : BState)
    (hp : (pathOf pfx i).length < 100) : ∃ s2, blobBody env pfx i s = .ok s2 := by
  unfold blobBody
  simp only [hp, hio.1, hio.2.1, hio.2.2, not_true_eq_false, if_false]
  generalize forLoop (fillBody env) ((rand env s.w).1 % MAX_BLOB_LENGTH) 0
      ⟨s.buffer, (rand env s.w).2⟩ = f
  generalize hw2 : fputs _ _ = w2
  obtain ⟨d, hd⟩ := digestLoop_total env he f.buffer ((rand env s.w).1 % MAX_BLOB_LENGTH)
    ⟨w2, s.digest⟩
  rw [hd]
  exact ⟨_, rfl⟩

theorem main_total (env : Env) (he : ∀ a ∈ algos, ∀ B, (env.evp a.md B).isSome)
    (hio : env.FilesOk) (argv : List (List Nat)) (hp : (dirOf argv).length ≤ 86) :
    ∃ s, main env argv = .ok s := by
  rw [main_eq]
  apply forLoopR_total
  intro j s _ hj
  apply blobBody_total env he hio
  have := fmt_zu_length_le j (by simp [N_BLOBS] at hj; omega)
  rw [pathOf_length]
  omega

end Blobs

theorem linesOf_head (hdr t : List Nat) (h10 : 10 ∉ hdr) :
    (linesOf (hdr ++ [10] ++ t)).head? = some hdr := by
  have h : (hdr ++ [10] ++ t).splitOn 10 = hdr :: t.splitOn 10 := by
    simp only [List.splitOn, List.append_assoc, List.singleton_append]
    apply List.splitOnP_first
    · intro x hx
      simp only [beq_iff_eq]
      rintro rfl
      exact h10 hx
    · simp
  have hne : t.splitOn 10 ≠ [] := List.splitOnP_ne_nil _ _
  obtain ⟨a, as, has⟩ := List.exists_cons_of_ne_nil hne
  have h2 : (hdr ++ 10 :: t).splitOn 10 = hdr :: a :: as := by
    rw [← has, ← h]; simp
  simp [linesOf, h2]

theorem maximalRuns_ws (l : List Nat) (h : ∀ b ∈ l, isWhitespace b = true) :
    maximalRuns l = [] := by
  induction l with
  | nil => exact maximalRuns_nil
  | cons x xs ih =>
    rw [maximalRuns_cons_ws x xs (h x (List.mem_cons_self _ _))]
    exact ih (fun b hb => h b (List.mem_cons_of_mem _ hb))

theorem maximalRuns_append_ws (pre l : List Nat) (h : ∀ b ∈ pre, isWhitespace b = true) :
    maximalRuns (pre ++ l) = maximalRuns l := by
  induction pre with
  | nil => rfl
  | cons x xs ih =>
    rw [List.cons_append, maximalRuns_cons_ws x _ (h x (List.mem_cons_self _ _))]
    exact ih (fun b hb => h b (List.mem_cons_of_mem _ hb))

theorem takeWhile_word (w post : List Nat) (hw : ∀ b ∈ w, isWhitespace b = false)
    (hpost : ∀ b ∈ post, isWhitespace b = true) :
    (w ++ post).takeWhile (fun y => !isWhitespace y) = w ∧
    (w ++ post).dropWhile (fun y => !isWhitespace y) = post := by
  induction w with
  | nil =>
    cases post with
    | nil => simp
    | cons p ps => simp [hpost p (List.mem_cons_self _ _)]
  | cons x xs ih =>
    have := ih (fun b hb => hw b (List.mem_cons_of_mem _ hb))
    simp [hw x (List.mem_cons_self _ _), this]

theorem maximalRuns_single (pre w post : List Nat) (hne : w ≠ [])
    (hw : ∀ b ∈ w, isWhitespace b = false)
    (hpre : ∀ b ∈ pre, isWhitespace b = true) (hpost : ∀ b ∈ post, isWhitespace b = true) :
    maximalRuns (pre ++ w ++ post) = [w] := by
  rw [List.append_assoc, maximalRuns_append_ws pre _ hpre]
  obtain ⟨x, xs, rfl⟩ := List.exists_cons_of_ne_nil hne
  rw [List.cons_append, maximalRuns_cons_word x _ (hw x (List.mem_cons_self _ _))]
  obtain ⟨e1, e2⟩ := takeWhile_word xs post (fun b hb => hw b (List.mem_cons_of_mem _ hb)) hpost
  rw [e1, e2, maximalRuns_ws _ (fun b hb => hpost b ((List.drop_sublist _ _).subset hb))]

theorem flatMap_pair_getElem? (f g : Nat → Nat) :
    ∀ (l : List Nat) (k : Nat),
      (l.flatMap (fun b => [f b, g b]))[2 * k]? = l[k]?.map f ∧
      (l.flatMap (fun b => [f b, g b]))[2 * k + 1]? = l[k]?.map g := by
  intro l
  induction l with
  | nil => intro k; simp
  | cons x xs ih =>
    intro k
    cases k with
    | zero => simp [List.flatMap_cons]
    | succ k =>
      obtain ⟨h1, h2⟩ := ih k
      simp only [List.flatMap_cons, List.getElem?_cons_succ]
      have e1 : 2 * (k + 1) = (2 * k) + 1 + 1 := by omega
      have e2 : 2 * (k + 1) + 1 = (2 * k + 1) + 1 + 1 := by omega
      rw [e1]
      simp only [List.cons_append, List.nil_append, List.getElem?_cons_succ]
      exact ⟨h1, h2⟩

theorem hexDigit_hex (n : Nat) (h : n < 16) : isLowerHex (hexDigit n) = true := by
  revert n; decide

/-- The length of a row under the contract of the digest capability. -/
theorem RowOf_length (env : Env) (hd : env.DigestsOk) (I B row : List Nat)
    (h : RowOf env I B row) : row.length = I.length + 512 := by
  have hrow := RowOf_manifestRow env hd I B row h
  obtain ⟨fs, _, hfs, _⟩ := h
  have hlen : ∀ i, i < 7 →
      (hexEncode (digestOf env (algos.getD i default) B)).length
        = 2 * (algos.getD i default).digest_len := by
    intro i hi
    obtain ⟨d, rest, he, _⟩ := hfs i hi
    obtain ⟨hl, _⟩ := hd _ (algos_getD_mem i hi) B d he
    rw [hexEncode_length]
    simp only [digestOf, he, Option.getD_some, List.length_take]
    omega
  have h0 := hlen 0 (by decide)
  have h1 := hlen 1 (by decide)
  have h2 := hlen 2 (by decide)
  have h3 := hlen 3 (by decide)
  have h4 := hlen 4 (by decide)
  have h5 := hlen 5 (by decide)
  have h6 := hlen 6 (by decide)
  simp only [algos, List.getD_cons_zero, List.getD_cons_succ] at h0 h1 h2 h3 h4 h5 h6
  rw [hrow]
  simp only [manifestRow, algos, List.map_cons, List.map_nil, List.intercalate,
    List.intersperse_cons₂, List.intersperse_single, List.flatten_cons, List.flatten_nil,
    List.length_append, List.length_cons, List.length_nil, h0, h1, h2, h3, h4, h5, h6]

namespace Words

theorem mainLoop_ws (env : Env) :
    ∀ (input : List Nat) (fuel : Nat) (s : WState),
      input.length < fuel → s.w.stdin = input → (∀ b ∈ input, isWhitespace b = true) →
      ∃ s1, mainLoop env fuel s = .ok s1 ∧ s1.w.stdout = s.w.stdout ∧ s1.w.stdin = [] := by
  intro input
  induction input with
  | nil =>
    intro fuel s hf hin _
    obtain ⟨n, rfl⟩ : ∃ n, fuel = n + 1 := ⟨fuel - 1, by omega⟩
    refine ⟨{ s with buf := { s.buf with len := 0 }, c := EOF, w := s.w }, ?_, rfl, hin⟩
    simp only [mainLoop, getchar, hin, if_true]
  | cons x xs ih =>
    intro fuel s hf hin hws
    obtain ⟨n, rfl⟩ : ∃ n, fuel = n + 1 := ⟨fuel - 1, by omega⟩
    have hne : ¬ ((x : Int) = EOF) := by simp only [EOF]; omega
    simp only [mainLoop, getchar, hin, hne, if_false, isspace_eq,
      hws x (List.mem_cons_self _ _), if_true]
    exact ih n
      { s with buf := { s.buf with len := 0 }, c := (x : Int), w := { s.w with stdin := xs } }
      (by simp at hf; omega) rfl (fun b hb => hws b (List.mem_cons_of_mem _ hb))

end Words

/-! ### Runs that abort -/

theorem LinesOnly.refl (out : List Nat) : LinesOnly out out :=
  ⟨[], by simp, by simp⟩

theorem LinesOnly.trans (a b c : List Nat) (h1 : LinesOnly a b) (h2 : LinesOnly b c) :
    LinesOnly a c := by
  obtain ⟨r1, e1, g1⟩ := h1
  obtain ⟨r2, e2, g2⟩ := h2
  refine ⟨r1 ++ r2, by rw [e2, e1]; simp, ?_⟩
  intro row hrow
  rcases List.mem_append.1 hrow with h | h
  · exact g1 row h
  · exact g2 row h

theorem LinesOnly.one (env : Env) (out I B row : List Nat) (h : RowOf env I B row)
    (h9 : 9 ∉ I) (h10 : 10 ∉ I) : LinesOnly out (out ++ row) := by
  obtain ⟨line, l1, l2, l3, l4, _⟩ := RowOf_line env I B row h h9 h10
  refine ⟨[row], by simp, ?_⟩
  intro r hr
  obtain rfl := List.mem_singleton.1 hr
  exact ⟨line, l1, l2, l3, l4⟩

/-- An output made of a header line and well-formed lines splits into its
lines. -/
theorem LinesOnly.lines (hdr out : List Nat) (hh : IsManifestLine (hdr ++ [10]))
    (h : LinesOnly (hdr ++ [10]) out) :
    out = (linesOf out).flatMap (fun l => l ++ [10]) ∧
    (linesOf out).head? = some hdr ∧
    ∀ line ∈ linesOf out, 10 ∉ line ∧ line.count 9 = 7 ∧ (columns line).length = 8 := by
  obtain ⟨rows, e, g⟩ := h
  have key : ∀ rows : List (List Nat), (∀ row ∈ rows, IsManifestLine row) →
      ∃ lines : List (List Nat), rows.flatten = lines.flatMap (fun l => l ++ [10]) ∧
        ∀ line ∈ lines, 10 ∉ line ∧ line.count 9 = 7 ∧ (columns line).length = 8 := by
    intro rows
    induction rows with
    | nil => intro _; exact ⟨[], rfl, by simp⟩
    | cons r rs ih =>
      intro hg
      obtain ⟨lines, e1, e2⟩ := ih (fun row hrow => hg row (List.mem_cons_of_mem _ hrow))
      obtain ⟨line, l1, l2, l3, l4⟩ := hg r (List.mem_cons_self _ _)
      refine ⟨line :: lines, by simp [e1, l1], ?_⟩
      intro m hm
      rcases List.mem_cons.1 hm with rfl | hm
      · exact ⟨l2, l3, l4⟩
      · exact e2 m hm
  obtain ⟨lines, e1, e2⟩ := key rows g
  obtain ⟨line0, l1, l2, l3, l4⟩ := hh
  have hl : line0 = hdr := by
    have := congrArg List.dropLast l1
    simpa using this.symm
  subst hl
  have hout : out = (line0 :: lines).flatMap (fun l => l ++ [10]) := by
    rw [e, e1]; simp
  have hlines : linesOf out = line0 :: lines := by
    rw [hout]
    apply linesOf_lines
    intro l hl
    rcases List.mem_cons.1 hl with rfl | hl
    · exact l2
    · exact (e2 l hl).1
  refine ⟨by rw [hlines]; exact hout, by rw [hlines]; rfl, ?_⟩
  rw [hlines]
  intro l hl
  rcases List.mem_cons.1 hl with rfl | hl
  · exact ⟨l2, l3, l4⟩
  · exact e2 l hl

namespace Words

theorem buffer_push_some (env : Env) (buf buf1 : buffer) (byte : Nat) (h : BufOk buf)
    (hp : buffer_push env buf byte = some buf1) :
    BufOk buf1 ∧ buf1.len = buf.len + 1 ∧
      buf1.data.take buf1.len = buf.data.take buf.len ++ [byte] := by
  obtain ⟨h1, h2⟩ := h
  unfold buffer_push at hp
  rw [if_neg (by omega)] at hp
  by_cases hc : buf.len = buf.cap
  · rw [if_pos hc] at hp
    simp only [realloc] at hp
    cases ha : env.alloc (2 * buf.cap + 16) with
    | false => rw [ha] at hp; simp at hp
    | true =>
      rw [ha] at hp
      simp only [if_true, Option.some.injEq] at hp
      subst hp
      refine ⟨⟨?_, ?_⟩, rfl, ?_⟩
      · simp only; omega
      · simp [fresh]; omega
      · simp only
        rw [List.take_succ, take_set_self]
        have e1 : ∀ l : List Nat,
            List.take buf.len (List.take (2 * buf.cap + 16) (buf.data ++ l))
              = List.take buf.len buf.data := by
          intro l
          rw [List.take_take, Nat.min_eq_left (by omega),
            List.take_append_of_le_length (by omega)]
        rw [e1]
        congr 1
        rw [List.getElem?_set_self (by simp [fresh]; omega)]
        rfl
  · rw [if_neg hc] at hp
    simp only [Option.some.injEq] at hp
    subst hp
    refine ⟨⟨?_, ?_⟩, rfl, ?_⟩
    · simp only; omega
    · simp [h2]
    · simp only
      rw [List.take_succ, take_set_self, List.getElem?_set_self (by omega)]
      rfl

theorem wordLoop_cases (env : Env) :
    ∀ (rest : List Nat) (fuel : Nat) (s : WState) (b : Nat),
      rest.length < fuel → s.w.stdin = rest → s.c = (b : Int) → b < 256 → Bytes rest →
      BufOk s.buf →
      (∃ s1, wordLoop env fuel s = .ok s1 ∧
        s1.w = { s.w with stdin := (rest.dropWhile (fun y => !isWhitespace y)).drop 1 } ∧
        BufOk s1.buf ∧
        s1.buf.data.take s1.buf.len
          = s.buf.data.take s.buf.len ++ b :: rest.takeWhile (fun y => !isWhitespace y)) ∨
      (∃ s1, wordLoop env fuel s = .abort s1 ∧ s1.w.stdout = s.w.stdout) := by
  intro rest
  induction rest with
  | nil =>
    intro fuel s b hf hin hc hb _ hbuf
    obtain ⟨n, rfl⟩ : ∃ n, fuel = n + 1 := ⟨fuel - 1, by omega⟩
    cases hp : buffer_push env s.buf b with
    | none =>
      right
      exact ⟨s, by simp only [wordLoop, hc, toUChar_byte b hb, hp], rfl⟩
    | some buf1 =>
      left
      obtain ⟨hok, _, htake⟩ := buffer_push_some env s.buf buf1 b hbuf hp
      simp only [wordLoop, hc, toUChar_byte b hb, hp, getchar, hin]
      refine ⟨_, rfl, ?_, hok, ?_⟩
      · cases hw : s.w
        rw [hw] at hin
        simp only at hin
        subst hin
        rfl
      · simpa using htake
  | cons x xs ih =>
    intro fuel s b hf hin hc hb hbytes hbuf
    obtain ⟨n, rfl⟩ : ∃ n, fuel = n + 1 := ⟨fuel - 1, by omega⟩
    cases hp : buffer_push env s.buf b with
    | none =>
      right
      exact ⟨s, by simp only [wordLoop, hc, toUChar_byte b hb, hp], rfl⟩
    | some buf1 =>
      obtain ⟨hok, _, htake⟩ := buffer_push_some env s.buf buf1 b hbuf hp
      simp only [wordLoop, hc, toUChar_byte b hb, hp, getchar, hin, cast_ne_EOF, isspace_eq,
        Bool.true_and]
      cases hx : isWhitespace x with
      | true =>
        left
        simp only [Bool.not_true, Bool.false_eq_true, if_false]
        refine ⟨_, rfl, ?_, hok, ?_⟩
        · simp [hx]
        · simpa [hx] using htake
      | false =>
        simp only [Bool.not_false, if_true]
        have hx256 : x < 256 := hbytes x (List.mem_cons_self _ _)
        have hxs : Bytes xs := fun y hy => hbytes y (List.mem_cons_of_mem _ hy)
        rcases ih n
          { s with buf := buf1, c := (x : Int), w := { s.w with stdin := xs } } x
          (by simp at hf; omega) rfl rfl hx256 hxs hok with
          ⟨s1, h1, hw, hok1, ht1⟩ | ⟨s1, h1, hw⟩
        · left
          refine ⟨s1, h1, ?_, hok1, ?_⟩
          · rw [hw]; simp [hx]
          · rw [ht1]; simp only at htake ⊢; rw [htake]; simp [hx]
        · right
          exact ⟨s1, h1, hw⟩

theorem mainLoop_lines (env : Env) (he : ∀ a ∈ algos, ∀ B, (env.evp a.md B).isSome) :
    ∀ (fuel : Nat) (input : List Nat) (s : WState),
      input.length < fuel → s.w.stdin = input → Bytes input → BufOk s.buf →
      (mainLoop env fuel s).Sat (fun s1 => LinesOnly s.w.stdout s1.w.stdout) := by
  intro fuel
  induction fuel with
  | zero => intro input s h; omega
  | succ n ih =>
    intro input s hf hin hbytes hbuf
    cases input with
    | nil =>
      simp only [mainLoop, getchar, hin, if_true, Res.Sat_ok, Res.Sat_abort, Res.Sat_fuel]
      exact LinesOnly.refl _
    | cons x xs =>
      have hx256 : x < 256 := hbytes x (List.mem_cons_self _ _)
      have hxs : Bytes xs := fun y hy => hbytes y (List.mem_cons_of_mem _ hy)
      have hne : ¬ ((x : Int) = EOF) := by simp only [EOF]; omega
      simp only [mainLoop, getchar, hin, hne, if_false, isspace_eq]
      cases hx : isWhitespace x with
      | true =>
        simp only [if_true]
        exact ih xs
          { s with buf := { s.buf with len := 0 }, c := (x : Int), w := { s.w with stdin := xs } }
          (by simp at hf; omega) rfl hxs ⟨Nat.zero_le _, hbuf.2⟩
      | false =>
        simp only [Bool.false_eq_true, if_false]
        rcases wordLoop_cases env xs (xs.length + 1)
          { s with buf := { s.buf with len := 0 }, c := (x : Int), w := { s.w with stdin := xs } }
          x (by omega) rfl rfl hx256 hxs ⟨Nat.zero_le _, hbuf.2⟩ with
          ⟨s1, h1, hw1, hok1, ht1⟩ | ⟨s1, h1, hw1⟩
        · rw [h1]
          dsimp only
          obtain ⟨s2, h2⟩ := emitRow_total env he s1
          rw [h2]
          dsimp only
          obtain ⟨row, hrow, hw2, hb2⟩ := emitRow_ok env s1 s2
            (by have := hok1; unfold BufOk at this; omega) h2
          have hlen : ((xs.dropWhile (fun y => !isWhitespace y)).drop 1).length < n := by
            have := (List.dropWhile_sublist (fun y => !isWhitespace y) (l := xs)).length_le
            simp at hf ⊢; omega
          have h3 := ih ((xs.dropWhile (fun y => !isWhitespace y)).drop 1)
            s2 hlen (by rw [hw2, hw1]; rfl)
            (fun y hy => hxs y
              (List.dropWhile_sublist _ |>.subset (List.drop_sublist _ _ |>.subset hy)))
            (by rw [hb2]; exact hok1)
          simp only [List.take_zero, List.nil_append] at ht1
          rw [ht1] at hrow
          have hword : ∀ y ∈ x :: xs.takeWhile (fun y => !isWhitespace y),
              isWhitespace y = false := by
            intro y hy
            rcases List.mem_cons.1 hy with rfl | hy
            · exact hx
            · have := List.mem_takeWhile_imp hy
              simpa using this
          have hone : LinesOnly s.w.stdout s2.w.stdout := by
            have := LinesOnly.one env s.w.stdout _ _ row hrow (run_no_sep _ hword).1
              (run_no_sep _ hword).2
            rw [hw2, hw1]
            exact this
          revert h3
          cases mainLoop env n s2 with
          | ok s3 => simp only [Res.Sat_ok, Res.Sat_abort, Res.Sat_fuel]; exact fun h => LinesOnly.trans _ _ _ hone h
          | abort s3 => simp only [Res.Sat_ok, Res.Sat_abort, Res.Sat_fuel]; exact fun h => LinesOnly.trans _ _ _ hone h
          | fuel => simp [Res.Sat_ok, Res.Sat_abort, Res.Sat_fuel]
        · rw [h1]
          simp only [Res.Sat_ok, Res.Sat_abort, Res.Sat_fuel, hw1]
          exact LinesOnly.refl _

theorem main_lines_sat (env : Env) (he : ∀ a ∈ algos, ∀ B, (env.evp a.md B).isSome)
    (stdin : List Nat) (hb : Bytes stdin) :
    (main env stdin).Sat (fun s => LinesOnly (headerLine ++ [10]) s.w.stdout) := by
  have h := mainLoop_lines env he (stdin.length + 1) stdin
    ⟨headerLoop (fputs (cstr "word\t") (World.init stdin)), empty_buffer, 0, fresh env 0 64⟩
    (by omega) (by simp [headerLoop_eq, fputs, World.init]) hb ⟨le_refl _, rfl⟩
  have e : (headerLoop (fputs (cstr "word\t") (World.init stdin))).stdout
      = headerLine ++ [10] := by
    rw [← header_eq]
    simp [headerLoop_eq, fputs, World.init]
  simp only [e] at h
  exact h

end Words

namespace Blobs

theorem blobBody_lines (env : Env) (he : ∀ a ∈ algos, ∀ B, (env.evp a.md B).isSome)
    (pfx : List Nat) (i : Nat) (s : BState) :
    (blobBody env pfx i s).Sat (fun s1 => LinesOnly s.w.stdout s1.w.stdout) := by
  unfold blobBody
  simp only []
  obtain ⟨hfw, _⟩ := fill_w env ((rand env s.w).1 % MAX_BLOB_LENGTH) 0
    ⟨s.buffer, (rand env s.w).2⟩
  generalize forLoop (fillBody env) ((rand env s.w).1 % MAX_BLOB_LENGTH) 0
    ⟨s.buffer, (rand env s.w).2⟩ = f at hfw
  have hst : f.w.stdout = s.w.stdout := by rw [hfw]; rfl
  split
  · simp only [Res.Sat_ok, Res.Sat_abort, Res.Sat_fuel, hst]; exact LinesOnly.refl _
  rename_i hlen
  simp only [not_not] at hlen
  obtain ⟨e1, e2⟩ := filename_drop pfx i hlen
  rw [e2, e1]
  split
  · simp only [Res.Sat_ok, Res.Sat_abort, Res.Sat_fuel, hst]; exact LinesOnly.refl _
  split
  · simp only [Res.Sat_ok, Res.Sat_abort, Res.Sat_fuel, hst]; exact LinesOnly.refl _
  split
  · simp only [Res.Sat_ok, Res.Sat_abort, Res.Sat_fuel, hst]; exact LinesOnly.refl _
  generalize hw2 : fputs (blobName i ++ cstr "\t") _ = w2
  have hw2s : w2.stdout = s.w.stdout ++ (blobName i ++ [9]) := by
    rw [← hw2]; simp only [fputs, hst]; rfl
  obtain ⟨d, hd⟩ := digestLoop_total env he f.buffer ((rand env s.w).1 % MAX_BLOB_LENGTH)
    ⟨w2, s.digest⟩
  rw [hd]
  simp only [Res.Sat_ok, Res.Sat_abort, Res.Sat_fuel]
  obtain ⟨fs, hfs1, hfs2, hw⟩ := digestLoop_ok _ _ _ _ _ hd
  have hrow : RowOf env (blobName i)
      (List.take ((rand env s.w).1 % MAX_BLOB_LENGTH) f.buffer)
      (blobName i ++ [9] ++ List.intercalate [9] fs ++ [10]) := ⟨fs, hfs1, hfs2, rfl⟩
  have := LinesOnly.one env s.w.stdout _ _ _ hrow (blobName_no_sep i).1 (blobName_no_sep i).2
  have e : d.w.stdout
      = s.w.stdout ++ (blobName i ++ [9] ++ List.intercalate [9] fs ++ [10]) := by
    rw [hw]; simp only [fputs, hw2s]; simp
  rw [e]
  exact this

theorem blobs_lines_sat (env : Env) (he : ∀ a ∈ algos, ∀ B, (env.evp a.md B).isSome)
    (argv : List (List Nat)) :
    (main env argv).Sat (fun s => LinesOnly (headerLine ++ [10]) s.w.stdout) := by
  rw [main_eq]
  exact forLoopR_sat (blobBody env (dirOf argv))
    (fun s s1 => LinesOnly s.w.stdout s1.w.stdout)
    (fun s => LinesOnly.refl _)
    (fun a b c h1 h2 => LinesOnly.trans _ _ _ h1 h2)
    (fun i s => blobBody_lines env he (dirOf argv) i s) N_BLOBS 0
    ⟨⟨[], headerLine ++ [10], [], 1337, 0⟩, fresh env 1 MAX_BLOB_LENGTH, fresh env 0 64⟩

end Blobs

theorem Res.Sat.imp {σ : Type} (P Q : σ → Prop) (r : Res σ) (h : ∀ s, P s → Q s)
    (hr : r.Sat P) : r.Sat Q := by
  obtain ⟨s, hs, hp⟩ := hr
  exact ⟨s, hs, h s hp⟩

/-! ### The demo environment -/

theorem demoEnv_digests (a : algo) (ha : a ∈ algos) (B : List Nat) :
    demoEnv.evp a.md B = some (List.replicate a.digest_len (B.length % 256)) := by
  simp only [algos, List.mem_cons, List.mem_singleton, List.not_mem_nil, or_false] at ha
  rcases ha with rfl | rfl | rfl | rfl | rfl | rfl | rfl <;> rfl

theorem demoEnv_digestsOk : demoEnv.DigestsOk := by
  intro a ha B d hd
  rw [demoEnv_digests a ha B] at hd
  simp only [Option.some.injEq] at hd
  subst hd
  refine ⟨by simp, ?_⟩
  intro b hb
  obtain rfl := List.eq_of_mem_replicate hb
  exact Nat.mod_lt _ (by decide)

theorem demoEnv_reliable : demoEnv.Reliable :=
  ⟨fun a ha B => by rw [demoEnv_digests a ha B]; rfl, fun _ => rfl⟩

theorem demoEnv_filesOk : demoEnv.FilesOk :=
  ⟨fun _ => rfl, fun _ _ => rfl, fun _ => rfl⟩

theorem Blobs.demo_run (argv : List (List Nat)) (h : (Blobs.dirOf argv).length ≤ 86) :
    Blobs.main demoEnv argv = .ok (Blobs.demoState argv) := by
  obtain ⟨s, hs⟩ := Blobs.main_total demoEnv demoEnv_reliable.1 demoEnv_filesOk argv h
  rw [Blobs.demoState, hs]
  rfl

/-! ## The claims -/

theorem forLoop_eq_foldl {σ : Type} (body : Nat → σ → σ) :
    ∀ (n i : Nat) (s : σ),
      forLoop body n i s = (List.range' i n).foldl (fun s k => body k s) s := by
  intro n
  induction n with
  | zero => intro i s; rfl
  | succ n ih => intro i s; simp [forLoop, ih, List.range'_succ]

theorem forLoopR_eq_seqR {σ : Type} (body : Nat → σ → Res σ) :
    ∀ (n i : Nat) (s : σ), forLoopR body n i s = seqR ((List.range' i n).map body) s := by
  intro n
  induction n with
  | zero => intro i s; rfl
  | succ n ih =>
    intro i s
    simp only [forLoopR, List.range'_succ, List.map_cons, seqR]
    cases body i s with
    | ok s1 => exact ih (i + 1) s1
    | abort s1 => rfl
    | fuel => rfl

/-- C1: the registry `algos` is exactly the seven (name, digest length)
pairs SHA1/20, SHA256/32, SHA224/28, SHA512/64, SHA384/48, SHA512/224/28,
SHA512/256/32, in that order; the header loop and the algorithm loop of a
row, which both programs run, visit its entries at the indices 0 to 6 in
that order, and the step at index `i` digests under, and prints the length
of, entry `i`. -/
theorem registry_order :
    algos.map (fun a => (a.name, a.digest_len))
      = [("SHA1", 20), ("SHA256", 32), ("SHA224", 28), ("SHA512", 64), ("SHA384", 48),
         ("SHA512/224", 28), ("SHA512/256", 32)] ∧
    algos.length = N_ALGOS ∧
    (∀ w, headerLoop w
      = fputs (algos.enum.flatMap (fun p => cstr p.2.name ++ [sepOf p.1])) w) ∧
    (∀ w, headerLoop w
      = [0, 1, 2, 3, 4, 5, 6].foldl
          (fun w i => putchar (sepOf i) (fputs (cstr (algos.getD i default).name) w)) w) ∧
    (∀ env str len s, digestLoop env str len s
      = seqR ([0, 1, 2, 3, 4, 5, 6].map (digestBody env str len)) s) ∧
    (∀ env str len i s, digestBody env str len i s
      = match env.evp (algos.getD i default).md (str.take len) with
        | none => .abort s
        | some d => .ok
            ⟨fputs (hexOut (d ++ s.digest.drop d.length) (algos.getD i default).digest_len
                ++ [sepOf i]) s.w,
              d ++ s.digest.drop d.length⟩) := by
  refine ⟨rfl, rfl, ?_, ?_, ?_, ?_⟩
  · intro w
    rw [headerLoop_eq]
    rfl
  · intro w
    simp only [headerLoop, forLoop_eq_foldl, sepOf]
    rfl
  · intro env str len s
    simp only [digestLoop, forLoopR_eq_seqR]
    rfl
  · intro env str len i s
    cases hd : env.evp (algos.getD i default).md (str.take len) with
    | none => simp only [digestBody, Algos.hash, hd]
    | some d => exact digestBody_of_some env str len i s d hd

/-- C2: whatever the input and the environment, the output of the word
processor begins with the line
`word\tSHA1\tSHA256\tSHA224\tSHA512\tSHA384\tSHA512/224\tSHA512/256\n`, and
whatever the arguments, the output of the blob generator begins with the
line `filename\tSHA1\t...\tSHA512/256\n`; each line is its label, then a
tab before each registry name, then one newline, and the two differ only in
the label. -/
theorem header_line (env : Env) (stdin : List Nat) (argv : List (List Nat)) :
    (Words.main env stdin).Sat (fun s =>
      (∃ t, s.w.stdout
        = cstr "word\tSHA1\tSHA256\tSHA224\tSHA512\tSHA384\tSHA512/224\tSHA512/256\n" ++ t) ∧
      (linesOf s.w.stdout).head?
        = some (cstr "word\tSHA1\tSHA256\tSHA224\tSHA512\tSHA384\tSHA512/224\tSHA512/256")) ∧
    (Blobs.main env argv).Sat (fun s =>
      (∃ t, s.w.stdout
        = cstr "filename\tSHA1\tSHA256\tSHA224\tSHA512\tSHA384\tSHA512/224\tSHA512/256\n" ++ t) ∧
      (linesOf s.w.stdout).head?
        = some (cstr "filename\tSHA1\tSHA256\tSHA224\tSHA512\tSHA384\tSHA512/224\tSHA512/256")) ∧
    cstr "word\tSHA1\tSHA256\tSHA224\tSHA512\tSHA384\tSHA512/224\tSHA512/256\n"
      = cstr "word" ++ (algos.flatMap (fun a => 9 :: cstr a.name)) ++ [10] ∧
    cstr "filename\tSHA1\tSHA256\tSHA224\tSHA512\tSHA384\tSHA512/224\tSHA512/256\n"
      = cstr "filename" ++ (algos.flatMap (fun a => 9 :: cstr a.name)) ++ [10] := by
  have hw : (10 : Nat) ∉ Words.headerLine := by decide
  have hb : (10 : Nat) ∉ Blobs.headerLine := by decide
  refine ⟨?_, ?_, by decide, by decide⟩
  · have h := Words.main_sat env stdin
    revert h
    cases Words.main env stdin with
    | ok s =>
      simp only [Res.Sat_ok, Res.Sat_abort, Res.Sat_fuel]
      rintro ⟨t, ht⟩
      exact ⟨⟨t, by rw [ht]; rfl⟩, by rw [ht]; exact linesOf_head _ t hw⟩
    | abort s =>
      simp only [Res.Sat_ok, Res.Sat_abort, Res.Sat_fuel]
      rintro ⟨t, ht⟩
      exact ⟨⟨t, by rw [ht]; rfl⟩, by rw [ht]; exact linesOf_head _ t hw⟩
    | fuel => simp [Res.Sat_ok, Res.Sat_abort, Res.Sat_fuel]
  · have h := Blobs.blobs_main_sat env argv
    revert h
    cases Blobs.main env argv with
    | ok s =>
      simp only [Res.Sat_ok, Res.Sat_abort, Res.Sat_fuel]
      rintro ⟨t, ht⟩
      exact ⟨⟨t, by rw [ht]; rfl⟩, by rw [ht]; exact linesOf_head _ t hb⟩
    | abort s =>
      simp only [Res.Sat_ok, Res.Sat_abort, Res.Sat_fuel]
      rintro ⟨t, ht⟩
      exact ⟨⟨t, by rw [ht]; rfl⟩, by rw [ht]; exact linesOf_head _ t hb⟩
    | fuel => simp [Res.Sat_ok, Res.Sat_abort, Res.Sat_fuel]

theorem rows_eq_map (env : Env) (hd : env.DigestsOk) (ts rows : List (List Nat))
    (h : List.Forall₂ (fun t row => RowOf env t t row) ts rows) :
    rows = ts.map (fun t => manifestRow env t t) := by
  induction h with
  | nil => rfl
  | @cons t row ts rows hrow _ ih =>
    rw [List.map_cons, ← ih, RowOf_manifestRow env hd t t row hrow]

theorem rows_eq_zipWith (env : Env) (hd : env.DigestsOk) (pfx : List Nat)
    (items : List (List Nat × List Nat)) (rows : List (List Nat))
    (h : List.Forall₂ (fun p row => RowOf env p.1 p.2 row) items rows) :
    ∀ (i0 n : Nat), items.map Prod.fst = (List.range' i0 n).map Blobs.blobName →
      rows = List.zipWith (fun i f => manifestRow env (Blobs.blobName i) f.2)
        (List.range' i0 n)
        (List.zipWith (fun i p => (Blobs.pathOf pfx i, p.2)) (List.range' i0 n) items) := by
  induction h with
  | nil => intro i0 n _; simp
  | @cons p row items rows hrow _ ih =>
    intro i0 n hfst
    cases n with
    | zero => simp at hfst
    | succ n =>
      simp only [List.range'_succ, List.map_cons, List.cons.injEq] at hfst
      obtain ⟨h1, h2⟩ := hfst
      simp only [List.range'_succ, List.zipWith_cons_cons]
      rw [← ih (i0 + 1) n h2, RowOf_manifestRow env hd p.1 p.2 row hrow, h1]

theorem Blobs.items_length (items : List (List Nat × List Nat)) (n : Nat)
    (h : items.map Prod.fst = (List.range n).map Blobs.blobName) : items.length = n := by
  have := congrArg List.length h
  simpa using this

/-- C3: in a run of the word processor (on bytes, in an environment that
does not fail) the output is the header line followed, for each word `t` of
the input in order, by the row `t`, tab, the hex encodings of the first
`digest_len` bytes of the digest of `t` under each registry algorithm in
registry order, joined by tabs, newline; in a run of the blob generator
that returns, the output is the header line followed, for each `i` in
order, by the row of identifier `blob<i>.bin` whose seven digests are all
taken over the content written to file `i`.  The digest capability is
assumed to meet its contract (`DigestsOk`). -/
theorem row_format (env : Env) (hd : env.DigestsOk) (hr : env.Reliable)
    (stdin : List Nat) (hb : Bytes stdin)
    (argv : List (List Nat)) (s : Blobs.BState) (hrun : Blobs.main env argv = .ok s) :
    (∃ sw, Words.main env stdin = .ok sw ∧
      sw.w.stdout = Words.headerLine ++ [10]
        ++ (maximalRuns stdin).flatMap (fun t => manifestRow env t t)) ∧
    (s.w.files.length = Blobs.N_BLOBS ∧
      s.w.stdout = Blobs.headerLine ++ [10]
        ++ (List.zipWith (fun i f => manifestRow env (Blobs.blobName i) f.2)
              (List.range Blobs.N_BLOBS) s.w.files).flatten) ∧
    (∀ I B, manifestRow env I B
      = I ++ [9]
        ++ hexEncode (((env.evp .sha1 B).getD []).take 20) ++ [9]
        ++ hexEncode (((env.evp .sha256 B).getD []).take 32) ++ [9]
        ++ hexEncode (((env.evp .sha224 B).getD []).take 28) ++ [9]
        ++ hexEncode (((env.evp .sha512 B).getD []).take 64) ++ [9]
        ++ hexEncode (((env.evp .sha384 B).getD []).take 48) ++ [9]
        ++ hexEncode (((env.evp .sha512_224 B).getD []).take 28) ++ [9]
        ++ hexEncode (((env.evp .sha512_256 B).getD []).take 32) ++ [10]) := by
  refine ⟨?_, ?_, ?_⟩
  · obtain ⟨sw, rows, h1, h2, h3⟩ := Words.main_run env hr stdin hb
    refine ⟨sw, h1, ?_⟩
    rw [h3, rows_eq_map env hd _ _ h2, List.flatMap_def]
  · obtain ⟨items, rows, e1, e2, _, e4, e5, _⟩ := Blobs.main_ok env argv s hrun
    have hlen := Blobs.items_length items _ e1
    refine ⟨?_, ?_⟩
    · rw [e4]; simp [hlen]
    · rw [e5, e4, List.range_eq_range']
      rw [List.range_eq_range'] at e1
      rw [← rows_eq_zipWith env hd (Blobs.dirOf argv) items rows e2 0 Blobs.N_BLOBS e1]
  · intro I B
    simp [manifestRow, algos, digestOf, List.intercalate]

/-- Witness of C3: the demo environment, the input `ab c`, the blob
generator run without argument. -/
theorem row_format_witness :
    demoEnv.DigestsOk ∧ demoEnv.Reliable ∧ Bytes (cstr "ab c") ∧
    Blobs.main demoEnv [] = .ok (Blobs.demoState []) ∧
    (∃ sw, Words.main demoEnv (cstr "ab c") = .ok sw ∧
      sw.w.stdout = Words.headerLine ++ [10]
        ++ (maximalRuns (cstr "ab c")).flatMap (fun t => manifestRow demoEnv t t)) ∧
    (Blobs.demoState []).w.files.length = Blobs.N_BLOBS :=
  ⟨demoEnv_digestsOk, demoEnv_reliable, by decide, Blobs.demo_run [] (by decide),
    (row_format demoEnv demoEnv_digestsOk demoEnv_reliable (cstr "ab c") (by decide) []
      (Blobs.demoState []) (Blobs.demo_run [] (by decide))).1,
    (row_format demoEnv demoEnv_digestsOk demoEnv_reliable (cstr "ab c") (by decide) []
      (Blobs.demoState []) (Blobs.demo_run [] (by decide))).2.1.1⟩

/-- The lines of a completed run of the word processor. -/
theorem Words.words_main_lines (env : Env) (hr : env.Reliable) (stdin : List Nat)
    (hb : Bytes stdin) :
    ∃ (s : Words.WState) (lines : List (List Nat)), Words.main env stdin = .ok s ∧
      s.w.stdout = (Words.headerLine :: lines).flatMap (fun l => l ++ [10]) ∧
      linesOf s.w.stdout = Words.headerLine :: lines ∧
      List.Forall₂ (fun t line => 10 ∉ line ∧ line.count 9 = 7 ∧ (columns line).length = 8 ∧
        identifier line = t ∧ RowOf env t t (line ++ [10])) (maximalRuns stdin) lines := by
  obtain ⟨s, rows, h1, h2, h3⟩ := Words.main_run env hr stdin hb
  obtain ⟨lines, e1, e2, e3⟩ := manifest_lines env Words.headerLine (by decide)
    ((maximalRuns stdin).map (fun t => (t, t))) rows
    (by rw [List.forall₂_map_left_iff]; exact h2)
    (by
      intro p hp
      obtain ⟨t, ht, rfl⟩ := List.mem_map.1 hp
      exact run_no_sep t (maximalRuns_mem _ stdin (le_refl _) t ht).2)
  rw [List.forall₂_map_left_iff] at e3
  exact ⟨s, lines, h1, by rw [h3, e1], by rw [h3, e2], e3⟩

/-- The lines and files of a completed run of the blob generator. -/
theorem Blobs.blobs_main_lines (env : Env) (argv : List (List Nat)) (s : Blobs.BState)
    (hrun : Blobs.main env argv = .ok s) :
    ∃ (items : List (List Nat × List Nat)) (lines : List (List Nat)),
      items.map Prod.fst = (List.range Blobs.N_BLOBS).map Blobs.blobName ∧
      (∀ p ∈ items, p.2.length < Blobs.MAX_BLOB_LENGTH) ∧
      s.w.files = List.zipWith (fun i p => (Blobs.pathOf (Blobs.dirOf argv) i, p.2))
        (List.range Blobs.N_BLOBS) items ∧
      s.w.stdout = (Blobs.headerLine :: lines).flatMap (fun l => l ++ [10]) ∧
      linesOf s.w.stdout = Blobs.headerLine :: lines ∧
      List.Forall₂ (fun p line => 10 ∉ line ∧ line.count 9 = 7 ∧ (columns line).length = 8 ∧
        identifier line = p.1 ∧ RowOf env p.1 p.2 (line ++ [10])) items lines := by
  obtain ⟨items, rows, e1, e2, e3, e4, e5, _⟩ := Blobs.main_ok env argv s hrun
  obtain ⟨lines, l1, l2, l3⟩ := manifest_lines env Blobs.headerLine (by decide) items rows e2
    (by
      intro p hp
      have : p.1 ∈ items.map Prod.fst := List.mem_map_of_mem _ hp
      rw [e1] at this
      obtain ⟨i, _, hi⟩ := List.mem_map.1 this
      rw [← hi]
      exact Blobs.blobName_no_sep i)
  exact ⟨items, lines, e1, e3, e4, by rw [e5, l1], by rw [e5, l2], l3⟩

theorem hexOut_getElem? (digest : List Nat) (n : Nat) (hb : Bytes digest)
    (hn : n ≤ digest.length) (k : Nat) (hk : k < n) :
    (hexOut digest n)[2 * k]? = some (hexDigit (digest.getD k 0 / 16)) ∧
    (hexOut digest n)[2 * k + 1]? = some (hexDigit (digest.getD k 0 % 16)) := by
  rw [hexOut_eq_encode digest n hb hn]
  obtain ⟨h1, h2⟩ := flatMap_pair_getElem? (fun b => hexDigit (b / 16))
    (fun b => hexDigit (b % 16)) (digest.take n) k
  have hk2 : k < digest.length := by omega
  have e : (digest.take n)[k]? = some (digest.getD k 0) := by
    rw [List.getElem?_take, if_pos hk, List.getD_eq_getElem _ _ hk2,
      List.getElem?_eq_getElem hk2]
  simp only [hexEncode]
  rw [h1, h2, e]
  exact ⟨rfl, rfl⟩

/-- C4: for a registry algorithm and a digest array of bytes, the hex loop
writes a field of exactly `2 * digest_len` characters (40, 64, 56, 128, 96,
56, 64 in registry order), all in `0-9a-f`, whose characters `2k` and
`2k+1` are the digits of the high and the low nibble of `digest[k]` (a byte
below 16 is written `0` and its digit); and in a completed run of either
program every data row, newline included, is 512 characters longer than
its identifier. -/
theorem hex_field (a : algo) (ha : a ∈ algos) (digest : List Nat) (hb : Bytes digest)
    (hl : a.digest_len ≤ digest.length) (w : World)
    (env : Env) (hd : env.DigestsOk) (hr : env.Reliable)
    (stdin : List Nat) (hbs : Bytes stdin)
    (argv : List (List Nat)) (s : Blobs.BState) (hrun : Blobs.main env argv = .ok s) :
    (∃ field, printDigest digest a.digest_len w = fputs field w ∧
      field.length = 2 * a.digest_len ∧
      (∀ c ∈ field, isLowerHex c = true) ∧
      ∀ k, k < a.digest_len →
        field[2 * k]? = some (hexDigit (digest.getD k 0 / 16)) ∧
        field[2 * k + 1]? = some (hexDigit (digest.getD k 0 % 16))) ∧
    algos.map (fun a => 2 * a.digest_len) = [40, 64, 56, 128, 96, 56, 64] ∧
    2 * a.digest_len ∈ [40, 64, 56, 128, 96, 56, 64] ∧
    (∀ v, v < 16 → fmt_02x v = [48, hexDigit v]) ∧
    (∀ v, v < 256 → fmt_02x v = [hexDigit (v / 16), hexDigit (v % 16)]) ∧
    (∃ sw, Words.main env stdin = .ok sw ∧
      ∀ line ∈ (linesOf sw.w.stdout).tail,
        (line ++ [10]).length = (identifier line).length + 512) ∧
    (∀ line ∈ (linesOf s.w.stdout).tail,
      (line ++ [10]).length = (identifier line).length + 512) := by
  refine ⟨⟨hexOut digest a.digest_len, printDigest_eq _ _ _, ?_, ?_, ?_⟩, rfl, ?_, by decide,
    fmt_02x_byte, ?_, ?_⟩
  · rw [hexOut_eq_encode _ _ hb hl, hexEncode_length, List.length_take]
    omega
  · intro c hc; exact hexOut_hex _ _ _ hc
  · intro k hk; exact hexOut_getElem? digest _ hb hl k hk
  · simp only [algos, List.mem_cons, List.mem_singleton, List.not_mem_nil, or_false] at ha
    rcases ha with rfl | rfl | rfl | rfl | rfl | rfl | rfl <;> decide
  · obtain ⟨sw, lines, h1, _, h3, h4⟩ := Words.words_main_lines env hr stdin hbs
    refine ⟨sw, h1, ?_⟩
    rw [h3]
    intro line hline
    obtain ⟨t, _, _, _, _, hid, hrow⟩ := forall₂_right_mem _ _ _ h4 line hline
    rw [RowOf_length env hd _ _ _ hrow, hid]
  · obtain ⟨items, lines, _, _, _, _, h3, h4⟩ := Blobs.blobs_main_lines env argv s hrun
    rw [h3]
    intro line hline
    obtain ⟨t, _, _, _, _, hid, hrow⟩ := forall₂_right_mem _ _ _ h4 line hline
    rw [RowOf_length env hd _ _ _ hrow, hid]

/-- Witness of C4: SHA1 on a digest array of 64 bytes `0x0a`, the demo
environment, the input `ab c`, the blob generator run without argument. -/
theorem hex_field_witness :
    (⟨"SHA1", .sha1, 20⟩ : algo) ∈ algos ∧ Bytes (List.replicate 64 10) ∧
    (20 : Nat) ≤ (List.replicate 64 10).length ∧
    demoEnv.DigestsOk ∧ demoEnv.Reliable ∧ Bytes (cstr "ab c") ∧
    Blobs.main demoEnv [] = .ok (Blobs.demoState []) ∧
    (∀ line ∈ (linesOf (Blobs.demoState []).w.stdout).tail,
      (line ++ [10]).length = (identifier line).length + 512) :=
  ⟨by decide, by decide, by decide, demoEnv_digestsOk, demoEnv_reliable, by decide,
    Blobs.demo_run [] (by decide),
    (hex_field ⟨"SHA1", .sha1, 20⟩ (by decide) (List.replicate 64 10) (by decide) (by decide)
      (World.init []) demoEnv demoEnv_digestsOk demoEnv_reliable (cstr "ab c") (by decide) []
      (Blobs.demoState []) (Blobs.demo_run [] (by decide))).2.2.2.2.2.2⟩

theorem isWhitespace_iff (b : Nat) :
    isWhitespace b = true ↔ b ∈ [32, 9, 10, 11, 12, 13] := by
  simp only [isWhitespace, Bool.or_eq_true, beq_iff_eq, List.mem_cons, List.mem_singleton,
    List.not_mem_nil, or_false, or_assoc]

theorem ws_bytes (l : List Nat) (h : ∀ b ∈ l, isWhitespace b = true) : Bytes l := by
  intro b hb
  have := (isWhitespace_iff b).1 (h b hb)
  simp only [List.mem_cons, List.mem_singleton, List.not_mem_nil, or_false] at this
  omega

theorem Words.pushAll_ok (env : Env) (ha : ∀ n, env.alloc n = true) :
    ∀ (w : List Nat) (buf : Words.buffer), Words.BufOk buf →
      ∃ buf1, Words.pushAll env buf w = some buf1 ∧ Words.BufOk buf1 ∧
        buf1.len = buf.len + w.length ∧
        buf1.data.take buf1.len = buf.data.take buf.len ++ w := by
  intro w
  induction w with
  | nil => intro buf h; exact ⟨buf, rfl, h, rfl, by simp⟩
  | cons b bs ih =>
    intro buf h
    obtain ⟨buf1, h1, h2, h3, h4⟩ := Words.buffer_push_ok env ha buf b h
    obtain ⟨buf2, g1, g2, g3, g4⟩ := ih buf1 h2
    refine ⟨buf2, by simp only [Words.pushAll, h1, g1], g2, ?_, ?_⟩
    · rw [g3, h3]; simp; omega
    · rw [g4, h4]; simp

/-- C5: in a run of the word processor on a stream of bytes (in an
environment that does not fail) the identifiers of the data rows are, in
input order, the maximal non-empty runs of non-whitespace bytes of the
input, a last run ended by end-of-stream included; the whitespace bytes,
for `isspace` as for the specification, are exactly 32, 9, 10, 11, 12 and
13; the input `abc  def\tghi\n` has the runs `abc`, `def`, `ghi`. -/
theorem word_identifiers (env : Env) (hr : env.Reliable) (stdin : List Nat)
    (hb : Bytes stdin) :
    (∃ s, Words.main env stdin = .ok s ∧
      (linesOf s.w.stdout).tail.map identifier = maximalRuns stdin) ∧
    (∀ b : Nat, isspace (b : Int) = true ↔ b ∈ [32, 9, 10, 11, 12, 13]) ∧
    (∀ b : Nat, isWhitespace b = true ↔ b ∈ [32, 9, 10, 11, 12, 13]) ∧
    maximalRuns (cstr "abc  def\tghi\n") = [cstr "abc", cstr "def", cstr "ghi"] ∧
    maximalRuns (cstr "abc  def\tghi") = [cstr "abc", cstr "def", cstr "ghi"] := by
  refine ⟨?_, ?_, isWhitespace_iff, by decide, by decide⟩
  · obtain ⟨s, lines, h1, _, h3, h4⟩ := Words.words_main_lines env hr stdin hb
    refine ⟨s, h1, ?_⟩
    rw [h3, List.tail_cons]
    have := forall₂_map_eq (fun t : List Nat => t) identifier _ _
      (h4.imp (fun _ _ h => h.2.2.2.1))
    simpa using this
  · intro b
    rw [isspace_eq]
    exact isWhitespace_iff b

/-- Witness of C5: the demo environment and the input `abc  def\tghi\n`,
whose rows have the identifiers `abc`, `def`, `ghi`. -/
theorem word_identifiers_witness :
    demoEnv.Reliable ∧ Bytes (cstr "abc  def\tghi\n") ∧
    ∃ s, Words.main demoEnv (cstr "abc  def\tghi\n") = .ok s ∧
      (linesOf s.w.stdout).tail.map identifier = [cstr "abc", cstr "def", cstr "ghi"] :=
  ⟨demoEnv_reliable, by decide,
    match word_identifiers demoEnv demoEnv_reliable (cstr "abc  def\tghi\n") (by decide) with
    | ⟨⟨s, h1, h2⟩, _, _, h4, _⟩ => ⟨s, h1, h2.trans h4⟩⟩

/-- C6: on an input of whitespace bytes only, and so on the empty input,
the word processor returns, in any environment, and its output is exactly
the header line. -/
theorem whitespace_only (env : Env) (stdin : List Nat)
    (hws : ∀ b ∈ stdin, isWhitespace b = true) :
    (∃ s, Words.main env stdin = .ok s ∧
      s.w.stdout
        = cstr "word\tSHA1\tSHA256\tSHA224\tSHA512\tSHA384\tSHA512/224\tSHA512/256\n") ∧
    (∃ s, Words.main env [] = .ok s ∧
      s.w.stdout
        = cstr "word\tSHA1\tSHA256\tSHA224\tSHA512\tSHA384\tSHA512/224\tSHA512/256\n") := by
  have key : ∀ input : List Nat, (∀ b ∈ input, isWhitespace b = true) →
      ∃ s, Words.main env input = .ok s ∧
        s.w.stdout
          = cstr "word\tSHA1\tSHA256\tSHA224\tSHA512\tSHA384\tSHA512/224\tSHA512/256\n" := by
    intro input hin
    obtain ⟨s, h1, h2, _⟩ := Words.mainLoop_ws env input (input.length + 1)
      ⟨headerLoop (fputs (cstr "word\t") (World.init input)), Words.empty_buffer, 0,
        fresh env 0 64⟩
      (by omega) (by simp [headerLoop_eq, fputs, World.init]) hin
    refine ⟨s, h1, ?_⟩
    rw [h2]
    simp only [headerLoop_eq, fputs_fputs, fputs, World.init, List.nil_append]
    rfl
  exact ⟨key stdin hws, key [] (by simp)⟩

/-- Witness of C6: the input made of the six whitespace bytes. -/
theorem whitespace_only_witness :
    (∀ b ∈ [32, 9, 10, 11, 12, 13], isWhitespace b = true) ∧
    ∃ s, Words.main demoEnv [32, 9, 10, 11, 12, 13] = .ok s ∧
      s.w.stdout
        = cstr "word\tSHA1\tSHA256\tSHA224\tSHA512\tSHA384\tSHA512/224\tSHA512/256\n" :=
  ⟨by decide, (whitespace_only demoEnv [32, 9, 10, 11, 12, 13] (by decide)).1⟩

/-- C7: a word `w` of `n >= 1` non-whitespace bytes, alone on the input
between whitespace, gives exactly one data row; its identifier is `w`
itself and its digests are taken over `w`; and pushing the bytes of `w` on
a buffer with `buffer_push` leaves the bytes already in it as they were,
followed by the bytes of `w` in order, with `len` grown by `n`.  The
environment is assumed not to fail and the digest capability to meet its
contract. -/
theorem long_word (env : Env) (hr : env.Reliable) (hd : env.DigestsOk)
    (pre w post : List Nat) (hn : 1 ≤ w.length)
    (hw : ∀ b ∈ w, b < 256 ∧ isWhitespace b = false)
    (hpre : ∀ b ∈ pre, isWhitespace b = true) (hpost : ∀ b ∈ post, isWhitespace b = true)
    (buf : Words.buffer) (hbuf : Words.BufOk buf) :
    (∃ s, Words.main env (pre ++ w ++ post) = .ok s ∧
      s.w.stdout = Words.headerLine ++ [10] ++ manifestRow env w w ∧
      (linesOf s.w.stdout).tail.map identifier = [w] ∧
      (linesOf s.w.stdout).tail.map (fun line => (identifier line).length) = [w.length]) ∧
    (∃ buf1, Words.pushAll env buf w = some buf1 ∧ buf1.len = buf.len + w.length ∧
      buf1.len ≤ buf1.cap ∧ buf1.data.take buf1.len = buf.data.take buf.len ++ w) ∧
    (∃ buf1, Words.pushAll env Words.empty_buffer w = some buf1 ∧ buf1.len = w.length ∧
      buf1.data.take buf1.len = w) := by
  have hne : w ≠ [] := by intro h0; rw [h0] at hn; simp at hn
  have hruns := maximalRuns_single pre w post hne (fun b hb => (hw b hb).2) hpre hpost
  have hbytes : Bytes (pre ++ w ++ post) := by
    intro b hb
    simp only [List.mem_append] at hb
    rcases hb with (hb | hb) | hb
    · exact ws_bytes pre hpre b hb
    · exact (hw b hb).1
    · exact ws_bytes post hpost b hb
  refine ⟨?_, ?_, ?_⟩
  · obtain ⟨s, lines, h1, h2, h3, h4⟩ := Words.words_main_lines env hr _ hbytes
    rw [hruns] at h4
    obtain ⟨line, lines1, hl, hrest, rfl⟩ := List.forall₂_cons_left_iff.1 h4
    obtain rfl := List.forall₂_nil_left_iff.1 hrest
    refine ⟨s, h1, ?_, ?_, ?_⟩
    · rw [h2, ← RowOf_manifestRow env hd w w _ hl.2.2.2.2]
      simp
    · rw [h3]; simp [hl.2.2.2.1]
    · rw [h3]; simp [hl.2.2.2.1]
  · obtain ⟨buf1, h1, h2, h3, h4⟩ := Words.pushAll_ok env hr.2 w buf hbuf
    exact ⟨buf1, h1, h3, h2.1, h4⟩
  · obtain ⟨buf1, h1, _, h3, h4⟩ := Words.pushAll_ok env hr.2 w Words.empty_buffer
      ⟨le_refl _, rfl⟩
    exact ⟨buf1, h1, by simpa [Words.empty_buffer] using h3,
      by simpa [Words.empty_buffer] using h4⟩

/-- Witness of C7: a word of 1,000,000 bytes `a` between a space and a
newline, in the demo environment. -/
theorem long_word_witness :
    demoEnv.Reliable ∧ demoEnv.DigestsOk ∧
    1 ≤ (List.replicate 1000000 97).length ∧
    (∀ b ∈ List.replicate 1000000 97, b < 256 ∧ isWhitespace b = false) ∧
    (∀ b ∈ [32], isWhitespace b = true) ∧ (∀ b ∈ [10], isWhitespace b = true) ∧
    Words.BufOk Words.empty_buffer ∧
    ∃ s, Words.main demoEnv ([32] ++ List.replicate 1000000 97 ++ [10]) = .ok s ∧
      s.w.stdout = Words.headerLine ++ [10]
        ++ manifestRow demoEnv (List.replicate 1000000 97) (List.replicate 1000000 97) ∧
      (linesOf s.w.stdout).tail.map identifier = [List.replicate 1000000 97] ∧
      (linesOf s.w.stdout).tail.map (fun line => (identifier line).length)
        = [(List.replicate 1000000 97).length] :=
  ⟨demoEnv_reliable, demoEnv_digestsOk, by rw [List.length_replicate]; decide,
    fun b hb => by obtain rfl := List.eq_of_mem_replicate hb; decide,
    by decide, by decide, ⟨le_refl _, rfl⟩,
    (long_word demoEnv demoEnv_reliable demoEnv_digestsOk [32] (List.replicate 1000000 97) [10]
      (by rw [List.length_replicate]; decide)
      (fun b hb => by obtain rfl := List.eq_of_mem_replicate hb; decide)
      (by decide) (by decide) Words.empty_buffer ⟨le_refl _, rfl⟩).1⟩

theorem zipWith_fst (g : Nat → List Nat) :
    ∀ (l : List Nat) (items : List (List Nat × List Nat)), l.length = items.length →
      (List.zipWith (fun i p => (g i, p.2)) l items).map Prod.fst = l.map g := by
  intro l
  induction l with
  | nil => intro items _; simp
  | cons x xs ih =>
    intro items h
    cases items with
    | nil => simp at h
    | cons p ps => simp [ih ps (by simpa using h)]

theorem zipWith_snd_mem (g : Nat → List Nat) :
    ∀ (l : List Nat) (items : List (List Nat × List Nat)),
      ∀ f ∈ List.zipWith (fun i p => (g i, p.2)) l items, ∃ p ∈ items, f.2 = p.2 := by
  intro l
  induction l with
  | nil => intro items f hf; simp at hf
  | cons x xs ih =>
    intro items f hf
    cases items with
    | nil => simp at hf
    | cons p ps =>
      simp only [List.zipWith_cons_cons, List.mem_cons] at hf
      rcases hf with rfl | hf
      · exact ⟨p, List.mem_cons_self _ _, rfl⟩
      · obtain ⟨q, hq, e⟩ := ih ps f hf
        exact ⟨q, List.mem_cons_of_mem _ hq, e⟩

theorem files_lines (env : Env) (pfx : List Nat)
    (items : List (List Nat × List Nat)) (lines : List (List Nat))
    (h : List.Forall₂ (fun p line => 10 ∉ line ∧ line.count 9 = 7 ∧
      (columns line).length = 8 ∧ identifier line = p.1 ∧ RowOf env p.1 p.2 (line ++ [10]))
      items lines) :
    ∀ (i0 n : Nat), items.map Prod.fst = (List.range' i0 n).map Blobs.blobName →
      List.Forall₂ (fun f line => f.1 = pfx ++ cstr "/" ++ identifier line ∧
          RowOf env (identifier line) f.2 (line ++ [10]))
        (List.zipWith (fun i p => (Blobs.pathOf pfx i, p.2)) (List.range' i0 n) items)
        lines := by
  induction h with
  | nil => intro i0 n _; simp
  | @cons p line items lines hp _ ih =>
    intro i0 n hfst
    cases n with
    | zero => simp at hfst
    | succ n =>
      simp only [List.range'_succ, List.map_cons, List.cons.injEq] at hfst
      obtain ⟨h1, h2⟩ := hfst
      simp only [List.range'_succ, List.zipWith_cons_cons]
      refine List.Forall₂.cons ⟨?_, ?_⟩ (ih (i0 + 1) n h2)
      · simp only [hp.2.2.2.1, h1, Blobs.pathOf_eq]
        simp only [List.append_assoc]
        rfl
      · rw [hp.2.2.2.1]; exact hp.2.2.2.2

/-- C8: the header lines have `1 + N_ALGOS = 8` tab-separated columns; in
every run of the word processor on bytes and in every run of the blob
generator, returned or aborted, in which no digest call fails, the output is
a sequence of newline-terminated lines, the header line first, each with no
other newline, exactly 7 tabs and so 8 columns; and a word of the input is
non-empty and has no whitespace byte, in particular no tab and no
newline. -/
theorem column_count (env : Env) (he : ∀ a ∈ algos, ∀ B, (env.evp a.md B).isSome)
    (stdin : List Nat) (hb : Bytes stdin) (argv : List (List Nat)) :
    (columns Words.headerLine).length = 1 + N_ALGOS ∧
    (columns Blobs.headerLine).length = 1 + N_ALGOS ∧
    1 + N_ALGOS = 8 ∧
    (Words.main env stdin).Sat (fun s =>
      s.w.stdout = (linesOf s.w.stdout).flatMap (fun l => l ++ [10]) ∧
      (linesOf s.w.stdout).head? = some Words.headerLine ∧
      ∀ line ∈ linesOf s.w.stdout,
        10 ∉ line ∧ line.count 9 = 7 ∧ (columns line).length = 8) ∧
    (Blobs.main env argv).Sat (fun s =>
      s.w.stdout = (linesOf s.w.stdout).flatMap (fun l => l ++ [10]) ∧
      (linesOf s.w.stdout).head? = some Blobs.headerLine ∧
      ∀ line ∈ linesOf s.w.stdout,
        10 ∉ line ∧ line.count 9 = 7 ∧ (columns line).length = 8) ∧
    (∀ t ∈ maximalRuns stdin, t ≠ [] ∧ 9 ∉ t ∧ 10 ∉ t ∧ ∀ b ∈ t, isWhitespace b = false) := by
  have hw : (10 : Nat) ∉ Words.headerLine ∧ Words.headerLine.count 9 = 7 ∧
      (columns Words.headerLine).length = 8 := by decide
  have hbl : (10 : Nat) ∉ Blobs.headerLine ∧ Blobs.headerLine.count 9 = 7 ∧
      (columns Blobs.headerLine).length = 8 := by decide
  refine ⟨hw.2.2, hbl.2.2, rfl, ?_, ?_, ?_⟩
  · exact Res.Sat.imp _ _ _
      (fun s h => LinesOnly.lines Words.headerLine s.w.stdout ⟨_, rfl, hw⟩ h)
      (Words.main_lines_sat env he stdin hb)
  · exact Res.Sat.imp _ _ _
      (fun s h => LinesOnly.lines Blobs.headerLine s.w.stdout ⟨_, rfl, hbl⟩ h)
      (Blobs.blobs_lines_sat env he argv)
  · intro t ht
    obtain ⟨h1, h2⟩ := maximalRuns_mem _ stdin (le_refl _) t ht
    exact ⟨h1, (run_no_sep t h2).1, (run_no_sep t h2).2, h2⟩

/-- Witness of C8: the demo environment, the input `abc  def\tghi\n`, the
blob generator run without argument. -/
theorem column_count_witness :
    (∀ a ∈ algos, ∀ B, (demoEnv.evp a.md B).isSome) ∧ Bytes (cstr "abc  def\tghi\n") ∧
    (Words.main demoEnv (cstr "abc  def\tghi\n")).Sat (fun s =>
      s.w.stdout = (linesOf s.w.stdout).flatMap (fun l => l ++ [10]) ∧
      (linesOf s.w.stdout).head? = some Words.headerLine ∧
      ∀ line ∈ linesOf s.w.stdout,
        10 ∉ line ∧ line.count 9 = 7 ∧ (columns line).length = 8) ∧
    (Blobs.main demoEnv []).Sat (fun s =>
      s.w.stdout = (linesOf s.w.stdout).flatMap (fun l => l ++ [10]) ∧
      (linesOf s.w.stdout).head? = some Blobs.headerLine ∧
      ∀ line ∈ linesOf s.w.stdout,
        10 ∉ line ∧ line.count 9 = 7 ∧ (columns line).length = 8) :=
  ⟨demoEnv_reliable.1, by decide,
    (column_count demoEnv demoEnv_reliable.1 (cstr "abc  def\tghi\n") (by decide) []).2.2.2.1,
    (column_count demoEnv demoEnv_reliable.1 (cstr "abc  def\tghi\n") (by decide)
      []).2.2.2.2.1⟩

/-- C9: a run of the blob generator that returns (no assertion failed)
wrote exactly 2048 data rows; the identifier of data row `i` is `blob`, the
decimal digits of `i`, `.bin`, whatever the argument vector; it wrote 2048
files, each of fewer than 8192 bytes. -/
theorem blob_rows (env : Env) (argv : List (List Nat)) (s : Blobs.BState)
    (hrun : Blobs.main env argv = .ok s) :
    (linesOf s.w.stdout).tail.length = 2048 ∧
    (linesOf s.w.stdout).tail.map identifier
      = (List.range 2048).map (fun i => cstr "blob" ++ fmt_zu i ++ cstr ".bin") ∧
    (∀ i, i < 2048 → ((linesOf s.w.stdout).tail.map identifier)[i]?
      = some (cstr "blob" ++ fmt_zu i ++ cstr ".bin")) ∧
    s.w.files.length = 2048 ∧
    (∀ f ∈ s.w.files, 0 ≤ f.2.length ∧ f.2.length < 8192) ∧
    (∀ i, fmt_zu i = (Nat.repr i).toList.map Char.toNat) ∧
    cstr "blob" ++ fmt_zu 0 ++ cstr ".bin" = cstr "blob0.bin" ∧
    cstr "blob" ++ fmt_zu 2047 ++ cstr ".bin" = cstr "blob2047.bin" := by
  obtain ⟨items, lines, e1, e2, e3, _, h3, h4⟩ := Blobs.blobs_main_lines env argv s hrun
  have hlen := Blobs.items_length items _ e1
  have hids : (linesOf s.w.stdout).tail.map identifier
      = (List.range 2048).map (fun i => cstr "blob" ++ fmt_zu i ++ cstr ".bin") := by
    rw [h3, List.tail_cons]
    have := forall₂_map_eq Prod.fst identifier _ _ (h4.imp (fun _ _ h => h.2.2.2.1))
    rw [this, e1]
    rfl
  refine ⟨?_, hids, ?_, ?_, ?_, fun i => rfl, by decide, by decide⟩
  · rw [h3, List.tail_cons, ← h4.length_eq, hlen]; rfl
  · intro i hi
    rw [hids, List.getElem?_map, List.getElem?_range hi]
    rfl
  · rw [e3]; simp [hlen, Blobs.N_BLOBS]
  · intro f hf
    rw [e3] at hf
    obtain ⟨p, hp, e⟩ := zipWith_snd_mem _ _ _ f hf
    rw [e]
    exact ⟨Nat.zero_le _, e2 p hp⟩

/-- Witness of C9: the demo environment, run without argument (directory
`.`) and run with the empty string as directory. -/
theorem blob_rows_witness :
    Blobs.main demoEnv [] = .ok (Blobs.demoState []) ∧
    Blobs.main demoEnv [cstr "blobs", []] = .ok (Blobs.demoState [cstr "blobs", []]) ∧
    (linesOf (Blobs.demoState []).w.stdout).tail.map identifier
      = (List.range 2048).map (fun i => cstr "blob" ++ fmt_zu i ++ cstr ".bin") ∧
    (linesOf (Blobs.demoState [cstr "blobs", []]).w.stdout).tail.map identifier
      = (List.range 2048).map (fun i => cstr "blob" ++ fmt_zu i ++ cstr ".bin") :=
  ⟨Blobs.demo_run [] (by decide), Blobs.demo_run [cstr "blobs", []] (by decide),
    (blob_rows demoEnv [] (Blobs.demoState []) (Blobs.demo_run [] (by decide))).2.1,
    (blob_rows demoEnv [cstr "blobs", []] (Blobs.demoState [cstr "blobs", []])
      (Blobs.demo_run [cstr "blobs", []] (by decide))).2.1⟩

theorem Blobs.demo_step :
    Blobs.blobBody demoEnv (Blobs.dirOf []) 0 Blobs.demoStart = .ok Blobs.demoStep := by
  obtain ⟨s, hs⟩ := Blobs.blobBody_total demoEnv demoEnv_reliable.1 demoEnv_filesOk
    (Blobs.dirOf []) 0 Blobs.demoStart (by decide)
  have e : Blobs.dirOf [] = cstr "." := rfl
  rw [Blobs.demoStep, ← e, hs]
  rfl

/-- C10: in a run of the blob generator that returns, the files written
are, in order, `<dir>/blob<i>.bin` for `i` from 0 to 2047 and no other;
file `i` and data row `i` go together: the path is the directory, `/`, the
identifier of the row, and the seven digests of the row are taken over the
content of the file (so, under the contract of the digest capability, the
row is the manifest row of that identifier and content).  In one iteration
of the blob loop the content written is the first `len` bytes of `buffer`,
`len` of them, and the row of that iteration digests these same bytes. -/
theorem blob_files (env : Env) (argv : List (List Nat)) (s : Blobs.BState)
    (hrun : Blobs.main env argv = .ok s)
    (i : Nat) (t t2 : Blobs.BState) (hbuf : t.buffer.length = Blobs.MAX_BLOB_LENGTH)
    (hbody : Blobs.blobBody env (Blobs.dirOf argv) i t = .ok t2) :
    s.w.files.map Prod.fst
      = (List.range 2048).map
          (fun i => Blobs.dirOf argv ++ cstr "/blob" ++ fmt_zu i ++ cstr ".bin") ∧
    List.Forall₂ (fun f line => f.1 = Blobs.dirOf argv ++ cstr "/" ++ identifier line ∧
        RowOf env (identifier line) f.2 (line ++ [10]))
      s.w.files (linesOf s.w.stdout).tail ∧
    (env.DigestsOk →
      List.Forall₂ (fun f line => line ++ [10] = manifestRow env (identifier line) f.2)
        s.w.files (linesOf s.w.stdout).tail) ∧
    (t2.w.files = t.w.files ++
        [(Blobs.dirOf argv ++ cstr "/blob" ++ fmt_zu i ++ cstr ".bin",
          t2.buffer.take (env.rand_seq t.w.seed t.w.draws % 8192))] ∧
      (t2.buffer.take (env.rand_seq t.w.seed t.w.draws % 8192)).length
        = env.rand_seq t.w.seed t.w.draws % 8192 ∧
      ∃ row, t2.w.stdout = t.w.stdout ++ row ∧
        RowOf env (cstr "blob" ++ fmt_zu i ++ cstr ".bin")
          (t2.buffer.take (env.rand_seq t.w.seed t.w.draws % 8192)) row) := by
  obtain ⟨items, lines, e1, _, e3, _, h3, h4⟩ := Blobs.blobs_main_lines env argv s hrun
  have hlen := Blobs.items_length items _ e1
  have hfl : List.Forall₂ (fun f line => f.1 = Blobs.dirOf argv ++ cstr "/" ++ identifier line ∧
        RowOf env (identifier line) f.2 (line ++ [10]))
      s.w.files (linesOf s.w.stdout).tail := by
    rw [h3, List.tail_cons, e3, List.range_eq_range']
    rw [List.range_eq_range'] at e1
    exact files_lines env (Blobs.dirOf argv) items lines h4 0 _ e1
  refine ⟨?_, hfl, ?_, ?_⟩
  · rw [e3, zipWith_fst _ _ _ (by simp [hlen])]
    rfl
  · intro hd
    exact hfl.imp (fun f line h => RowOf_manifestRow env hd _ _ _ h.2)
  · obtain ⟨row, _, hrow, hout, hfiles, _, hBlen, _, _⟩ :=
      Blobs.blobBody_ok env (Blobs.dirOf argv) i t t2 hbuf hbody
    exact ⟨hfiles, hBlen, row, hout, hrow⟩

/-- Witness of C10: the demo environment run without argument, and the
first iteration of its blob loop. -/
theorem blob_files_witness :
    Blobs.main demoEnv [] = .ok (Blobs.demoState []) ∧
    Blobs.demoStart.buffer.length = Blobs.MAX_BLOB_LENGTH ∧
    Blobs.blobBody demoEnv (Blobs.dirOf []) 0 Blobs.demoStart = .ok Blobs.demoStep ∧
    (Blobs.demoState []).w.files.map Prod.fst
      = (List.range 2048).map
          (fun i => Blobs.dirOf [] ++ cstr "/blob" ++ fmt_zu i ++ cstr ".bin") ∧
    List.Forall₂ (fun f line => line ++ [10] = manifestRow demoEnv (identifier line) f.2)
        (Blobs.demoState []).w.files (linesOf (Blobs.demoState []).w.stdout).tail :=
  ⟨Blobs.demo_run [] (by decide), by simp [Blobs.demoStart, fresh], Blobs.demo_step,
    (blob_files demoEnv [] (Blobs.demoState []) (Blobs.demo_run [] (by decide)) 0
      Blobs.demoStart Blobs.demoStep (by simp [Blobs.demoStart, fresh]) Blobs.demo_step).1,
    (blob_files demoEnv [] (Blobs.demoState []) (Blobs.demo_run [] (by decide)) 0
      Blobs.demoStart Blobs.demoStep (by simp [Blobs.demoStart, fresh])
      Blobs.demo_step).2.2.1 demoEnv_digestsOk⟩

/-! ### The draws of the blob generator -/

namespace Blobs

theorem fill_take (env : Env) :
    ∀ (n j : Nat) (f : FState), j + n ≤ f.buffer.length →
      (forLoop (fillBody env) n j f).buffer.take (j + n)
        = f.buffer.take j
          ++ (List.range n).map (fun k => env.rand_seq f.w.seed (f.w.draws + k) % 256) := by
  intro n
  induction n with
  | zero => intro j f _; simp [forLoop]
  | succ n ih =>
    intro j f h
    simp only [forLoop]
    have h1 := ih (j + 1) (fillBody env j f) (by simp [fillBody]; omega)
    have e : j + (n + 1) = j + 1 + n := by omega
    rw [e, h1]
    simp only [fillBody, rand]
    rw [List.take_succ, take_set_self, List.getElem?_set_self (by omega)]
    simp only [Option.toList, List.append_assoc, List.singleton_append, List.range_succ_eq_map,
      List.map_cons, List.map_map, Nat.add_zero]
    congr 2
    apply List.map_congr_left
    intro k _
    simp only [Function.comp]
    congr 2
    omega

/-- What an iteration of the blob loop that runs to its end has done,
whatever the array `buffer` held and however long it is modelled. -/
theorem blobBody_step (env : Env) (pfx : List Nat) (i : Nat) (s s2 : BState)
    (h : blobBody env pfx i s = .ok s2) :
    ∃ row, (pathOf pfx i).length < 100 ∧
      s2.buffer = (forLoop (fillBody env) (env.rand_seq s.w.seed s.w.draws % MAX_BLOB_LENGTH) 0
        ⟨s.buffer, (rand env s.w).2⟩).buffer ∧
      RowOf env (blobName i)
        (s2.buffer.take (env.rand_seq s.w.seed s.w.draws % MAX_BLOB_LENGTH)) row ∧
      s2.w.stdout = s.w.stdout ++ row ∧
      s2.w.files = s.w.files ++
        [(pathOf pfx i, s2.buffer.take (env.rand_seq s.w.seed s.w.draws % MAX_BLOB_LENGTH))] ∧
      s2.w.seed = s.w.seed ∧
      s2.w.draws = s.w.draws + 1 + env.rand_seq s.w.seed s.w.draws % MAX_BLOB_LENGTH ∧
      env.fopen (pathOf pfx i) = true ∧
      env.fwrite (pathOf pfx i)
        (s2.buffer.take (env.rand_seq s.w.seed s.w.draws % MAX_BLOB_LENGTH)) = true ∧
      env.fclose (pathOf pfx i) = true := by
  unfold blobBody at h
  simp only [] at h
  obtain ⟨hfw, _⟩ := fill_w env ((rand env s.w).1 % MAX_BLOB_LENGTH) 0
    ⟨s.buffer, (rand env s.w).2⟩
  have hbufeq : (rand env s.w).1 = env.rand_seq s.w.seed s.w.draws := rfl
  generalize hf : forLoop (fillBody env) ((rand env s.w).1 % MAX_BLOB_LENGTH) 0
    ⟨s.buffer, (rand env s.w).2⟩ = f at h hfw
  split at h
  · cases h
  rename_i hlen
  simp only [not_not] at hlen
  obtain ⟨e1, e2⟩ := filename_drop pfx i hlen
  rw [e2, e1] at h
  split at h
  · cases h
  rename_i hopen
  split at h
  · cases h
  rename_i hwrite
  split at h
  · cases h
  rename_i hclose
  simp only [Bool.not_eq_true, Bool.not_eq_false] at hopen hwrite hclose
  cases hd : digestLoop env f.buffer ((rand env s.w).1 % MAX_BLOB_LENGTH)
      ⟨fputs (blobName i ++ cstr "\t")
        { f.w with files := f.w.files
          ++ [(pathOf pfx i, List.take ((rand env s.w).1 % MAX_BLOB_LENGTH) f.buffer)] },
        s.digest⟩ with
  | ok d =>
    rw [hd] at h
    simp only [Res.ok.injEq] at h
    subst h
    obtain ⟨fs, hfs1, hfs2, hw⟩ := digestLoop_ok _ _ _ _ _ hd
    simp only [rand] at hfw hw hfs2 hf hopen hwrite hclose ⊢
    refine ⟨_, hlen, ?_, ⟨fs, hfs1, hfs2, rfl⟩, ?_, ?_, ?_, ?_, hopen, hwrite, hclose⟩
    · rw [hf]
    · rw [hw, hfw]; simp [fputs]; rfl
    · rw [hw, hfw]; simp [fputs]
    · rw [hw, hfw]; simp [fputs]
    · rw [hw, hfw]; simp [fputs]
  | abort d => rw [hd] at h; cases h
  | fuel => rw [hd] at h; cases h

end Blobs

namespace Blobs

theorem blobBody_content (env : Env) (pfx : List Nat) (i : Nat) (s s2 : BState)
    (hbuf : s.buffer.length = MAX_BLOB_LENGTH) (h : blobBody env pfx i s = .ok s2) :
    s2.buffer.length = MAX_BLOB_LENGTH ∧
    s2.buffer.take (env.rand_seq s.w.seed s.w.draws % MAX_BLOB_LENGTH)
      = (List.range (env.rand_seq s.w.seed s.w.draws % MAX_BLOB_LENGTH)).map
          (fun k => env.rand_seq s.w.seed (s.w.draws + 1 + k) % 256) := by
  obtain ⟨row, _, hb, _⟩ := blobBody_step env pfx i s s2 h
  have hlt : env.rand_seq s.w.seed s.w.draws % MAX_BLOB_LENGTH < MAX_BLOB_LENGTH :=
    Nat.mod_lt _ (by decide)
  refine ⟨?_, ?_⟩
  · rw [hb, (fill_w env _ 0 _).2]; exact hbuf
  · have := fill_take env (env.rand_seq s.w.seed s.w.draws % MAX_BLOB_LENGTH) 0
      ⟨s.buffer, (rand env s.w).2⟩ (by simp only [Nat.zero_add]; omega)
    rw [Nat.zero_add] at this
    rw [hb, this]
    simp [rand]

theorem blobLoop_draws (env : Env) (pfx : List Nat) :
    ∀ (n i0 : Nat) (s s2 : BState), s.buffer.length = MAX_BLOB_LENGTH →
      s.w.draws = drawStart (env.rand_seq s.w.seed) i0 →
      forLoopR (blobBody env pfx) n i0 s = .ok s2 →
      s2.w.seed = s.w.seed ∧
      s2.w.draws = drawStart (env.rand_seq s.w.seed) (i0 + n) ∧
      s2.buffer.length = MAX_BLOB_LENGTH ∧
      s2.w.files = s.w.files ++ (List.range' i0 n).map
        (fun i => (pathOf pfx i, contentOf (env.rand_seq s.w.seed) i)) ∧
      ∃ rows : List (List Nat),
        List.Forall₂ (fun i row =>
          RowOf env (blobName i) (contentOf (env.rand_seq s.w.seed) i) row)
          (List.range' i0 n) rows ∧
        s2.w.stdout = s.w.stdout ++ rows.flatten := by
  intro n
  induction n with
  | zero =>
    intro i0 s s2 hbuf _ h
    simp only [forLoopR, Res.ok.injEq] at h
    subst h
    exact ⟨rfl, by simpa, hbuf, by simp, [], List.Forall₂.nil, by simp⟩
  | succ n ih =>
    intro i0 s s2 hbuf hdraws h
    obtain ⟨s1, hb, hl⟩ := forLoopR_succ_ok _ _ _ _ _ h
    obtain ⟨row, _, _, hrow, hout, hfiles, hseed, hdr, _⟩ := blobBody_step env pfx i0 s s1 hb
    obtain ⟨hlen1, hcontent⟩ := blobBody_content env pfx i0 s s1 hbuf hb
    have hc : s1.buffer.take (env.rand_seq s.w.seed s.w.draws % MAX_BLOB_LENGTH)
        = contentOf (env.rand_seq s.w.seed) i0 := by
      rw [hcontent]
      simp only [contentOf, lenOf, hdraws]
    rw [hc] at hrow hfiles
    have hd1 : s1.w.draws = drawStart (env.rand_seq s1.w.seed) (i0 + 1) := by
      rw [hdr, hseed, hdraws]
      rfl
    obtain ⟨e1, e2, e3, e4, rows, e5, e6⟩ := ih (i0 + 1) s1 s2 hlen1 hd1 hl
    rw [hseed] at e1 e2 e4 e5
    refine ⟨e1, ?_, e3, ?_, row :: rows, ?_, ?_⟩
    · rw [e2]; congr 1; omega
    · rw [e4, hfiles]; simp [List.range'_succ]
    · rw [List.range'_succ]; exact List.Forall₂.cons hrow e5
    · rw [e6, hout]; simp

/-- The closed form of a run of the blob generator that returns. -/
theorem main_draws (env : Env) (argv : List (List Nat)) (s : BState)
    (h : main env argv = .ok s) :
    s.w.seed = 1337 ∧
    s.w.draws = drawStart (env.rand_seq 1337) N_BLOBS ∧
    s.w.files = (List.range N_BLOBS).map
      (fun i => (pathOf (dirOf argv) i, contentOf (env.rand_seq 1337) i)) ∧
    ∃ rows : List (List Nat),
      List.Forall₂ (fun i row =>
        RowOf env (blobName i) (contentOf (env.rand_seq 1337) i) row)
        (List.range N_BLOBS) rows ∧
      s.w.stdout = headerLine ++ [10] ++ rows.flatten := by
  rw [main_eq] at h
  obtain ⟨e1, e2, _, e4, rows, e5, e6⟩ := blobLoop_draws env (dirOf argv) N_BLOBS 0 _ s
    (by simp [fresh]) rfl h
  refine ⟨e1, ?_, ?_, rows, ?_, e6⟩
  · rw [e2, Nat.zero_add]
  · rw [e4, List.range_eq_range']; rfl
  · rw [List.range_eq_range']; exact e5

theorem drawStart_sum (r : Nat → Nat) (i : Nat) :
    drawStart r i = ((List.range i).map (fun k => 1 + lenOf r k)).sum ∧
    drawStart r i = i + ((List.range i).map (lenOf r)).sum := by
  induction i with
  | zero => exact ⟨rfl, rfl⟩
  | succ i ih =>
    obtain ⟨h1, h2⟩ := ih
    have e : drawStart r (i + 1) = drawStart r i + 1 + lenOf r i := rfl
    refine ⟨?_, ?_⟩
    · rw [e, List.range_succ, List.map_append, List.sum_append, ← h1]
      simp only [List.map_cons, List.map_nil, List.sum_cons, List.sum_nil]
      omega
    · rw [e, List.range_succ, List.map_append, List.sum_append]
      simp only [List.map_cons, List.map_nil, List.sum_cons, List.sum_nil]
      omega

end Blobs

/-! ### Helpers for the examples -/

theorem Blobs.run_ok (env : Env) (he : ∀ a ∈ algos, ∀ B, (env.evp a.md B).isSome)
    (hio : env.FilesOk) (argv : List (List Nat)) (hp : (Blobs.dirOf argv).length ≤ 86) :
    Blobs.main env argv = .ok (Blobs.runOf env argv) := by
  obtain ⟨s, hs⟩ := Blobs.main_total env he hio argv hp
  rw [Blobs.runOf, hs]
  rfl

theorem Blobs.step_ok (env : Env) (he : ∀ a ∈ algos, ∀ B, (env.evp a.md B).isSome)
    (hio : env.FilesOk) (pfx : List Nat) (i : Nat) (t : Blobs.BState)
    (hp : (Blobs.pathOf pfx i).length < 100) :
    Blobs.blobBody env pfx i t = .ok (Blobs.stepOf env pfx i t) := by
  obtain ⟨s, hs⟩ := Blobs.blobBody_total env he hio pfx i t hp
  rw [Blobs.stepOf, hs]
  rfl

theorem demoEnv2_evp : demoEnv2.evp = demoEnv.evp := rfl

theorem demoEnv2_run : ∀ a ∈ algos, ∀ B, (demoEnv2.evp a.md B).isSome :=
  demoEnv_reliable.1

theorem demoEnv2_filesOk : demoEnv2.FilesOk :=
  ⟨fun _ => rfl, fun _ _ => rfl, fun _ => rfl⟩

theorem demoEnv2_rand : demoEnv2.rand_seq 1337 = demoEnv.rand_seq 1337 := by
  funext k
  simp [demoEnv2, demoEnv]

theorem zeroEnv_run : ∀ a ∈ algos, ∀ B, (zeroEnv.evp a.md B).isSome :=
  demoEnv_reliable.1

theorem zeroEnv_filesOk : zeroEnv.FilesOk :=
  ⟨fun _ => rfl, fun _ _ => rfl, fun _ => rfl⟩

theorem zeroEnv_digestsOk : zeroEnv.DigestsOk := demoEnv_digestsOk

theorem manifestRow_congr (env1 env2 : Env) (h : env1.evp = env2.evp) (I B : List Nat) :
    manifestRow env1 I B = manifestRow env2 I B := by
  simp only [manifestRow, digestOf, h]

theorem Blobs.rows_closed (env : Env) (hd : env.DigestsOk) (r : Nat → Nat)
    (l : List Nat) (rows : List (List Nat))
    (h : List.Forall₂ (fun i row => RowOf env (Blobs.blobName i) (Blobs.contentOf r i) row)
      l rows) :
    rows = l.map (fun i => manifestRow env (Blobs.blobName i) (Blobs.contentOf r i)) := by
  induction h with
  | nil => rfl
  | @cons i row l rows hrow _ ih =>
    rw [List.map_cons, ← ih, RowOf_manifestRow env hd _ _ row hrow]

/-- C11: two runs of the blob generator that return, in environments with
the same output sequence of the generator after `srand(1337)` and the same
digest capability (which meets its contract), whatever else differs
(sequences after other seeds, indeterminate memory, the output directory),
write the same manifest and, for every `i`, the same content for
`blob<i>.bin`; with the same output directory the files are the same.  The
generator is seeded with 1337 before the loop, where no draw has been made,
and an iteration never reseeds it. -/
theorem reproducible (env1 env2 : Env) (argv1 argv2 : List (List Nat))
    (s1 s2 : Blobs.BState)
    (hrand : env1.rand_seq 1337 = env2.rand_seq 1337) (hevp : env1.evp = env2.evp)
    (hd : env1.DigestsOk)
    (h1 : Blobs.main env1 argv1 = .ok s1) (h2 : Blobs.main env2 argv2 = .ok s2) :
    s1.w.stdout = s2.w.stdout ∧
    s1.w.files.map Prod.snd = s2.w.files.map Prod.snd ∧
    (∀ i, i < 2048 → ∃ B,
      s1.w.files[i]?
        = some (Blobs.dirOf argv1 ++ cstr "/blob" ++ fmt_zu i ++ cstr ".bin", B) ∧
      s2.w.files[i]?
        = some (Blobs.dirOf argv2 ++ cstr "/blob" ++ fmt_zu i ++ cstr ".bin", B)) ∧
    (Blobs.dirOf argv1 = Blobs.dirOf argv2 → s1.w.files = s2.w.files) ∧
    Blobs.main env1 argv1
      = forLoopR (Blobs.blobBody env1 (Blobs.dirOf argv1)) Blobs.N_BLOBS 0
          ⟨⟨[], Blobs.headerLine ++ [10], [], 1337, 0⟩,
            fresh env1 1 Blobs.MAX_BLOB_LENGTH, fresh env1 0 64⟩ ∧
    (∀ pfx i t t2, Blobs.blobBody env1 pfx i t = .ok t2 → t2.w.seed = t.w.seed) ∧
    s1.w.seed = 1337 ∧ s2.w.seed = 1337 := by
  have hd2 : env2.DigestsOk := by
    intro a ha B d he
    exact hd a ha B d (by rw [hevp]; exact he)
  obtain ⟨a1, _, a3, rows1, a4, a5⟩ := Blobs.main_draws env1 argv1 s1 h1
  obtain ⟨b1, _, b3, rows2, b4, b5⟩ := Blobs.main_draws env2 argv2 s2 h2
  have hr1 := Blobs.rows_closed env1 hd _ _ _ a4
  have hr2 := Blobs.rows_closed env2 hd2 _ _ _ b4
  refine ⟨?_, ?_, ?_, ?_, Blobs.main_eq env1 argv1, ?_, a1, b1⟩
  · rw [a5, b5, hr1, hr2, hrand]
    rw [List.map_congr_left (fun i _ => manifestRow_congr env1 env2 hevp (Blobs.blobName i)
      (Blobs.contentOf (env2.rand_seq 1337) i))]
  · rw [a3, b3, hrand]
    simp [List.map_map, Function.comp]
  · intro i hi
    refine ⟨Blobs.contentOf (env1.rand_seq 1337) i, ?_, ?_⟩
    · rw [a3, List.getElem?_map, List.getElem?_range (by simpa [Blobs.N_BLOBS] using hi)]
      rfl
    · rw [b3, List.getElem?_map, List.getElem?_range (by simpa [Blobs.N_BLOBS] using hi),
        hrand]
      rfl
  · intro hdir
    rw [a3, b3, hrand, hdir]
  · intro pfx i t t2 h
    obtain ⟨_, _, _, _, _, _, hs, _⟩ := Blobs.blobBody_step env1 pfx i t t2 h
    exact hs

/-- Witness of C11: the two demo environments, which differ in the
sequences after other seeds, in the indeterminate bytes and in the
allocator, run into two different directories. -/
theorem reproducible_witness :
    demoEnv.rand_seq 1337 = demoEnv2.rand_seq 1337 ∧ demoEnv.evp = demoEnv2.evp ∧
    demoEnv.DigestsOk ∧
    Blobs.main demoEnv [] = .ok (Blobs.runOf demoEnv []) ∧
    Blobs.main demoEnv2 [cstr "blobs", cstr "out"]
      = .ok (Blobs.runOf demoEnv2 [cstr "blobs", cstr "out"]) ∧
    (Blobs.runOf demoEnv []).w.stdout
      = (Blobs.runOf demoEnv2 [cstr "blobs", cstr "out"]).w.stdout ∧
    (Blobs.runOf demoEnv []).w.files.map Prod.snd
      = (Blobs.runOf demoEnv2 [cstr "blobs", cstr "out"]).w.files.map Prod.snd :=
  ⟨demoEnv2_rand.symm, rfl, demoEnv_digestsOk,
    Blobs.run_ok demoEnv demoEnv_reliable.1 demoEnv_filesOk [] (by decide),
    Blobs.run_ok demoEnv2 demoEnv2_run demoEnv2_filesOk [cstr "blobs", cstr "out"] (by decide),
    (reproducible demoEnv demoEnv2 [] [cstr "blobs", cstr "out"] _ _ demoEnv2_rand.symm rfl
      demoEnv_digestsOk
      (Blobs.run_ok demoEnv demoEnv_reliable.1 demoEnv_filesOk [] (by decide))
      (Blobs.run_ok demoEnv2 demoEnv2_run demoEnv2_filesOk [cstr "blobs", cstr "out"]
        (by decide))).1,
    (reproducible demoEnv demoEnv2 [] [cstr "blobs", cstr "out"] _ _ demoEnv2_rand.symm rfl
      demoEnv_digestsOk
      (Blobs.run_ok demoEnv demoEnv_reliable.1 demoEnv_filesOk [] (by decide))
      (Blobs.run_ok demoEnv2 demoEnv2_run demoEnv2_filesOk [cstr "blobs", cstr "out"]
        (by decide))).2.1⟩

theorem Blobs.contentOf_getElem? (r : Nat → Nat) (i j : Nat) (h : j < Blobs.lenOf r i) :
    (Blobs.contentOf r i)[j]? = some (r (Blobs.drawStart r i + 1 + j) % 256) := by
  simp [Blobs.contentOf, List.getElem?_map, List.getElem?_range h]

theorem Blobs.contentOf_length (r : Nat → Nat) (i : Nat) :
    (Blobs.contentOf r i).length = Blobs.lenOf r i := by
  simp [Blobs.contentOf]

theorem Blobs.contentOf_bytes (r : Nat → Nat) (i : Nat) : Bytes (Blobs.contentOf r i) := by
  intro b hb
  simp only [Blobs.contentOf, List.mem_map] at hb
  obtain ⟨j, _, rfl⟩ := hb
  exact Nat.mod_lt _ (by decide)

theorem Blobs.lenOf_lt (r : Nat → Nat) (i : Nat) : Blobs.lenOf r i < 8192 :=
  Nat.mod_lt _ (by decide)

/-- C13: the generator is consumed in a fixed order.  One iteration of the
blob loop that runs to its end, entered after `p` draws, takes draw `p` for
the length `len = r mod 8192`, then draws `p + 1 + j` for the bytes
`j < len` (each reduced mod 256 and written to the file in that order), and
leaves the count at `p + 1 + len`.  In a run that returns, blob `i` has
length `lenOf i`, its first draw is at position `drawStart i`, which is the
sum of `1 + lenOf k` over `k < i`, the file written at index `i` holds the
bytes drawn at `drawStart i + 1 + j`, and the whole run makes 2048 plus the
sum of all lengths draws. -/
theorem draw_order (env : Env) (argv : List (List Nat)) (s : Blobs.BState)
    (hrun : Blobs.main env argv = .ok s)
    (pfx : List Nat) (k : Nat) (t t2 : Blobs.BState)
    (hbuf : t.buffer.length = Blobs.MAX_BLOB_LENGTH)
    (hbody : Blobs.blobBody env pfx k t = .ok t2) :
    (t2.w.draws = t.w.draws + 1 + env.rand_seq t.w.seed t.w.draws % 8192 ∧
      t2.w.seed = t.w.seed ∧
      t2.w.files = t.w.files ++ [(Blobs.pathOf pfx k,
        (List.range (env.rand_seq t.w.seed t.w.draws % 8192)).map
          (fun j => env.rand_seq t.w.seed (t.w.draws + 1 + j) % 256))]) ∧
    (∀ i, i < 2048 →
      s.w.files[i]? = some (Blobs.pathOf (Blobs.dirOf argv) i,
        Blobs.contentOf (env.rand_seq 1337) i)) ∧
    (∀ i, Blobs.lenOf (env.rand_seq 1337) i
        = env.rand_seq 1337 (Blobs.drawStart (env.rand_seq 1337) i) % 8192 ∧
      Blobs.lenOf (env.rand_seq 1337) i < 8192 ∧
      (Blobs.contentOf (env.rand_seq 1337) i).length = Blobs.lenOf (env.rand_seq 1337) i ∧
      ∀ j, j < Blobs.lenOf (env.rand_seq 1337) i →
        (Blobs.contentOf (env.rand_seq 1337) i)[j]?
          = some (env.rand_seq 1337 (Blobs.drawStart (env.rand_seq 1337) i + 1 + j) % 256)) ∧
    (∀ i, Blobs.drawStart (env.rand_seq 1337) (i + 1)
        = Blobs.drawStart (env.rand_seq 1337) i + (1 + Blobs.lenOf (env.rand_seq 1337) i)) ∧
    (∀ i, Blobs.drawStart (env.rand_seq 1337) i
        = ((List.range i).map (fun k => 1 + Blobs.lenOf (env.rand_seq 1337) k)).sum) ∧
    s.w.seed = 1337 ∧
    s.w.draws = 2048 + ((List.range 2048).map (Blobs.lenOf (env.rand_seq 1337))).sum := by
  obtain ⟨_, _, _, _, _, hfiles, hseed, hdraws, _⟩ := Blobs.blobBody_step env pfx k t t2 hbody
  obtain ⟨_, hcontent⟩ := Blobs.blobBody_content env pfx k t t2 hbuf hbody
  obtain ⟨a1, a2, a3, _⟩ := Blobs.main_draws env argv s hrun
  refine ⟨⟨hdraws, hseed, ?_⟩, ?_, ?_, ?_, ?_, a1, ?_⟩
  · rw [hfiles, hcontent]; rfl
  · intro i hi
    rw [a3, List.getElem?_map, List.getElem?_range (by simpa [Blobs.N_BLOBS] using hi)]
    rfl
  · intro i
    exact ⟨rfl, Blobs.lenOf_lt _ i, Blobs.contentOf_length _ i,
      fun j hj => Blobs.contentOf_getElem? _ i j hj⟩
  · intro i
    show Blobs.drawStart _ i + 1 + Blobs.lenOf _ i = _
    omega
  · intro i
    exact (Blobs.drawStart_sum _ i).1
  · rw [a2]
    exact (Blobs.drawStart_sum _ Blobs.N_BLOBS).2

/-- Witness of C13: the demo run into the current directory, and the first
iteration of its loop. -/
theorem draw_order_witness :
    Blobs.main demoEnv [] = .ok (Blobs.runOf demoEnv []) ∧
    (Blobs.startOf demoEnv).buffer.length = Blobs.MAX_BLOB_LENGTH ∧
    Blobs.blobBody demoEnv (cstr ".") 0 (Blobs.startOf demoEnv)
      = .ok (Blobs.stepOf demoEnv (cstr ".") 0 (Blobs.startOf demoEnv)) ∧
    (Blobs.runOf demoEnv []).w.draws
      = 2048 + ((List.range 2048).map (Blobs.lenOf (demoEnv.rand_seq 1337))).sum :=
  ⟨Blobs.run_ok demoEnv demoEnv_reliable.1 demoEnv_filesOk [] (by decide),
    by simp [Blobs.startOf, fresh],
    Blobs.step_ok demoEnv demoEnv_reliable.1 demoEnv_filesOk (cstr ".") 0 _ (by decide),
    (draw_order demoEnv [] _
      (Blobs.run_ok demoEnv demoEnv_reliable.1 demoEnv_filesOk [] (by decide))
      (cstr ".") 0 (Blobs.startOf demoEnv) _ (by simp [Blobs.startOf, fresh])
      (Blobs.step_ok demoEnv demoEnv_reliable.1 demoEnv_filesOk (cstr ".") 0 _
        (by decide))).2.2.2.2.2.2⟩

/-! ### Blobs of length zero -/

theorem forall₂_getElem? {α β : Type} (R : α → β → Prop) (l : List α) (m : List β)
    (h : List.Forall₂ R l m) :
    ∀ (i : Nat) (x : α), l[i]? = some x → ∃ y, m[i]? = some y ∧ R x y := by
  induction h with
  | nil => intro i x hx; simp at hx
  | @cons a b l m hab _ ih =>
    intro i x hx
    cases i with
    | zero =>
      simp only [List.getElem?_cons_zero, Option.some.injEq] at hx
      subst hx
      exact ⟨b, by simp, hab⟩
    | succ i =>
      simp only [List.getElem?_cons_succ] at hx
      obtain ⟨y, hy, hr⟩ := ih i x hx
      exact ⟨y, by simpa using hy, hr⟩

/-- The data lines of a completed run of the blob generator, by the
positions of the draws. -/
theorem Blobs.main_draw_lines (env : Env) (argv : List (List Nat)) (s : Blobs.BState)
    (hrun : Blobs.main env argv = .ok s) :
    ∃ lines : List (List Nat),
      linesOf s.w.stdout = Blobs.headerLine :: lines ∧
      List.Forall₂ (fun i line => identifier line = Blobs.blobName i ∧
        RowOf env (Blobs.blobName i) (Blobs.contentOf (env.rand_seq 1337) i) (line ++ [10]))
        (List.range Blobs.N_BLOBS) lines := by
  obtain ⟨_, _, _, rows, hrows, hout⟩ := Blobs.main_draws env argv s hrun
  obtain ⟨lines, _, l2, l3⟩ := manifest_lines env Blobs.headerLine (by decide)
    ((List.range Blobs.N_BLOBS).map
      (fun i => (Blobs.blobName i, Blobs.contentOf (env.rand_seq 1337) i))) rows
    (by rw [List.forall₂_map_left_iff]; exact hrows)
    (by
      intro p hp
      obtain ⟨i, _, hi⟩ := List.mem_map.1 hp
      rw [← hi]
      exact Blobs.blobName_no_sep i)
  rw [List.forall₂_map_left_iff] at l3
  exact ⟨lines, by rw [hout, l2], l3.imp (fun i line h => ⟨h.2.2.2.1, h.2.2.2.2⟩)⟩

theorem digestBody_len_zero (env : Env) (b1 b2 : List Nat) :
    digestBody env b1 0 = digestBody env b2 0 := by
  funext i s
  simp only [digestBody, Algos.hash, List.take_zero]

theorem digestLoop_len_zero (env : Env) (b1 b2 : List Nat) (s : DState) :
    digestLoop env b1 0 s = digestLoop env b2 0 s := by
  simp only [digestLoop, digestBody_len_zero env b1 b2]

/-- With a length draw of zero the iteration of the blob loop goes the same
way whatever `buffer` holds, and leaves `buffer` alone. -/
theorem Blobs.blobBody_len_zero (env : Env) (pfx : List Nat) (k : Nat) (t t2 : Blobs.BState)
    (hzero : env.rand_seq t.w.seed t.w.draws % Blobs.MAX_BLOB_LENGTH = 0)
    (h : Blobs.blobBody env pfx k t = .ok t2) (b : List Nat) :
    Blobs.blobBody env pfx k { t with buffer := b } = .ok { t2 with buffer := b } := by
  have hr : (rand env t.w).1 % Blobs.MAX_BLOB_LENGTH = 0 := hzero
  unfold Blobs.blobBody at h ⊢
  simp only [hr, forLoop, List.take_zero] at h ⊢
  split at h
  · cases h
  split at h
  · cases h
  split at h
  · cases h
  split at h
  · cases h
  rename_i h1 h2 h3 h4
  rw [if_neg h1, if_neg h2, if_neg h3, if_neg h4]
  rw [digestLoop_len_zero env b t.buffer]
  split at h
  · simp only [Res.ok.injEq] at h ⊢
    subst h
    rfl
  · cases h
  · cases h

/-- C12: a blob whose length draw is zero.  In one iteration of the blob
loop that runs to its end with `rand() % 8192 = 0`, the file written is
empty, no byte is drawn, and the row carries the seven digests of the empty
byte sequence (under the contract of the digest capability it is the
manifest row of the empty sequence); the iteration goes the same way
whatever `buffer` holds, stale bytes of earlier blobs included.  In a run
that returns, if blob `i` has length zero then file `i` is empty and data
row `i` is the row of the empty sequence. -/
theorem empty_blob (env : Env) (argv : List (List Nat)) (s : Blobs.BState)
    (hrun : Blobs.main env argv = .ok s) (i : Nat) (hi : i < 2048)
    (hlen : Blobs.lenOf (env.rand_seq 1337) i = 0)
    (pfx : List Nat) (k : Nat) (t t2 : Blobs.BState)
    (hzero : env.rand_seq t.w.seed t.w.draws % 8192 = 0)
    (hbody : Blobs.blobBody env pfx k t = .ok t2) :
    (t2.w.files = t.w.files ++ [(Blobs.pathOf pfx k, [])] ∧
      t2.w.draws = t.w.draws + 1 ∧
      t2.buffer = t.buffer ∧
      (∃ row, t2.w.stdout = t.w.stdout ++ row ∧
        RowOf env (cstr "blob" ++ fmt_zu k ++ cstr ".bin") [] row ∧
        (env.DigestsOk → row = manifestRow env (cstr "blob" ++ fmt_zu k ++ cstr ".bin") [])) ∧
      ∀ b : List Nat,
        Blobs.blobBody env pfx k { t with buffer := b } = .ok { t2 with buffer := b }) ∧
    (s.w.files[i]? = some (Blobs.pathOf (Blobs.dirOf argv) i, []) ∧
      ∃ line, (linesOf s.w.stdout).tail[i]? = some line ∧
        identifier line = cstr "blob" ++ fmt_zu i ++ cstr ".bin" ∧
        RowOf env (cstr "blob" ++ fmt_zu i ++ cstr ".bin") [] (line ++ [10]) ∧
        (env.DigestsOk →
          line ++ [10] = manifestRow env (cstr "blob" ++ fmt_zu i ++ cstr ".bin") [])) ∧
    (∀ I, manifestRow env I []
      = I ++ [9] ++ List.intercalate [9]
          (algos.map (fun a => hexEncode (((env.evp a.md []).getD []).take a.digest_len)))
        ++ [10]) := by
  have hz : env.rand_seq t.w.seed t.w.draws % Blobs.MAX_BLOB_LENGTH = 0 := hzero
  obtain ⟨row, _, hb, hrow, hout, hfiles, _, hdraws, _⟩ := Blobs.blobBody_step env pfx k t t2 hbody
  rw [hz] at hb hrow hfiles hdraws
  simp only [List.take_zero] at hrow hfiles
  obtain ⟨_, _, a3, _⟩ := Blobs.main_draws env argv s hrun
  obtain ⟨lines, l1, l2⟩ := Blobs.main_draw_lines env argv s hrun
  have hc : Blobs.contentOf (env.rand_seq 1337) i = [] := by
    simp [Blobs.contentOf, hlen]
  refine ⟨⟨hfiles, hdraws, ?_, ⟨row, hout, hrow, ?_⟩, ?_⟩, ⟨?_, ?_⟩, fun I => rfl⟩
  · rw [hb]; rfl
  · intro hd
    exact RowOf_manifestRow env hd _ _ row hrow
  · exact Blobs.blobBody_len_zero env pfx k t t2 hz hbody
  · rw [a3, List.getElem?_map, List.getElem?_range (by simpa [Blobs.N_BLOBS] using hi)]
    simp only [Option.map_some', hc]
  · obtain ⟨line, e1, e2, e3⟩ := forall₂_getElem? _ _ _ l2 i i
      (List.getElem?_range (by simpa [Blobs.N_BLOBS] using hi))
    rw [hc] at e3
    refine ⟨line, ?_, e2, e3, ?_⟩
    · rw [l1, List.tail_cons, e1]
    · intro hd
      exact RowOf_manifestRow env hd _ _ _ e3

/-- Witness of C12: the environment whose `rand()` always returns 0, run
without argument, its blob 5, and the first iteration of its loop. -/
theorem empty_blob_witness :
    Blobs.main zeroEnv [] = .ok (Blobs.runOf zeroEnv []) ∧
    5 < 2048 ∧
    Blobs.lenOf (zeroEnv.rand_seq 1337) 5 = 0 ∧
    zeroEnv.rand_seq (Blobs.startOf zeroEnv).w.seed (Blobs.startOf zeroEnv).w.draws % 8192 = 0 ∧
    Blobs.blobBody zeroEnv (cstr ".") 0 (Blobs.startOf zeroEnv)
      = .ok (Blobs.stepOf zeroEnv (cstr ".") 0 (Blobs.startOf zeroEnv)) ∧
    (Blobs.runOf zeroEnv []).w.files[5]? = some (Blobs.pathOf (Blobs.dirOf []) 5, []) :=
  ⟨Blobs.run_ok zeroEnv zeroEnv_run zeroEnv_filesOk [] (by decide), by decide, rfl, rfl,
    Blobs.step_ok zeroEnv zeroEnv_run zeroEnv_filesOk (cstr ".") 0 _ (by decide),
    (empty_blob zeroEnv [] _
      (Blobs.run_ok zeroEnv zeroEnv_run zeroEnv_filesOk [] (by decide)) 5 (by decide) rfl
      (cstr ".") 0 (Blobs.startOf zeroEnv) _ rfl
      (Blobs.step_ok zeroEnv zeroEnv_run zeroEnv_filesOk (cstr ".") 0 _ (by decide))).2.1.1⟩

/-! ### Composition of inputs of the word processor -/

theorem splitOnP_append_sep (p : Nat → Bool) (sep : Nat) (hsep : p sep = true) (b : List Nat) :
    ∀ a : List Nat, (a ++ sep :: b).splitOnP p = a.splitOnP p ++ b.splitOnP p := by
  intro a
  induction a with
  | nil => simp [List.splitOnP_cons, hsep, List.splitOnP_nil]
  | cons x xs ih =>
    rw [List.cons_append, List.splitOnP_cons, List.splitOnP_cons, ih]
    cases hx : p x with
    | true => simp
    | false =>
      simp only [Bool.false_eq_true, if_false]
      obtain ⟨y, ys, hy⟩ := List.exists_cons_of_ne_nil (List.splitOnP_ne_nil p xs)
      rw [hy]
      rfl

theorem maximalRuns_append_sep (a b : List Nat) (s : Nat) (hs : isWhitespace s = true) :
    maximalRuns (a ++ [s] ++ b) = maximalRuns a ++ maximalRuns b := by
  simp only [maximalRuns, List.append_assoc, List.singleton_append]
  rw [splitOnP_append_sep isWhitespace s hs b a, List.filter_append]

theorem Bytes.append_sep (a b : List Nat) (s : Nat) (ha : Bytes a) (hb : Bytes b)
    (hs : isWhitespace s = true) : Bytes (a ++ [s] ++ b) := by
  intro x hx
  simp only [List.mem_append, List.mem_singleton] at hx
  rcases hx with (hx | rfl) | hx
  · exact ha x hx
  · exact ws_bytes [x] (by simpa using hs) x (List.mem_singleton_self _)
  · exact hb x hx

/-- The data lines of a run of the word processor, in closed form. -/
theorem Words.data_lines (env : Env) (hd : env.DigestsOk) (hr : env.Reliable)
    (stdin : List Nat) (hb : Bytes stdin) :
    ∃ s, Words.main env stdin = .ok s ∧
      s.w.stdout = Words.headerLine ++ [10]
        ++ (maximalRuns stdin).flatMap (fun t => manifestRow env t t) ∧
      (linesOf s.w.stdout).tail
        = (maximalRuns stdin).map (fun t => (manifestRow env t t).dropLast) := by
  obtain ⟨s, lines, h1, h2, h3, h4⟩ := Words.words_main_lines env hr stdin hb
  obtain ⟨s1, rows, g1, g2, g3⟩ := Words.main_run env hr stdin hb
  rw [h1] at g1
  simp only [Res.ok.injEq] at g1
  subst g1
  refine ⟨s, h1, ?_, ?_⟩
  · rw [g3, rows_eq_map env hd _ _ g2, List.flatMap_def]
  · rw [h3, List.tail_cons]
    have := forall₂_map_eq (fun t => (manifestRow env t t).dropLast) id _ _
      (h4.imp (fun t line h => by
        have e := RowOf_manifestRow env hd _ _ _ h.2.2.2.2
        show line = (manifestRow env t t).dropLast
        rw [← e]
        simp))
    simpa using this

/-- C14: word processing is compositional.  For bytes `a`, `b` and a
whitespace byte `s` (in an environment that does not fail and whose digest
capability meets its contract) the three runs on `a`, on `b` and on
`a ++ [s] ++ b` return, and the data rows of the third are the data rows of
the first followed by the data rows of the second.  Each data row is a
function of its own word alone: the `for (;;)` loop entered with any buffer
(`len <= cap`, whatever bytes and length an earlier word left) and any
digest array writes, for the rest of the input, the manifest rows of its
words; and after the reset `buf.len = 0` pushing a word leaves exactly that
word in the first `len` bytes. -/
theorem compositional (env : Env) (hd : env.DigestsOk) (hr : env.Reliable)
    (a b : List Nat) (s : Nat) (ha : Bytes a) (hb : Bytes b)
    (hs : isWhitespace s = true) :
    (∃ sa sb sab, Words.main env a = .ok sa ∧ Words.main env b = .ok sb ∧
      Words.main env (a ++ [s] ++ b) = .ok sab ∧
      (linesOf sab.w.stdout).tail = (linesOf sa.w.stdout).tail ++ (linesOf sb.w.stdout).tail ∧
      (∃ ra rb, sa.w.stdout = Words.headerLine ++ [10] ++ ra ∧
        sb.w.stdout = Words.headerLine ++ [10] ++ rb ∧
        sab.w.stdout = Words.headerLine ++ [10] ++ ra ++ rb) ∧
      (linesOf sab.w.stdout).tail
        = (maximalRuns (a ++ [s] ++ b)).map (fun t => (manifestRow env t t).dropLast)) ∧
    maximalRuns (a ++ [s] ++ b) = maximalRuns a ++ maximalRuns b ∧
    (∀ (fuel : Nat) (input : List Nat) (st : Words.WState),
      input.length < fuel → st.w.stdin = input → Bytes input → Words.BufOk st.buf →
      ∃ st1, Words.mainLoop env fuel st = .ok st1 ∧
        st1.w.stdout
          = st.w.stdout ++ (maximalRuns input).flatMap (fun t => manifestRow env t t)) ∧
    (∀ (buf : Words.buffer) (word : List Nat), Words.BufOk buf →
      ∃ buf1, Words.pushAll env { buf with len := 0 } word = some buf1 ∧
        buf1.len = word.length ∧ buf1.data.take buf1.len = word) := by
  have hruns := maximalRuns_append_sep a b s hs
  obtain ⟨sa, a1, a2, a3⟩ := Words.data_lines env hd hr a ha
  obtain ⟨sb, b1, b2, b3⟩ := Words.data_lines env hd hr b hb
  obtain ⟨sab, c1, c2, c3⟩ := Words.data_lines env hd hr (a ++ [s] ++ b)
    (Bytes.append_sep a b s ha hb hs)
  refine ⟨⟨sa, sb, sab, a1, b1, c1, ?_, ⟨_, _, a2, b2, ?_⟩, c3⟩, hruns, ?_, ?_⟩
  · rw [c3, a3, b3, hruns, List.map_append]
  · rw [c2, hruns, List.flatMap_append]
    simp only [List.append_assoc]
  · intro fuel input st hf hin hbytes hbuf
    obtain ⟨st1, rows, h1, h2, h3⟩ := Words.mainLoop_run env hr fuel input st hf hin hbytes hbuf
    refine ⟨st1, h1, ?_⟩
    rw [h3, rows_eq_map env hd _ _ h2, List.flatMap_def]
  · intro buf word hbuf
    obtain ⟨buf1, h1, _, h3, h4⟩ := Words.pushAll_ok env hr.2 word { buf with len := 0 }
      ⟨Nat.zero_le _, hbuf.2⟩
    exact ⟨buf1, h1, by simpa using h3, by simpa using h4⟩

/-- Witness of C14: the inputs `abcdef gh` and `xy` joined by a newline, in
the demo environment. -/
theorem compositional_witness :
    demoEnv.DigestsOk ∧ demoEnv.Reliable ∧ Bytes (cstr "abcdef gh") ∧ Bytes (cstr "xy") ∧
    isWhitespace 10 = true ∧
    maximalRuns (cstr "abcdef gh" ++ [10] ++ cstr "xy")
      = maximalRuns (cstr "abcdef gh") ++ maximalRuns (cstr "xy") ∧
    ∃ sa sb sab, Words.main demoEnv (cstr "abcdef gh") = .ok sa ∧
      Words.main demoEnv (cstr "xy") = .ok sb ∧
      Words.main demoEnv (cstr "abcdef gh" ++ [10] ++ cstr "xy") = .ok sab ∧
      (linesOf sab.w.stdout).tail = (linesOf sa.w.stdout).tail ++ (linesOf sb.w.stdout).tail ∧
      (∃ ra rb, sa.w.stdout = Words.headerLine ++ [10] ++ ra ∧
        sb.w.stdout = Words.headerLine ++ [10] ++ rb ∧
        sab.w.stdout = Words.headerLine ++ [10] ++ ra ++ rb) ∧
      (linesOf sab.w.stdout).tail
        = (maximalRuns (cstr "abcdef gh" ++ [10] ++ cstr "xy")).map
            (fun t => (manifestRow demoEnv t t).dropLast) :=
  ⟨demoEnv_digestsOk, demoEnv_reliable, by decide, by decide, by decide,
    (compositional demoEnv demoEnv_digestsOk demoEnv_reliable (cstr "abcdef gh") (cstr "xy") 10
      (by decide) (by decide) (by decide)).2.1,
    (compositional demoEnv demoEnv_digestsOk demoEnv_reliable (cstr "abcdef gh") (cstr "xy") 10
      (by decide) (by decide) (by decide)).1⟩

/-! ### The assertion on the length of the path -/

theorem fmt_zu_length_bound (i e : Nat) (he : 0 < e) (h : i < 10 ^ e) :
    (fmt_zu i).length ≤ e := by
  simp only [fmt_zu, List.length_map, Nat.toDigits]
  exact Nat.toDigitsCore_length 10 (by decide) (i + 1) i e h he

theorem fmt_zu_length_pos (i : Nat) : 1 ≤ (fmt_zu i).length := by
  simp only [fmt_zu, List.length_map, Nat.toDigits, Nat.toDigitsCore]
  split
  · simp
  · have := Nat.toDigitsCore_lens_eq 10 i (i / 10) (Nat.digitChar (i % 10)) []
    omega

theorem forLoopR_split {σ : Type} (body : Nat → σ → Res σ) :
    ∀ (m k i : Nat) (s s1 : σ), forLoopR body m i s = .ok s1 →
      forLoopR body (m + k) i s = forLoopR body k (i + m) s1 := by
  intro m
  induction m with
  | zero =>
    intro k i s s1 h
    simp only [forLoopR, Res.ok.injEq] at h
    subst h
    simp
  | succ m ih =>
    intro k i s s1 h
    obtain ⟨s0, h0, h1⟩ := forLoopR_succ_ok body m i s s1 h
    have e : m + 1 + k = (m + k) + 1 := by omega
    rw [e]
    simp only [forLoopR, h0]
    rw [ih k (i + 1) s0 s1 h1]
    congr 1
    omega

namespace Blobs

/-- The iteration of the blob loop whose path has 100 bytes or more stops
at the assertion on `snprintf`, with nothing written. -/
theorem blobBody_long (env : Env) (pfx : List Nat) (i : Nat) (s : BState)
    (h : ¬ (pathOf pfx i).length < 100) :
    ∃ s1, blobBody env pfx i s = .abort s1 ∧ s1.w.stdout = s.w.stdout ∧
      s1.w.files = s.w.files := by
  unfold blobBody
  simp only []
  obtain ⟨hfw, _⟩ := fill_w env ((rand env s.w).1 % MAX_BLOB_LENGTH) 0
    ⟨s.buffer, (rand env s.w).2⟩
  rw [if_pos h]
  refine ⟨_, rfl, ?_, ?_⟩
  · simp only [hfw]; rfl
  · simp only [hfw]; rfl

/-- A run in which nothing but the assertion on `snprintf` can fail, and
that assertion holds below index `m` and fails at `m`: it aborts with the
header, the `m` data rows of the blobs below `m`, and their `m` files. -/
theorem main_abort_at (env : Env) (he : ∀ a ∈ algos, ∀ B, (env.evp a.md B).isSome)
    (hio : env.FilesOk) (argv : List (List Nat)) (m : Nat) (hm : m < N_BLOBS)
    (hlt : ∀ i, i < m → (pathOf (dirOf argv) i).length < 100)
    (hge : ¬ (pathOf (dirOf argv) m).length < 100) :
    ∃ s, main env argv = .abort s ∧ s.w.files.length = m ∧
      ∃ lines, s.w.stdout = (headerLine :: lines).flatMap (fun l => l ++ [10]) ∧
        linesOf s.w.stdout = headerLine :: lines ∧ lines.length = m ∧
        lines.map identifier = (List.range m).map blobName := by
  obtain ⟨k, hk⟩ : ∃ k, N_BLOBS = m + (k + 1) := ⟨N_BLOBS - m - 1, by omega⟩
  obtain ⟨s1, h1⟩ := forLoopR_total (blobBody env (dirOf argv)) m 0
    (fun j s _ hj => blobBody_total env he hio (dirOf argv) j s (hlt j (by omega)))
    ⟨⟨[], headerLine ++ [10], [], 1337, 0⟩, fresh env 1 MAX_BLOB_LENGTH, fresh env 0 64⟩
  obtain ⟨s2, h2, hout, hfiles⟩ := blobBody_long env (dirOf argv) m s1 hge
  obtain ⟨items, rows, e1, e2, _, e4, e5, _⟩ := blobLoop_ok env (dirOf argv) m 0 _ s1
    (by simp [fresh]) h1
  have hlen : items.length = m := by
    have := congrArg List.length e1
    simpa using this
  obtain ⟨lines, l1, l2, l3⟩ := manifest_lines env headerLine (by decide) items rows e2
    (by
      intro p hp
      have : p.1 ∈ items.map Prod.fst := List.mem_map_of_mem _ hp
      rw [e1] at this
      obtain ⟨i, _, hi⟩ := List.mem_map.1 this
      rw [← hi]
      exact blobName_no_sep i)
  refine ⟨s2, ?_, ?_, lines, ?_, ?_, ?_, ?_⟩
  · rw [main_eq, hk, forLoopR_split _ m (k + 1) 0 _ s1 h1]
    simp only [forLoopR, Nat.zero_add, h2]
  · rw [hfiles, e4]
    simp [hlen]
  · rw [hout, e5, l1]
  · rw [hout, e5, l2]
  · rw [← l3.length_eq, hlen]
  · have := forall₂_map_eq Prod.fst identifier _ _ (l3.imp (fun _ _ h => h.2.2.2.1))
    rw [this, e1, List.range_eq_range']

end Blobs

theorem Blobs.firstFailure_of (env : Env) (he : ∀ a ∈ algos, ∀ B, (env.evp a.md B).isSome)
    (hio : env.FilesOk) (argv : List (List Nat)) (m : Nat) (hm : m < Blobs.N_BLOBS)
    (hlt : ∀ i, i < m → (Blobs.pathOf (Blobs.dirOf argv) i).length < 100)
    (hge : ¬ (Blobs.pathOf (Blobs.dirOf argv) m).length < 100) :
    Blobs.FirstFailure env argv m :=
  ⟨hlt, hge, Blobs.main_abort_at env he hio argv m hm hlt hge⟩

/-- C15: the assertion on the result of `snprintf` holds at all 2048
indices exactly when the output directory has at most 86 bytes (and then,
if nothing else fails, the run returns).  With nothing else failing, a
directory of 87 bytes makes the run abort at index 1000, after 1000 data
rows; of 88 bytes at index 100; of 89 bytes at index 10; of 90 bytes or
more at index 0, with the header line alone written.  (`snprintf` is taken
to return the length of the whole path.) -/
theorem path_assertion (env : Env) (he : ∀ a ∈ algos, ∀ B, (env.evp a.md B).isSome)
    (hio : env.FilesOk) (argv : List (List Nat)) :
    ((∀ i, i < 2048 → (Blobs.pathOf (Blobs.dirOf argv) i).length < 100)
      ↔ (Blobs.dirOf argv).length ≤ 86) ∧
    ((Blobs.dirOf argv).length ≤ 86 → ∃ s, Blobs.main env argv = .ok s) ∧
    ((Blobs.dirOf argv).length = 87 → Blobs.FirstFailure env argv 1000) ∧
    ((Blobs.dirOf argv).length = 88 → Blobs.FirstFailure env argv 100) ∧
    ((Blobs.dirOf argv).length = 89 → Blobs.FirstFailure env argv 10) ∧
    (90 ≤ (Blobs.dirOf argv).length →
      Blobs.FirstFailure env argv 0 ∧
      ∃ s, Blobs.main env argv = .abort s ∧ s.w.stdout = Blobs.headerLine ++ [10] ∧
        s.w.files = []) := by
  have h1000 : (fmt_zu 1000).length = 4 := by decide
  have h100 : (fmt_zu 100).length = 3 := by decide
  have h10 : (fmt_zu 10).length = 2 := by decide
  have h0 : (fmt_zu 0).length = 1 := by decide
  refine ⟨⟨?_, ?_⟩, Blobs.main_total env he hio argv, ?_, ?_, ?_, ?_⟩
  · intro h
    have := h 1000 (by decide)
    rw [Blobs.pathOf_length, h1000] at this
    omega
  · intro h i hi
    have := fmt_zu_length_bound i 4 (by decide) (by omega)
    rw [Blobs.pathOf_length]
    omega
  · intro h
    apply Blobs.firstFailure_of env he hio argv 1000 (by decide)
    · intro i hi
      have := fmt_zu_length_bound i 3 (by decide) (by omega)
      rw [Blobs.pathOf_length]
      omega
    · rw [Blobs.pathOf_length, h1000]
      omega
  · intro h
    apply Blobs.firstFailure_of env he hio argv 100 (by decide)
    · intro i hi
      have := fmt_zu_length_bound i 2 (by decide) (by omega)
      rw [Blobs.pathOf_length]
      omega
    · rw [Blobs.pathOf_length, h100]
      omega
  · intro h
    apply Blobs.firstFailure_of env he hio argv 10 (by decide)
    · intro i hi
      have := fmt_zu_length_bound i 1 (by decide) (by omega)
      rw [Blobs.pathOf_length]
      omega
    · rw [Blobs.pathOf_length, h10]
      omega
  · intro h
    have hge : ¬ (Blobs.pathOf (Blobs.dirOf argv) 0).length < 100 := by
      rw [Blobs.pathOf_length, h0]
      omega
    have hf := Blobs.firstFailure_of env he hio argv 0 (by decide)
      (fun i hi => absurd hi (Nat.not_lt_zero i)) hge
    refine ⟨hf, ?_⟩
    obtain ⟨_, _, s, hs, hfl, lines, hout, _, hlen, _⟩ := hf
    obtain rfl := List.length_eq_zero.1 hlen
    exact ⟨s, hs, by simpa using hout, List.length_eq_zero.1 hfl⟩

/-- Witness of C15: the demo environment, run into a directory whose name
is 87 bytes `a`. -/
theorem path_assertion_witness :
    (∀ a ∈ algos, ∀ B, (demoEnv.evp a.md B).isSome) ∧ demoEnv.FilesOk ∧
    (Blobs.dirOf [cstr "blobs", List.replicate 87 97]).length = 87 ∧
    Blobs.FirstFailure demoEnv [cstr "blobs", List.replicate 87 97] 1000 :=
  ⟨demoEnv_reliable.1, demoEnv_filesOk, by decide,
    (path_assertion demoEnv demoEnv_reliable.1 demoEnv_filesOk
      [cstr "blobs", List.replicate 87 97]).2.2.1 (by decide)⟩

/-! ### The invariant of the token buffer -/

theorem Res.Sat.and {σ : Type} (P Q : σ → Prop) (r : Res σ) (hp : r.Sat P) (hq : r.Sat Q) :
    r.Sat (fun s => P s ∧ Q s) := by
  obtain ⟨s, hs, hp⟩ := hp
  obtain ⟨t, ht, hq⟩ := hq
  have e : s = t := by
    rcases hs with hs | hs <;> rcases ht with ht | ht <;> rw [hs] at ht <;> cases ht <;> rfl
  subst e
  exact ⟨s, hs, hp, hq⟩

namespace Words

theorem buffer_push_cap (env : Env) (buf buf1 : buffer) (byte : Nat)
    (hp : buffer_push env buf byte = some buf1) :
    buf.len ≤ buf.cap ∧
    buf1.cap = (if buf.len = buf.cap then 2 * buf.cap + 16 else buf.cap) ∧
    buf.cap ≤ buf1.cap := by
  unfold buffer_push at hp
  by_cases hle : buf.len ≤ buf.cap
  · rw [if_neg (by omega)] at hp
    by_cases hc : buf.len = buf.cap
    · rw [if_pos hc] at hp
      simp only [] at hp
      cases hr : realloc env buf.data (2 * buf.cap + 16) with
      | none => rw [hr] at hp; cases hp
      | some data =>
        rw [hr] at hp
        simp only [Option.some.injEq] at hp
        subst hp
        refine ⟨hle, by rw [if_pos hc], ?_⟩
        simp only
        omega
    · rw [if_neg hc] at hp
      simp only [Option.some.injEq] at hp
      subst hp
      exact ⟨hle, by rw [if_neg hc], le_refl _⟩
  · rw [if_pos hle] at hp
    cases hp

theorem buffer_push_getElem? (env : Env) (buf buf1 : buffer) (byte : Nat) (h : BufOk buf)
    (hp : buffer_push env buf byte = some buf1) :
    buf1.data.take buf.len = buf.data.take buf.len ∧ buf1.data[buf.len]? = some byte := by
  obtain ⟨hok, hlen, htake⟩ := buffer_push_some env buf buf1 byte h hp
  have hl : buf.len < buf1.data.length := by
    have := hok.1
    have := hok.2
    omega
  have hl0 : buf.len ≤ buf.data.length := by
    have := h.1
    have := h.2
    omega
  rw [hlen] at htake
  constructor
  · have := congrArg (List.take buf.len) htake
    rw [List.take_take, Nat.min_eq_left (by omega)] at this
    rw [this, List.take_append_of_le_length (by simp; omega), List.take_take,
      Nat.min_self]
  · have := congrArg (fun l => l[buf.len]?) htake
    simp only at this
    rw [List.getElem?_take, if_pos (by omega)] at this
    rw [this, List.getElem?_append_right (by simp)]
    simp [List.length_take, Nat.min_eq_left hl0]

theorem Reachable.bufOk (env : Env) (buf : buffer) (h : Reachable env buf) : BufOk buf := by
  induction h with
  | empty => exact ⟨le_refl _, rfl⟩
  | push buf buf1 byte _ hp ih => exact (buffer_push_some env buf buf1 byte ih hp).1
  | reset buf _ ih => exact ⟨Nat.zero_le _, ih.2⟩

theorem Reachable.cap_form (env : Env) (buf : buffer) (h : Reachable env buf) :
    ∃ k, buf.cap = 16 * (2 ^ k - 1) := by
  induction h with
  | empty => exact ⟨0, rfl⟩
  | push buf buf1 byte _ hp ih =>
    obtain ⟨k, hk⟩ := ih
    obtain ⟨_, hcap, _⟩ := buffer_push_cap env buf buf1 byte hp
    by_cases hc : buf.len = buf.cap
    · rw [if_pos hc] at hcap
      refine ⟨k + 1, ?_⟩
      have h1 : 1 ≤ 2 ^ k := Nat.one_le_two_pow
      have h2 : 2 ^ (k + 1) = 2 * 2 ^ k := by rw [pow_succ]; omega
      rw [hcap, hk, h2]
      omega
    · rw [if_neg hc] at hcap
      exact ⟨k, by rw [hcap, hk]⟩
  | reset buf _ ih => exact ih

end Words

/-! ### Invariants of the loops -/

theorem digestBody_digest_len (env : Env) (str : List Nat) (len i : Nat) (s : DState) :
    (digestBody env str len i s).Sat (fun s1 => s.digest.length ≤ s1.digest.length) := by
  cases hd : env.evp (algos.getD i default).md (str.take len) with
  | none =>
    simp only [digestBody, Algos.hash, hd, Res.Sat_abort]
    exact le_refl _
  | some d =>
    simp only [digestBody, Algos.hash, hd, Res.Sat_ok, List.length_append, List.length_drop]
    omega

theorem digestLoop_digest_len (env : Env) (str : List Nat) (len : Nat) (s : DState) :
    (digestLoop env str len s).Sat (fun s1 => s.digest.length ≤ s1.digest.length) := by
  apply forLoopR_sat (digestBody env str len) (fun s s1 => s.digest.length ≤ s1.digest.length)
  · intro s; exact le_refl _
  · intro a b c h1 h2; exact le_trans h1 h2
  · intro i s; exact digestBody_digest_len env str len i s

namespace Words

theorem emitRow_inv (env : Env) (s : WState) :
    (emitRow env s).Sat (fun s1 => s1.buf = s.buf ∧ s.digest.length ≤ s1.digest.length ∧
      s1.w.stdin = s.w.stdin) := by
  have h1 := emitRow_sat env s
  have h2 : (emitRow env s).Sat
      (fun s1 => s1.buf = s.buf ∧ s.digest.length ≤ s1.digest.length) := by
    simp only [emitRow]
    have := digestLoop_digest_len env s.buf.data s.buf.len
      ⟨putchar 9 (forLoop (fun i w => putchar (s.buf.data.getD i 0) w) s.buf.len 0 s.w),
        s.digest⟩
    revert this
    cases digestLoop env s.buf.data s.buf.len
      ⟨putchar 9 (forLoop (fun i w => putchar (s.buf.data.getD i 0) w) s.buf.len 0 s.w),
        s.digest⟩ with
    | ok d => simp only [Res.Sat_ok]; intro h; exact ⟨trivial, h⟩
    | abort d => simp only [Res.Sat_abort]; intro h; exact ⟨trivial, h⟩
    | fuel => simp [Res.Sat_fuel]
  exact Res.Sat.imp _ _ _
    (fun s1 h => by
      obtain ⟨⟨t, ht⟩, hb, hd⟩ := h
      exact ⟨hb, hd, by rw [ht]; rfl⟩)
    (Res.Sat.and _ _ _ h1 h2)

theorem wordLoop_inv (env : Env) :
    ∀ (fuel : Nat) (s : WState), s.w.stdin.length < fuel → Reachable env s.buf →
      (wordLoop env fuel s).Sat
        (fun s1 => Reachable env s1.buf ∧ s1.digest = s.digest ∧
          s1.w.stdin.length ≤ s.w.stdin.length) := by
  intro fuel
  induction fuel with
  | zero => intro s h; omega
  | succ n ih =>
    intro s h hr
    simp only [wordLoop]
    cases hp : buffer_push env s.buf (toUChar s.c) with
    | none => exact (Res.Sat_abort _ _).2 ⟨hr, rfl, le_refl _⟩
    | some buf1 =>
      have hr1 : Reachable env buf1 := Reachable.push s.buf buf1 _ hr hp
      dsimp only
      cases hin : s.w.stdin with
      | nil =>
        simp only [getchar, hin]
        simp [Res.Sat_ok, Res.Sat_abort, Res.Sat_fuel, hin, hr1, EOF]
      | cons x xs =>
        simp only [getchar, hin]
        split
        · have := ih { s with buf := buf1, c := (x : Int), w := { s.w with stdin := xs } }
            (by simp [hin] at h ⊢; omega) hr1
          exact Res.Sat.imp _ _ _
            (fun s1 h1 => ⟨h1.1, h1.2.1, by have := h1.2.2; simp at this ⊢; omega⟩) this
        · exact (Res.Sat_ok _ _).2 ⟨hr1, rfl, by simp⟩

theorem mainLoop_inv (env : Env) :
    ∀ (fuel : Nat) (s : WState), s.w.stdin.length < fuel → Reachable env s.buf →
      64 ≤ s.digest.length →
      (mainLoop env fuel s).Sat (fun s1 => Reachable env s1.buf ∧ 64 ≤ s1.digest.length) := by
  intro fuel
  induction fuel with
  | zero => intro s h; omega
  | succ n ih =>
    intro s hf hr hd
    simp only [mainLoop]
    cases hin : s.w.stdin with
    | nil =>
      simp only [getchar, hin, if_true, Res.Sat_ok]
      exact ⟨Reachable.reset _ hr, hd⟩
    | cons x xs =>
      have hne : ¬ ((x : Int) = EOF) := by simp only [EOF]; omega
      rw [hin] at hf
      simp only [getchar, hin, hne, if_false]
      split
      · exact ih { s with buf := { s.buf with len := 0 }, c := (x : Int),
                          w := { s.w with stdin := xs } } (by simp at hf ⊢; omega)
          (Reachable.reset _ hr) hd
      · have hw := wordLoop_inv env (xs.length + 1)
          { s with buf := { s.buf with len := 0 }, c := (x : Int), w := { s.w with stdin := xs } }
          (by simp) (Reachable.reset _ hr)
        revert hw
        cases wordLoop env (xs.length + 1)
          { s with buf := { s.buf with len := 0 }, c := (x : Int),
                   w := { s.w with stdin := xs } } with
        | ok s1 =>
          simp only [Res.Sat_ok]
          rintro ⟨r1, d1, l1⟩
          have he := emitRow_inv env s1
          revert he
          cases emitRow env s1 with
          | ok s2 =>
            simp only [Res.Sat_ok]
            rintro ⟨b2, d2, i2⟩
            exact ih s2 (by rw [i2]; simp at l1 hf ⊢; omega) (by rw [b2]; exact r1)
              (by rw [d1] at d2; omega)
          | abort s2 =>
            simp only [Res.Sat_abort]
            rintro ⟨b2, d2, _⟩
            exact ⟨by rw [b2]; exact r1, by rw [d1] at d2; omega⟩
          | fuel => simp [Res.Sat_fuel]
        | abort s1 =>
          simp only [Res.Sat_abort]
          rintro ⟨r1, d1, _⟩
          exact ⟨r1, by rw [d1]; exact hd⟩
        | fuel => simp [Res.Sat_fuel]

theorem main_inv (env : Env) (stdin : List Nat) :
    (main env stdin).Sat (fun s1 => Reachable env s1.buf ∧ 64 ≤ s1.digest.length) := by
  apply mainLoop_inv env (stdin.length + 1)
  · simp [headerLoop_eq, fputs, World.init]
  · exact Reachable.empty
  · simp [fresh]

end Words

/-- C17: the invariant of `buffer_push`.  A buffer reachable from
`empty_buffer` by pushes and resets of `len` to 0 has `len <= cap` (the
entry assertion of `buffer_push` holds), `cap` bytes of storage, and a
capacity of the form `16 * (2^k - 1)`.  With an allocator that does not
fail, a push on it (and on any buffer with `len <= cap` and `cap` bytes of
storage) runs to its end and yields `len + 1 <= cap`, the first `len`
bytes unchanged, the pushed byte at index `len`, the capacity unchanged
unless `len = cap`, in which case it is `2 * cap + 16`, and so never
smaller; a reset leaves the capacity alone.  The buffer of the word
processor is reachable in this sense wherever a run ends. -/
theorem buffer_invariant (env : Env) (ha : ∀ n, env.alloc n = true)
    (buf : Words.buffer) (hr : Words.Reachable env buf) (byte : Nat) (stdin : List Nat) :
    (buf.len ≤ buf.cap ∧ buf.cap = buf.data.length) ∧
    (∃ k, buf.cap = 16 * (2 ^ k - 1)) ∧
    (∃ buf1, Words.buffer_push env buf byte = some buf1 ∧ Words.Reachable env buf1 ∧
      buf1.len = buf.len + 1 ∧ buf1.len ≤ buf1.cap ∧
      buf1.data.take buf.len = buf.data.take buf.len ∧ buf1.data[buf.len]? = some byte ∧
      buf1.cap = (if buf.len = buf.cap then 2 * buf.cap + 16 else buf.cap) ∧
      buf.cap ≤ buf1.cap) ∧
    (∀ (b : Words.buffer) (x : Nat), b.len ≤ b.cap → b.cap = b.data.length →
      ∃ b1, Words.buffer_push env b x = some b1 ∧
        b1.len = b.len + 1 ∧ b1.len ≤ b1.cap ∧ b1.cap = b1.data.length ∧
        b1.data.take b.len = b.data.take b.len ∧ b1.data[b.len]? = some x ∧
        b1.cap = (if b.len = b.cap then 2 * b.cap + 16 else b.cap) ∧
        b.cap ≤ b1.cap) ∧
    ({ buf with len := 0 } : Words.buffer).cap = buf.cap ∧
    Words.Reachable env { buf with len := 0 } ∧
    (Words.main env stdin).Sat (fun s => Words.Reachable env s.buf) := by
  have hok := Words.Reachable.bufOk env buf hr
  have push : ∀ (b : Words.buffer) (x : Nat), b.len ≤ b.cap → b.cap = b.data.length →
      ∃ b1, Words.buffer_push env b x = some b1 ∧
        b1.len = b.len + 1 ∧ b1.len ≤ b1.cap ∧ b1.cap = b1.data.length ∧
        b1.data.take b.len = b.data.take b.len ∧ b1.data[b.len]? = some x ∧
        b1.cap = (if b.len = b.cap then 2 * b.cap + 16 else b.cap) ∧
        b.cap ≤ b1.cap := by
    intro b x h1 h2
    obtain ⟨b1, hp, hok1, hlen, _⟩ := Words.buffer_push_ok env ha b x ⟨h1, h2⟩
    obtain ⟨_, hcap, hmono⟩ := Words.buffer_push_cap env b b1 x hp
    obtain ⟨ht, hg⟩ := Words.buffer_push_getElem? env b b1 x ⟨h1, h2⟩ hp
    exact ⟨b1, hp, hlen, hok1.1, hok1.2, ht, hg, hcap, hmono⟩
  refine ⟨hok, Words.Reachable.cap_form env buf hr, ?_, push, rfl,
    Words.Reachable.reset buf hr, ?_⟩
  · obtain ⟨b1, hp, hlen, hle, _, ht, hg, hcap, hmono⟩ := push buf byte hok.1 hok.2
    exact ⟨b1, hp, Words.Reachable.push buf b1 byte hr hp, hlen, hle, ht, hg, hcap, hmono⟩
  · exact Res.Sat.imp _ _ _ (fun s h => h.1) (Words.main_inv env stdin)

/-- Witness of C17: the first push, on `empty_buffer`, in the demo
environment; the capacity goes from 0 to 16. -/
theorem buffer_invariant_witness :
    (∀ n, demoEnv.alloc n = true) ∧ Words.Reachable demoEnv Words.empty_buffer ∧
    ∃ buf1, Words.buffer_push demoEnv Words.empty_buffer 97 = some buf1 ∧
      Words.Reachable demoEnv buf1 ∧
      buf1.len = Words.empty_buffer.len + 1 ∧ buf1.len ≤ buf1.cap ∧
      buf1.data.take Words.empty_buffer.len
        = Words.empty_buffer.data.take Words.empty_buffer.len ∧
      buf1.data[Words.empty_buffer.len]? = some 97 ∧
      buf1.cap = (if Words.empty_buffer.len = Words.empty_buffer.cap
        then 2 * Words.empty_buffer.cap + 16 else Words.empty_buffer.cap) ∧
      Words.empty_buffer.cap ≤ buf1.cap :=
  ⟨fun _ => rfl, Words.Reachable.empty,
    (buffer_invariant demoEnv (fun _ => rfl) Words.empty_buffer Words.Reachable.empty 97
      []).2.2.1⟩

/-! ### Array bounds -/

theorem digestBody_reads (env : Env) (str : List Nat) (len i : Nat) (s s2 : DState)
    (hi : i < N_ALGOS) (hlen : 64 ≤ s.digest.length)
    (h : digestBody env str len i s = .ok s2) :
    64 ≤ s2.digest.length ∧
    ∀ k, k < (algos.getD i default).digest_len →
      k < 64 ∧ ∃ v, s2.digest[k]? = some v ∧ s2.digest.getD k 0 = v := by
  have h64 : (algos.getD i default).digest_len ≤ 64 := by
    have : i < 7 := hi
    interval_cases i <;> decide
  have hs := digestBody_digest_len env str len i s
  rw [h, Res.Sat_ok] at hs
  refine ⟨by omega, ?_⟩
  intro k hk
  have hk2 : k < s2.digest.length := by omega
  exact ⟨by omega, s2.digest[k], List.getElem?_eq_getElem hk2,
    List.getD_eq_getElem _ _ hk2⟩

namespace Blobs

theorem blobBody_inv (env : Env) (pfx : List Nat) (i : Nat) (s : BState) :
    (blobBody env pfx i s).Sat
      (fun s1 => s1.buffer.length = s.buffer.length ∧ s.digest.length ≤ s1.digest.length) := by
  unfold blobBody
  simp only []
  obtain ⟨_, hfb⟩ := fill_w env ((rand env s.w).1 % MAX_BLOB_LENGTH) 0
    ⟨s.buffer, (rand env s.w).2⟩
  generalize forLoop (fillBody env) ((rand env s.w).1 % MAX_BLOB_LENGTH) 0
    ⟨s.buffer, (rand env s.w).2⟩ = f at hfb
  simp only at hfb
  split
  · exact (Res.Sat_abort _ _).2 ⟨hfb, le_refl _⟩
  split
  · exact (Res.Sat_abort _ _).2 ⟨hfb, le_refl _⟩
  split
  · exact (Res.Sat_abort _ _).2 ⟨hfb, le_refl _⟩
  split
  · exact (Res.Sat_abort _ _).2 ⟨hfb, le_refl _⟩
  generalize hw2 : fputs _ _ = w2
  have hd := digestLoop_digest_len env f.buffer ((rand env s.w).1 % MAX_BLOB_LENGTH)
    ⟨w2, s.digest⟩
  revert hd
  cases digestLoop env f.buffer ((rand env s.w).1 % MAX_BLOB_LENGTH) ⟨w2, s.digest⟩ with
  | ok d => simp only [Res.Sat_ok]; intro h; exact ⟨hfb, h⟩
  | abort d => simp only [Res.Sat_abort]; intro h; exact ⟨hfb, h⟩
  | fuel => simp [Res.Sat_fuel]

theorem blobLoop_inv (env : Env) (pfx : List Nat) (n i : Nat) (s : BState) :
    (forLoopR (blobBody env pfx) n i s).Sat
      (fun s1 => s1.buffer.length = s.buffer.length ∧ s.digest.length ≤ s1.digest.length) := by
  apply forLoopR_sat (blobBody env pfx)
    (fun s s1 => s1.buffer.length = s.buffer.length ∧ s.digest.length ≤ s1.digest.length)
  · intro s; exact ⟨rfl, le_refl _⟩
  · intro a b c h1 h2; exact ⟨by rw [h2.1, h1.1], le_trans h1.2 h2.2⟩
  · intro i s; exact blobBody_inv env pfx i s

theorem fill_write (env : Env) (f : FState) (len j : Nat) (hf : f.buffer.length = 8192)
    (hlen : len < 8192) (hj : j < len) :
    j < (forLoop (fillBody env) j 0 f).buffer.length ∧
    ∃ v, (fillBody env j (forLoop (fillBody env) j 0 f)).buffer[j]? = some v := by
  have h := (fill_w env j 0 f).2
  refine ⟨by omega, ?_⟩
  simp only [fillBody]
  exact ⟨_, List.getElem?_set_self (by omega)⟩

end Blobs

/-- C16: every array index of the two programs is in bounds.  Every entry
of the registry has `digest_len <= 64`; the array `digest` has 64 bytes
when it is declared and at least 64 after every call of `hash`, so each
read `digest[k]`, `k < digest_len`, has `k < 64` and finds a byte.  In the
blob generator `buffer` has 8192 bytes at every turn of the loop,
`len = rand() % 8192 < 8192`, and each write `buffer[j]`, `j < len`, is
inside it.  In the word processor the buffer is always one reachable from
`empty_buffer`, for which each `i < buf.len` has `i < buf.cap` and
`buf.data[i]` is a byte of the allocation. -/
theorem in_bounds (env : Env) (stdin : List Nat) (argv : List (List Nat)) :
    (∀ a ∈ algos, a.digest_len ≤ 64) ∧
    (fresh env 0 64).length = 64 ∧
    (∀ str len i s s2, i < N_ALGOS → 64 ≤ s.digest.length →
      digestBody env str len i s = .ok s2 →
      64 ≤ s2.digest.length ∧
      ∀ k, k < (algos.getD i default).digest_len →
        k < 64 ∧ ∃ v, s2.digest[k]? = some v ∧ s2.digest.getD k 0 = v) ∧
    (∀ str len s, 64 ≤ s.digest.length →
      (digestLoop env str len s).Sat (fun s2 => 64 ≤ s2.digest.length)) ∧
    ((fresh env 1 Blobs.MAX_BLOB_LENGTH).length = 8192 ∧
      (∀ w, (rand env w).1 % Blobs.MAX_BLOB_LENGTH < 8192) ∧
      (∀ (f : Blobs.FState) (len j : Nat), f.buffer.length = 8192 → len < 8192 → j < len →
        j < (forLoop (Blobs.fillBody env) j 0 f).buffer.length ∧
        ∃ v, (Blobs.fillBody env j (forLoop (Blobs.fillBody env) j 0 f)).buffer[j]? = some v) ∧
      (∀ pfx n i s, s.buffer.length = 8192 → 64 ≤ s.digest.length →
        (forLoopR (Blobs.blobBody env pfx) n i s).Sat
          (fun s1 => s1.buffer.length = 8192 ∧ 64 ≤ s1.digest.length)) ∧
      (∀ n, (forLoopR (Blobs.blobBody env (Blobs.dirOf argv)) n 0 (Blobs.startOf env)).Sat
          (fun s1 => s1.buffer.length = 8192 ∧ 64 ≤ s1.digest.length)) ∧
      Blobs.main env argv
        = forLoopR (Blobs.blobBody env (Blobs.dirOf argv)) Blobs.N_BLOBS 0 (Blobs.startOf env)) ∧
    ((∀ buf, Words.Reachable env buf →
        ∀ i, i < buf.len → i < buf.cap ∧ ∃ v, buf.data[i]? = some v ∧ buf.data.getD i 0 = v) ∧
      (∀ fuel s, s.w.stdin.length < fuel → Words.Reachable env s.buf →
        (Words.wordLoop env fuel s).Sat (fun s1 => Words.Reachable env s1.buf)) ∧
      (∀ s, (Words.emitRow env s).Sat (fun s1 => s1.buf = s.buf)) ∧
      (∀ fuel s, s.w.stdin.length < fuel → Words.Reachable env s.buf → 64 ≤ s.digest.length →
        (Words.mainLoop env fuel s).Sat
          (fun s1 => Words.Reachable env s1.buf ∧ 64 ≤ s1.digest.length)) ∧
      (Words.main env stdin).Sat
        (fun s1 => Words.Reachable env s1.buf ∧ 64 ≤ s1.digest.length)) := by
  refine ⟨by decide, by simp [fresh], digestBody_reads env, ?_,
    ⟨by simp [fresh, Blobs.MAX_BLOB_LENGTH], fun w => Nat.mod_lt _ (by decide),
      Blobs.fill_write env, ?_, ?_, Blobs.main_eq env argv⟩,
    ⟨?_, ?_, ?_, Words.mainLoop_inv env, Words.main_inv env stdin⟩⟩
  · intro str len s h
    exact Res.Sat.imp _ _ _ (fun s2 h2 => le_trans h h2) (digestLoop_digest_len env str len s)
  · intro pfx n i s hb hd
    exact Res.Sat.imp _ _ _ (fun s1 h1 => ⟨by rw [h1.1, hb], le_trans hd h1.2⟩)
      (Blobs.blobLoop_inv env pfx n i s)
  · intro n
    exact Res.Sat.imp _ _ _
      (fun s1 h1 => ⟨by rw [h1.1]; simp [Blobs.startOf, fresh, Blobs.MAX_BLOB_LENGTH],
        le_trans (by simp [Blobs.startOf, fresh]) h1.2⟩)
      (Blobs.blobLoop_inv env (Blobs.dirOf argv) n 0 (Blobs.startOf env))
  · intro buf hr i hi
    obtain ⟨h1, h2⟩ := Words.Reachable.bufOk env buf hr
    have hlt : i < buf.data.length := by omega
    exact ⟨by omega, buf.data[i], List.getElem?_eq_getElem hlt, List.getD_eq_getElem _ _ hlt⟩
  · intro fuel s hf hr
    exact Res.Sat.imp _ _ _ (fun s1 h1 => h1.1) (Words.wordLoop_inv env fuel s hf hr)
  · intro s
    exact Res.Sat.imp _ _ _ (fun s1 h1 => h1.1) (Words.emitRow_inv env s)
